import Mathlib

/-!
YarnKnitter: dialogue line parser and dialogue controller.

A shallow embedding of `Source/DialogueLineParser.cpp` and
`Source/DialogueController.cpp`, followed by theorems about the embedded
functions.

Conventions of the embedding.

* `std::string` is a list of characters (`Str`); `std::vector` is a list.
* The loops of `split`, `parseGroups`, `parseNodes`, `substituteVariables` and
  `skipDialogue` and the recursion of the controller are driven by a
  `fuel : Nat` that decreases by one per round or call; running out of it is
  the error `Err.outOfFuel`. The other loops traverse a container or a string
  once and are structural recursions.
* An uncaught C++ exception is an error value (`Err.outOfRange` for
  `std::out_of_range`).
* `size_t` positions are natural numbers and `npos` is `none`; where the source
  relies on wrap-around (`npos + 2`, `endPos - startPos`, `startPos - 2`) the
  wrapped value is written out case by case. Strings are assumed shorter than
  `2 ^ 63` characters.
-/

namespace YarnKnitter

/-- A `std::string`: a sequence of characters. -/
abbrev Str := List Char

/-- Outcomes that are not a normal return of the C++ function. -/
inductive Err where
  /-- The loop or recursion did not finish within the given fuel. -/
  | outOfFuel
  /-- The call throws `std::out_of_range` (`substr` or `replace` with a position past the end). -/
  | outOfRange
  /-- The source reads `m_nodeStack.back()` through a reference taken before the vector was
  pushed to or popped from; what it reads depends on the memory layout. -/
  | staleReference
  deriving DecidableEq, Repr

deriving instance DecidableEq for Except

/-! ## Text utilities (`DialogueLineParser.cpp`, helper functions) -/

/-- Search for `pat` in `s`, the first candidate position being `k`: the helper of `find`. -/
def findAux (pat : Str) : Str → Nat → Option Nat
  | [], k => if pat = [] then some k else none
  | c :: cs, k => if pat.isPrefixOf (c :: cs) then some k else findAux pat cs (k + 1)

/-- The call `s.find(pat, pos)` of `std::string`: the index of the first occurrence of `pat` that
starts at or after `pos`; `none` stands for `npos`. -/
def find (s pat : Str) (pos : Nat) : Option Nat :=
  if pos ≤ s.length then findAux pat (s.drop pos) pos else none

/-- The call `s.substr(pos)` for a position that is known to be at most `s.size()`. -/
def substrFrom (s : Str) (pos : Nat) : Str := s.drop pos

/-- The call `s.substr(pos, len)` for a position that is known to be at most `s.size()`. -/
def substr (s : Str) (pos len : Nat) : Str := (s.drop pos).take len

/-- The delimiters of `trim`: space, form feed, line feed, carriage return, tab, vertical tab. -/
def isTrimDelimiter (c : Char) : Bool :=
  c = ' ' || c = Char.ofNat 12 || c = '\n' || c = '\r' || c = '\t' || c = Char.ofNat 11

/-- The function `trim`: erase the leading delimiters (everything when there is no other character),
then everything after the last character that is not a delimiter. -/
def trim (s : Str) : Str :=
  ((s.dropWhile isTrimDelimiter).reverse.dropWhile isTrimDelimiter).reverse

/-- The function `startsWith`: false on the empty string, else whether the first
`_startsWith.length()` characters are `_startsWith`. -/
def startsWith (s pat : Str) : Bool :=
  if s = [] then false else s.take pat.length = pat

/-- The loop of `split`: `start` is the position after the last delimiter found. -/
def splitLoop : Nat → Str → Str → Nat → List Str → Except Err (List Str)
  | 0, _, _, _, _ => .error .outOfFuel
  | fuel + 1, s, delim, start, elems =>
    match find s delim start with
    | some e => splitLoop fuel s delim (e + delim.length) (elems ++ [substr s start (e - start)])
    | none => .ok (elems ++ [substrFrom s start])

/-- The function `split`: the pieces of `s` between the occurrences of `delim`, appended to
`elems`. There is always at least one piece. -/
def split (fuel : Nat) (s delim : Str) (elems : List Str) : Except Err (List Str) :=
  splitLoop fuel s delim 0 elems

/-- The loop of `calulateIndentLevel`: a space adds to `spaces`, a tab adds a level and resets
`spaces`, any other character ends the scan; the result is `level + spaces / 4`. -/
def calulateIndentLevelLoop : Str → Nat → Nat → Nat
  | [], level, spaces => level + spaces / 4
  | c :: cs, level, spaces =>
    if c = ' ' then calulateIndentLevelLoop cs level (spaces + 1)
    else if c = '\t' then calulateIndentLevelLoop cs (level + 1) 0
    else level + spaces / 4

/-- The function `calulateIndentLevel` (the name is the source's). -/
def calulateIndentLevel (s : Str) : Nat := calulateIndentLevelLoop s 0 0

/-! ## The node model (`DialogueNode.h`) -/

/-- The struct `DialogueNode::Action`. -/
structure DialogueNode.Action where
  name : Str
  params : List Str
  deriving DecidableEq, Repr, Inhabited

/-- The struct `DialogueNode::Option`. -/
structure DialogueNode.Option where
  content : Str := []
  gotoNode : Str := []
  isShortcut : Bool := false
  conditions : List Str := []
  actions : List DialogueNode.Action := []
  deriving DecidableEq, Repr, Inhabited

/-- The struct `DialogueNode::Line`. -/
structure DialogueNode.Line where
  actorKey : Str := []
  content : Str := []
  conditions : List Str := []
  options : List DialogueNode.Option := []
  actions : List DialogueNode.Action := []
  gotoNode : Str := []
  deriving DecidableEq, Repr, Inhabited

/-- The struct `DialogueNode`. -/
structure DialogueNode where
  name : Str := []
  tags : Str := []
  lines : List DialogueNode.Line := []
  deriving DecidableEq, Repr, Inhabited

/-! ## The line parser (`DialogueLineParser.cpp`) -/

def k_lineCommentBegin : Str := "//".toList
def k_separator : Str := "|".toList
def k_actorContentSeparator : Str := ":".toList
def k_ifBegin : Str := "<<if".toList
def k_ifEnd : Str := ">>".toList
def k_actionBegin : Str := "<<".toList
def k_actionEnd : Str := ">>".toList
def k_gotoBegin : Str := "[[".toList
def k_gotoEnd : Str := "]]".toList
def k_variableBegin : Str := "$(".toList
def k_variableEnd : Str := ")".toList
def k_optionShortcut : Str := "->".toList
def k_potentialLine : Str := "%".toList

/-- The loop of `parseGroups`. `pre` is the text before the first opening delimiter, computed once
before the loop. In each round `startPos` and `endPos` are the first occurrences of the two
delimiters in `s`; the text between them is trimmed and recorded (when the closing delimiter comes
first, `endPos - startPos` wraps around and `substr` runs to the end of the string), and `s`
becomes `pre` followed by what came after the closing delimiter. -/
def parseGroupsLoop : Nat → Str → Str → Str → Str → List Str → Except Err (Str × List Str)
  | 0, _, _, _, _, _ => .error .outOfFuel
  | fuel + 1, pre, start, stop, s, contents =>
    match find s start 0, find s stop 0 with
    | some startPos, some endPos =>
      let startPos := startPos + start.length
      let content :=
        trim (if startPos ≤ endPos then substr s startPos (endPos - startPos) else substrFrom s startPos)
      parseGroupsLoop fuel pre start stop (pre ++ substrFrom s (endPos + stop.length))
        (contents ++ [content])
    | _, _ => .ok (s, contents)

/-- The method `parseGroups`: returns the rewritten `s` and `out_contents`. -/
def parseGroups (fuel : Nat) (s start stop : Str) (contents : List Str) :
    Except Err (Str × List Str) :=
  let pre := match find s start 0 with
    | some startPos => substr s 0 startPos
    | none => s
  parseGroupsLoop fuel pre start stop s contents

/-- The second loop of `parseGroupedLists`: each group is split at the separator and its items are
trimmed. -/
def splitGroups (fuel : Nat) (seperator : Str) : List Str → Except Err (List (List Str))
  | [] => .ok []
  | g :: gs =>
    match split fuel g seperator [] with
    | .error e => .error e
    | .ok list =>
      match splitGroups fuel seperator gs with
      | .error e => .error e
      | .ok rest => .ok (list.map trim :: rest)

/-- The method `parseGroupedLists`: returns the rewritten `s` and `out_lists`. -/
def parseGroupedLists (fuel : Nat) (s start stop seperator : Str) (lists : List (List Str)) :
    Except Err (Str × List (List Str)) :=
  match parseGroups fuel s start stop [] with
  | .error e => .error e
  | .ok (s, groups) =>
    match splitGroups fuel seperator groups with
    | .error e => .error e
    | .ok parsed => .ok (s, lists ++ parsed)

/-- The loop over `actionGroups` in `parseOutCommon`: an empty list is reported and skipped, any
other list gives an action named by its first item. -/
def actionsOfGroups : List (List Str) → List DialogueNode.Action
  | [] => []
  | [] :: rest => actionsOfGroups rest
  | (name :: params) :: rest => { name := name, params := params } :: actionsOfGroups rest

/-- What `parseOutCommon` has parsed out of the line. -/
structure Common where
  lineString : Str
  conditions : List Str
  actions : List DialogueNode.Action
  gotoNode : Option Str
  deriving DecidableEq, Repr

/-- The lambda `parseOutCommon` of `parseLine`. Both callers pass non-null `out_conditions` and
`out_actions` that are empty; `wantGoto` says whether `out_goto` is non-null. The result holds the
rewritten `lineString`, the conditions and actions pushed, and the value assigned to `*out_goto`
if any. -/
def parseOutCommon (fuel : Nat) (lineString : Str) (wantGoto : Bool) : Except Err Common :=
  match (if lineString ≠ [] then parseGroups fuel lineString k_ifBegin k_ifEnd []
      else .ok (lineString, [])) with
  | .error e => .error e
  | .ok (lineString, conditions) =>
    match (if lineString ≠ [] then
        parseGroupedLists fuel lineString k_actionBegin k_actionEnd k_separator []
      else .ok (lineString, [])) with
    | .error e => .error e
    | .ok (lineString, actionGroups) =>
      match (if wantGoto ∧ lineString ≠ [] then
          parseGroups fuel lineString k_gotoBegin k_gotoEnd []
        else .ok (lineString, [])) with
      | .error e => .error e
      | .ok (lineString, gotos) =>
        .ok { lineString := lineString, conditions := conditions,
              actions := actionsOfGroups actionGroups, gotoNode := gotos.head? }

/-- The statement `lines.back().options.push_back(option)` on a non-empty vector of lines. -/
def pushOptionToBack (lines : List DialogueNode.Line) (option : DialogueNode.Option) :
    List DialogueNode.Line :=
  match lines.getLast? with
  | some l => lines.dropLast ++ [{ l with options := l.options ++ [option] }]
  | none => lines

/-- The loop over `gotoParamGroups` in `parseLine`: a group of one value sets the goto of the line
and ends the loop; a group of more values adds an inline option. -/
def gotoGroupsLoop : List (List Str) → DialogueNode.Line → DialogueNode.Line
  | [], newLine => newLine
  | [] :: rest, newLine => gotoGroupsLoop rest newLine
  | [target] :: _, newLine => { newLine with gotoNode := target }
  | (text :: target :: _) :: rest, newLine =>
    gotoGroupsLoop rest
      { newLine with options := newLine.options ++
          [{ content := text, gotoNode := target, isShortcut := false }] }

/-- The shortcut option that `parseLine` builds from what `parseOutCommon` found in the line
after the `->`. -/
def shortcutOption (c : Common) : DialogueNode.Option :=
  { content := trim c.lineString, gotoNode := c.gotoNode.getD [], isShortcut := true,
    conditions := c.conditions, actions := c.actions }

/-- The end of `parseLine` for a normal line: the actor key is the trimmed text before the first
`:` if there is one, the content the trimmed rest. -/
def withActorAndContent (newLine : DialogueNode.Line) (lineString : Str) : DialogueNode.Line :=
  if lineString ≠ [] then
    match find lineString k_actorContentSeparator 0 with
    | some len =>
      { newLine with actorKey := trim (substr lineString 0 len),
                     content := trim (substrFrom lineString (len + 1)) }
    | none => { newLine with content := trim lineString }
  else { newLine with content := trim lineString }

/-- The method `parseLine`: the boolean result and the node after the call. -/
def parseLine (fuel : Nat) (lineString : Str) (node : DialogueNode) :
    Except Err (Bool × DialogueNode) :=
  if lineString = [] then .ok (false, node)
  else if startsWith lineString k_optionShortcut then
    match parseOutCommon fuel (substrFrom lineString 2) true with
    | .error e => .error e
    | .ok c =>
      .ok (false, { node with
        lines := pushOptionToBack (if node.lines = [] then [{}] else node.lines) (shortcutOption c) })
  else
    match parseGroupedLists fuel lineString k_gotoBegin k_gotoEnd k_separator [] with
    | .error e => .error e
    | .ok (lineString, gotoParamGroups) =>
      match parseOutCommon fuel lineString false with
      | .error e => .error e
      | .ok c =>
        .ok (true, { node with lines := node.lines ++
          [withActorAndContent
            { gotoGroupsLoop gotoParamGroups {} with conditions := c.conditions, actions := c.actions }
            c.lineString] })

/-- The lambda `flushPotentialLines` of `parseNodes`: when potential lines are buffered, the one at
index `rand() % size` is appended to the node and the buffer is cleared. `rand k` is the value of
the `k`-th call of `rand()` since `srand`; the result holds the node, the buffer and the number of
calls of `rand()` made so far. -/
def flushPotentialLines (rand : Nat → Nat) (node potentialNode : DialogueNode) (k : Nat) :
    DialogueNode × DialogueNode × Nat :=
  if h : potentialNode.lines ≠ [] then
    let resolvedLine := potentialNode.lines.get
      ⟨rand k % potentialNode.lines.length, Nat.mod_lt _ (List.length_pos.mpr h)⟩
    ({ node with lines := node.lines ++ [resolvedLine] }, { potentialNode with lines := [] }, k + 1)
  else (node, potentialNode, k)

/-- The linking of one line to the child node parsed last: the goto of its last option when that
one is a shortcut option, nothing when its last option is an inline option, the goto of the line
itself when it has no option. -/
def linkLine (previousLine : DialogueNode.Line) (childName : Str) : DialogueNode.Line :=
  match previousLine.options.getLast? with
  | some option =>
    if option.isShortcut then
      { previousLine with
        options := previousLine.options.dropLast ++ [{ option with gotoNode := childName }] }
    else previousLine
  | none => { previousLine with gotoNode := childName }

/-- Apply `f` to the last element of a vector (`v.back()`), if there is one. -/
def modifyBack {α : Type} (f : α → α) (v : List α) : List α :=
  match v.getLast? with
  | some x => v.dropLast ++ [f x]
  | none => v

/-- The block of `parseNodes` that links the previous line to the child node: the previous line is
the last buffered potential line if there is one, else the last line of the node if there is one. -/
def linkPrevious (node potentialNode : DialogueNode) (childName : Str) :
    DialogueNode × DialogueNode :=
  if potentialNode.lines ≠ [] then
    (node, { potentialNode with lines := modifyBack (linkLine · childName) potentialNode.lines })
  else if node.lines ≠ [] then
    ({ node with lines := modifyBack (linkLine · childName) node.lines }, potentialNode)
  else (node, potentialNode)

/-- The name `_nodeSet.back().name` (the node set is never empty where the source reads it). -/
def backName (nodeSet : List DialogueNode) : Str :=
  match nodeSet.getLast? with
  | some n => n.name
  | none => []

/-- The name of an implicit child node: `_name << ":" << i`, the index in decimal. -/
def childName (name : Str) (i : Nat) : Str := name ++ ":".toList ++ Nat.toDigits 10 i

/-- The state of one scope of `parseNodes`: the line index `i`, the node being built, the buffer
of potential lines, the node set, and the number of calls of `rand()` so far. -/
structure Scope where
  i : Nat
  node : DialogueNode
  potentialNode : DialogueNode
  nodeSet : List DialogueNode
  k : Nat
  deriving DecidableEq, Repr

/-- The end of `parseNodes`: flush the potential lines, push the node, return the index. -/
def finishScope (rand : Nat → Nat) (sc : Scope) : Nat × List DialogueNode × Nat :=
  (sc.i, sc.nodeSet ++ [(flushPotentialLines rand sc.node sc.potentialNode sc.k).1],
    (flushPotentialLines rand sc.node sc.potentialNode sc.k).2.2)

/-- The `for` loop of `parseNodes` followed by its end, for the scope of the node `name` at
indentation `indentLevel`; the recursive call of `parseNodes` for a deeper line starts the same
loop with a fresh node and buffer. The result holds the returned index, the node set, and the
number of calls of `rand()` so far. -/
def parseNodesLoop (rand : Nat → Nat) (tags : Str) (lines : List Str) :
    Nat → Str → Nat → Scope → Except Err (Nat × List DialogueNode × Nat)
  | 0, _, _, _ => .error .outOfFuel
  | fuel + 1, name, indentLevel, sc =>
    if h : sc.i < lines.length then
      let lineIndent := calulateIndentLevel (lines.get ⟨sc.i, h⟩)
      let lineString := trim (lines.get ⟨sc.i, h⟩)
      if startsWith lineString k_optionShortcut ∧ sc.potentialNode.lines ≠ [] then
        match parseLine fuel lineString sc.potentialNode with
        | .error e => .error e
        | .ok (_, potentialNode) =>
          parseNodesLoop rand tags lines fuel name indentLevel
            { sc with i := sc.i + 1, potentialNode := potentialNode }
      else if lineIndent > indentLevel then
        match parseNodesLoop rand tags lines fuel (childName name sc.i) lineIndent
            { i := sc.i, node := { name := childName name sc.i, tags := tags },
              potentialNode := {}, nodeSet := sc.nodeSet, k := sc.k } with
        | .error e => .error e
        | .ok (i, nodeSet, k) =>
          parseNodesLoop rand tags lines fuel name indentLevel
            { i := i, node := (linkPrevious sc.node sc.potentialNode (backName nodeSet)).1,
              potentialNode := (linkPrevious sc.node sc.potentialNode (backName nodeSet)).2,
              nodeSet := nodeSet, k := k }
      else if lineIndent < indentLevel then .ok (finishScope rand sc)
      else if startsWith lineString k_potentialLine then
        match parseLine fuel (substrFrom lineString k_potentialLine.length) sc.potentialNode with
        | .error e => .error e
        | .ok (_, potentialNode) =>
          parseNodesLoop rand tags lines fuel name indentLevel
            { sc with i := sc.i + 1, potentialNode := potentialNode }
      else
        match parseLine fuel lineString
            (flushPotentialLines rand sc.node sc.potentialNode sc.k).1 with
        | .error e => .error e
        | .ok (_, node) =>
          parseNodesLoop rand tags lines fuel name indentLevel
            { sc with i := sc.i + 1, node := node,
                      potentialNode := (flushPotentialLines rand sc.node sc.potentialNode sc.k).2.1,
                      k := (flushPotentialLines rand sc.node sc.potentialNode sc.k).2.2 }
    else .ok (finishScope rand sc)

/-- The method `parseNodes`. -/
def parseNodes (rand : Nat → Nat) (fuel : Nat) (name tags : Str) (lines : List Str)
    (lineIndex indentLevel : Nat) (nodeSet : List DialogueNode) (k : Nat) :
    Except Err (Nat × List DialogueNode × Nat) :=
  parseNodesLoop rand tags lines fuel name indentLevel
    { i := lineIndex, node := { name := name, tags := tags }, potentialNode := {},
      nodeSet := nodeSet, k := k }

/-- The lines that `getline` reads from the body: the text between line feeds, with no last
empty line after a final line feed. -/
def getlinesAux : Str → Str → List Str
  | cur, [] => if cur = [] then [] else [cur]
  | cur, c :: rest => if c = '\n' then cur :: getlinesAux [] rest else getlinesAux (cur ++ [c]) rest

/-- All the lines of a body, as the `while (getline(stream, lineString))` loop sees them. -/
def getlines (body : Str) : List Str := getlinesAux [] body

/-- The comment stripping of `parse`: the line up to the first `//`. -/
def stripComment (lineString : Str) : Str :=
  match find lineString k_lineCommentBegin 0 with
  | some lineCommentStartIndex => substr lineString 0 lineCommentStartIndex
  | none => lineString

/-- The endline token loop of `parse`: every backslash followed by `n`, found from left to right
and searching on after the replacement, becomes a line feed. -/
def replaceEndlineTokens : Str → Str
  | [] => []
  | [c] => [c]
  | c :: d :: rest =>
    if c = '\\' ∧ d = 'n' then '\n' :: replaceEndlineTokens rest
    else c :: replaceEndlineTokens (d :: rest)

/-- The method `parse`. `crand seed k` is the value of the `k`-th call of `rand()` after
`srand(seed)` (the C library generator is not part of the repository). The result is `out_nodes`,
which the caller passes in empty. -/
def parse (crand : Nat → Nat → Nat) (fuel : Nat) (name tags body : Str) (seed : Nat)
    (nodes : List DialogueNode) : Except Err (List DialogueNode) :=
  match parseNodes (crand seed) fuel name tags
      ((getlines body).map (fun l => replaceEndlineTokens (stripComment l))) 0 0 nodes 0 with
  | .error e => .error e
  | .ok (_, nodes, _) => .ok nodes

/-- What the `resolveAction` callback of the host does to the controller while it runs. -/
inductive HostCall where
  /-- The callback does not call the controller. -/
  | nothing
  /-- The callback calls `stop()`. -/
  | stop
  /-- The callback calls `setIsPaused(true)`. -/
  | pause
  deriving DecidableEq, Repr

/-- The interface `IDialogueResolver`, both methods `const`. `resolveVariable name` is the content
of `out_value` after the call (the callers pass an empty string and ignore the boolean result).
`resolveAction name params` gives the boolean result and what the callback does to the
controller while it runs. -/
structure IDialogueResolver where
  resolveVariable : Str → Str
  resolveAction : Str → List Str → Bool × HostCall

/-- The value `std::string::npos` of a 64-bit `size_t`. -/
def npos : Nat := 2 ^ 64 - 1

/-- The value of `s.find(k_variableBegin, pos) + k_variableBegin.size()` as a `size_t`: when
nothing is found, `npos + 2` wraps around to `1`. -/
def findVariableBegin (s : Str) (pos : Nat) : Nat :=
  match find s k_variableBegin pos with
  | some p => p + k_variableBegin.length
  | none => 1

/-- The loop of `substituteVariables`. `endPos` is `none` for `npos`; `asked` lists the names
passed to `resolveVariable` so far. `substr` throws when `startPos` is past the end, and when
`endPos < startPos` its length `endPos - startPos` wraps around, so that it runs to the end of
the string. `replace` throws when `startPos - 2` is past the end, which includes the wrap-around
for `startPos < 2`; its count is clipped to the end of the string. -/
def substituteVariablesLoop (r : IDialogueResolver) :
    Nat → Str → Nat → Option Nat → List Str → Except Err (Str × List Str)
  | 0, _, _, _, _ => .error .outOfFuel
  | _ + 1, s, _, none, asked => .ok (s, asked)
  | fuel + 1, s, startPos, some endPos, asked =>
    if startPos ≠ npos then
      if startPos > s.length then .error .outOfRange
      else
        let varName :=
          if startPos ≤ endPos then substr s startPos (endPos - startPos) else substrFrom s startPos
        let value := r.resolveVariable varName
        if startPos < k_variableBegin.length then .error .outOfRange
        else
          let pos := startPos - k_variableBegin.length
          let s := s.take pos ++ value ++
            s.drop (pos + (k_variableBegin.length + varName.length + k_variableEnd.length))
          let nextSearchIndex := startPos + value.length
          substituteVariablesLoop r fuel s (findVariableBegin s nextSearchIndex)
            (find s k_variableEnd nextSearchIndex) (asked ++ [varName])
    else .ok (s, asked)

/-- The method `substituteVariables`: the resulting string and the names passed to
`resolveVariable`, in order. With a null resolver the string is returned as it is. -/
def substituteVariables (fuel : Nat) (resolver : Option IDialogueResolver) (s : Str) :
    Except Err (Str × List Str) :=
  match resolver with
  | none => .ok (s, [])
  | some r => substituteVariablesLoop r fuel s (findVariableBegin s 0) (find s k_variableEnd 0) []

/-- The enum `OperatorType` of `resolveCondition`. -/
inductive OperatorType where
  | Equals | NotEquals | GreaterThan | LessThan | GreaterThanOrEqualTo | LessThanOrEqualTo | None
  deriving DecidableEq, Repr

/-- The table `ops` of `resolveCondition`, in the order of the source. -/
def ops : List (Str × OperatorType) :=
  [("==".toList, .Equals), ("!=".toList, .NotEquals), (">=".toList, .GreaterThanOrEqualTo),
   ("<=".toList, .LessThanOrEqualTo), (">".toList, .GreaterThan), ("<".toList, .LessThan)]

/-- The operator search of `resolveCondition`: the first operator of the table that occurs in the
condition splits it into `lvalue` and `rvalue`; with none, `lvalue` is the whole condition. -/
def findOperator (conditionString : Str) : List (Str × OperatorType) → Str × Str × OperatorType
  | [] => (conditionString, [], .None)
  | (opString, op) :: rest =>
    match find conditionString opString 0 with
    | some index =>
      (substr conditionString 0 index, substrFrom conditionString (index + opString.length), op)
    | none => findOperator conditionString rest

/-- What `fromString<float>` does with an operand. -/
inductive FloatParse where
  /-- The extraction succeeds. `v` is the value of the `float` in units of `2 ^ (-149)`, the
  distance between the smallest floats: every finite `float` is such an integer. -/
  | value (v : Int)
  /-- The extraction fails and `std::invalid_argument` is thrown. -/
  | fail
  deriving DecidableEq, Repr

/-- The value of a string of decimal digits. -/
def digitsValue (ds : Str) : Nat := ds.foldl (fun acc d => 10 * acc + (d.toNat - '0'.toNat)) 0

/-- The function `std::isspace` in the classic locale: the characters that `is >> t` skips before
it reads. -/
def isSpace (c : Char) : Bool :=
  c = ' ' || c = '\t' || c = '\n' || c = '\x0b' || c = '\x0c' || c = '\r'

/-- An optional sign: whether it is a minus, and the text after it. -/
def takeSign : Str → Bool × Str
  | '-' :: cs => (true, cs)
  | '+' :: cs => (false, cs)
  | cs => (false, cs)

/-- The quotient `n / d` rounded to the nearest integer, a tie going to the even one. -/
def roundHalfEven (n d : Nat) : Nat :=
  if 2 * (n % d) < d then n / d
  else if d < 2 * (n % d) then n / d + 1
  else if n / d % 2 = 0 then n / d else n / d + 1

/-- One step of `binaryLog`: when `p.1` has more than `w` binary digits, drop `w` of them and
count them in `p.2`. -/
def binaryLogStep (p : Nat × Nat) (w : Nat) : Nat × Nat :=
  if 2 ^ w ≤ p.1 then (p.1 / 2 ^ w, p.2 + w) else p

/-- The position of the leading binary digit of `x`: the `k` with `2 ^ k ≤ x < 2 ^ (k + 1)`, for
`0 < x < 2 ^ 384`; 0 for 0, and 383 from `2 ^ 384` on. -/
def binaryLog (x : Nat) : Nat :=
  ([128, 128, 64, 32, 16, 8, 4, 2, 1].foldl binaryLogStep (x, 0)).2

/-- The `float` nearest to `n / d`, a tie going to the even mantissa, in units of `2 ^ (-149)`;
`none` when that is past the largest `float`, that is from `2 ^ 277` units on. Below `2 ^ 24`
units the floats are one unit apart; from there on a `float` has 24 significant bits, so that
the floats next to a number with leading binary digit at position `k` are `2 ^ (k - 23)` units
apart. -/
def roundToFloat (n d : Nat) : Option Nat :=
  let shift := binaryLog (n * 2 ^ 149 / d) - 23
  let v := roundHalfEven (n * 2 ^ 149) (d * 2 ^ shift) * 2 ^ shift
  if binaryLog v < 277 then some v else none

/-- The exponent part of a number: 0 when the text does not go on with `e` or `E`, `none` when
no digit follows the `e` and its optional sign. -/
def takeExponent : Str → Option Int
  | [] => some 0
  | c :: t =>
    if c = 'e' ∨ c = 'E' then
      let digits := (takeSign t).2.takeWhile Char.isDigit
      if digits = [] then none
      else some (if (takeSign t).1 then - (digitsValue digits : Int) else digitsValue digits)
    else some 0

/-- The function `fromString<float>`: the extraction `is >> t` of a `float` from the operand, as
the GNU C++ library does it in the classic locale. White space is skipped; then an optional
sign, digits, an optional point with digits and, after at least one digit, an optional exponent
are read, and the text that follows is left unread. The extraction fails when no digit was read,
when an `e` was read without a digit after it, and when the number is past the largest `float`;
otherwise the value is the number read, rounded to the nearest `float`. -/
def fromStringFloat (s : Str) : FloatParse :=
  let signed := takeSign (s.dropWhile isSpace)
  let whole := signed.2.takeWhile Char.isDigit
  let afterWhole := signed.2.dropWhile Char.isDigit
  let fraction := match afterWhole with
    | '.' :: t => t.takeWhile Char.isDigit
    | _ => []
  let afterFraction := match afterWhole with
    | '.' :: t => t.dropWhile Char.isDigit
    | _ => afterWhole
  if whole = [] ∧ fraction = [] then .fail
  else
    match takeExponent afterFraction with
    | none => .fail
    | some e =>
      let mantissa := digitsValue (whole ++ fraction)
      let e10 : Int := e - fraction.length
      let rounded :=
        if 0 ≤ e10 then roundToFloat (mantissa * 10 ^ e10.toNat) 1
        else roundToFloat mantissa (10 ^ (-e10).toNat)
      match rounded with
      | none => .fail
      | some v => .value (if signed.1 then - (v : Int) else v)

/-- A comparison of two operands as floats inside the `try` block of `resolveCondition`: when one
of the extractions fails the exception is caught and the condition is false. -/
def compareFloats (cmp : Int → Int → Bool) (lvalue rvalue : Str) : Except Err Bool :=
  match fromStringFloat lvalue, fromStringFloat rvalue with
  | .fail, _ => .ok false
  | _, .fail => .ok false
  | .value a, .value b => .ok (cmp a b)

/-- An operand of a condition: trimmed, and `"false"` when that leaves nothing. -/
def operand (value : Str) : Str := if trim value = [] then "false".toList else trim value

/-- The part of `resolveCondition` after the substitution of the variables: the search of the
operator and the `switch` inside the `try` block. -/
def evalCondition (conditionString : Str) : Except Err Bool :=
  match findOperator conditionString ops with
  | (lvalue, rvalue, .Equals) => .ok (decide (operand lvalue = operand rvalue))
  | (lvalue, rvalue, .NotEquals) => .ok (decide (operand lvalue ≠ operand rvalue))
  | (lvalue, rvalue, .GreaterThanOrEqualTo) =>
    compareFloats (fun a b => decide (a ≥ b)) (operand lvalue) (operand rvalue)
  | (lvalue, rvalue, .LessThanOrEqualTo) =>
    compareFloats (fun a b => decide (a ≤ b)) (operand lvalue) (operand rvalue)
  | (lvalue, rvalue, .GreaterThan) =>
    compareFloats (fun a b => decide (a > b)) (operand lvalue) (operand rvalue)
  | (lvalue, rvalue, .LessThan) =>
    compareFloats (fun a b => decide (a < b)) (operand lvalue) (operand rvalue)
  | (lvalue, _, .None) =>
    if (operand lvalue).map Char.toLower = "true".toList then .ok true
    else if (operand lvalue).map Char.toLower = "false".toList then .ok false
    else match fromStringFloat (operand lvalue) with
      | .value v => .ok (decide (v ≠ 0))
      | .fail => .ok false

/-- The method `resolveCondition`: the result and the names passed to `resolveVariable`. -/
def resolveCondition (fuel : Nat) (resolver : Option IDialogueResolver) (s : Str) :
    Except Err (Bool × List Str) :=
  match substituteVariables fuel resolver (trim s) with
  | .error e => .error e
  | .ok (conditionString, asked) =>
    match evalCondition conditionString with
    | .error e => .error e
    | .ok result => .ok (result, asked)

/-! ## The controller (`DialogueController.cpp`) -/

/-- The struct `DialogueOption` of `DialogueContent.h`. -/
structure DialogueOption where
  isConditionMet : Bool
  content : Str
  deriving DecidableEq, Repr

/-- The struct `DialogueContent`. -/
structure DialogueContent where
  actorKey : Str
  speech : Str
  options : List DialogueOption
  deriving DecidableEq, Repr

/-- A call that the controller makes to the host: the three callbacks of the Delegate and the two
methods of the Resolver. -/
inductive Event where
  | onProgress (content : DialogueContent)
  | onEnd
  | onPaused
  | resolveVariable (varName : Str)
  | resolveAction (name : Str) (params : List Str)
  deriving DecidableEq, Repr

/-- The struct `DialogueController::NodeState`; the pointer to a registered node is the node. -/
structure NodeState where
  node : DialogueNode
  lineIndex : Nat
  deriving DecidableEq, Repr

/-- The struct `DialogueController::Option`: the closure `resolveActions` captures a copy of the
option and runs its actions, so it is the list of those actions. -/
structure PresentedOption where
  nextNode : Str
  resolveActions : List DialogueNode.Action
  deriving DecidableEq, Repr

/-- The members of `DialogueController` that the operations change. `m_nodes` lists the entries
of the map, the newest first. `m_nodeStack` lists the frames from the back of the vector: its
head is `m_nodeStack.back()`. `trace` is the sequence of calls made to the host so far, and
`pushes` the number of `m_nodeStack.push_back` calls so far; the source has neither. -/
structure DialogueController where
  m_nodes : List (Str × DialogueNode) := []
  m_nodeStack : List NodeState := []
  m_presentedOptions : List PresentedOption := []
  m_isSkipping : Bool := false
  m_isProgressing : Bool := false
  m_isPaused : Bool := false
  m_pendingStop : Bool := false
  trace : List Event := []
  pushes : Nat := 0
  deriving DecidableEq, Repr

/-- The members `m_dialogueDelegate` (null or not; a Delegate only records the calls) and
`m_dialogueResolver`, which no operation below changes. -/
structure Host where
  hasDelegate : Bool
  resolver : Option IDialogueResolver

/-- Record the calls of `resolveVariable` made by one substitution. -/
def logVariables (c : DialogueController) (asked : List Str) : DialogueController :=
  { c with trace := c.trace ++ asked.map Event.resolveVariable }

/-- A call of the Delegate, when there is one. -/
def notify (host : Host) (c : DialogueController) (e : Event) : DialogueController :=
  if host.hasDelegate then { c with trace := c.trace ++ [e] } else c

/-- The method `getNodeByName`. -/
def getNodeByName (c : DialogueController) (name : Str) : Option DialogueNode :=
  c.m_nodes.lookup name

/-- The method `addNode(const DialogueNode&)`. -/
def addNode (c : DialogueController) (node : DialogueNode) : Bool × DialogueController :=
  match c.m_nodes.lookup node.name with
  | none => (true, { c with m_nodes := (node.name, node) :: c.m_nodes })
  | some _ => (false, c)

/-- The loop of `addNode(name, tags, body, seed)` over the parsed nodes. -/
def addNodes : List DialogueNode → DialogueController → Bool × DialogueController
  | [], c => (true, c)
  | parsedNode :: rest, c =>
    match addNode c parsedNode with
    | (true, c) => addNodes rest c
    | (false, c) => (false, c)

/-- The method `addNode(name, tags, body, seed)`. -/
def addNodeBody (crand : Nat → Nat → Nat) (fuel : Nat) (host : Host) (c : DialogueController)
    (name tags body : Str) (seed : Nat) : Except Err (Bool × DialogueController) :=
  match host.resolver with
  | some _ =>
    match parse crand fuel name tags body seed [] with
    | .error e => .error e
    | .ok nodes => .ok (addNodes nodes c)
  | none => .ok (false, c)

/-- The method `onDialogueEnded`. -/
def onDialogueEnded (host : Host) (c : DialogueController) : DialogueController :=
  notify host
    { c with m_nodeStack := [], m_presentedOptions := [], m_isProgressing := false,
             m_isSkipping := false, m_isPaused := false, m_pendingStop := false }
    .onEnd

/-- The method `stop`. -/
def stop (host : Host) (c : DialogueController) : Bool × DialogueController :=
  if c.m_isProgressing then (true, { c with m_pendingStop := true })
  else if c.m_nodeStack ≠ [] then (true, onDialogueEnded host c)
  else (false, c)

/-- The call `setIsPaused(true)`. -/
def pause (host : Host) (c : DialogueController) : DialogueController :=
  if c.m_isPaused then c else notify host { c with m_isPaused := true } .onPaused

/-- What the `resolveAction` callback of the host does to the controller. -/
def hostCall (host : Host) (c : DialogueController) : HostCall → DialogueController
  | .nothing => c
  | .stop => (stop host c).2
  | .pause => pause host c

/-- The loop of `resolveAction` over `parsedParams`. -/
def substituteParams (fuel : Nat) (resolver : Option IDialogueResolver) :
    List Str → Except Err (List Str × List Str)
  | [] => .ok ([], [])
  | param :: rest =>
    match substituteVariables fuel resolver param with
    | .error e => .error e
    | .ok (param, asked) =>
      match substituteParams fuel resolver rest with
      | .error e => .error e
      | .ok (rest, askedRest) => .ok (param :: rest, asked ++ askedRest)

/-- The method `resolveAction`. -/
def resolveAction (fuel : Nat) (host : Host) (c : DialogueController) (actionName : Str)
    (params : List Str) : Except Err DialogueController :=
  let nameLower := actionName.map Char.toLower
  if nameLower = "stop".toList ∨ nameLower = "end".toList ∨ nameLower = "fin".toList
      ∨ nameLower = "exit".toList then
    .ok (stop host c).2
  else
    match substituteParams fuel host.resolver params with
    | .error e => .error e
    | .ok (parsedParams, asked) =>
      match host.resolver with
      | some r =>
        .ok (hostCall host
          { c with trace := c.trace ++ asked.map Event.resolveVariable ++
                     [Event.resolveAction actionName parsedParams] }
          (r.resolveAction actionName parsedParams).2)
      | none => .ok (logVariables c asked)

/-- A loop that calls `resolveAction` on each action in turn: the action loop of `advanceLine`
(whose `continue` only continues that same loop) and the closure stored by `present`. -/
def resolveActions (fuel : Nat) (host : Host) :
    List DialogueNode.Action → DialogueController → Except Err DialogueController
  | [], c => .ok c
  | action :: rest, c =>
    match resolveAction fuel host c action.name action.params with
    | .error e => .error e
    | .ok c => resolveActions fuel host rest c

/-- A loop over conditions that stops at the first one that fails: whether all hold, and the
names passed to `resolveVariable`. -/
def resolveConditions (fuel : Nat) (resolver : Option IDialogueResolver) :
    List Str → Except Err (Bool × List Str)
  | [] => .ok (true, [])
  | condition :: rest =>
    match resolveCondition fuel resolver condition with
    | .error e => .error e
    | .ok (false, asked) => .ok (false, asked)
    | .ok (true, asked) =>
      match resolveConditions fuel resolver rest with
      | .error e => .error e
      | .ok (all, askedRest) => .ok (all, asked ++ askedRest)

/-- The loop of `present` over the options of the line: the options of the payload, the entries
of `m_presentedOptions`, and the names passed to `resolveVariable`. -/
def presentOptions (fuel : Nat) (resolver : Option IDialogueResolver) :
    List DialogueNode.Option →
      Except Err (List DialogueOption × List PresentedOption × List Str)
  | [] => .ok ([], [], [])
  | option :: rest =>
    match resolveConditions fuel resolver option.conditions with
    | .error e => .error e
    | .ok (conditionsMet, asked) =>
      match substituteVariables fuel resolver option.content with
      | .error e => .error e
      | .ok (optionContent, askedContent) =>
        match presentOptions fuel resolver rest with
        | .error e => .error e
        | .ok (options, presented, askedRest) =>
          .ok ({ isConditionMet := conditionsMet, content := optionContent } :: options,
               { nextNode := option.gotoNode, resolveActions := option.actions } :: presented,
               asked ++ askedContent ++ askedRest)

/-- The statement `m_nodeStack.back().lineIndex++`. -/
def incrementBack (c : DialogueController) : DialogueController :=
  match c.m_nodeStack with
  | [] => c
  | top :: below => { c with m_nodeStack := { top with lineIndex := top.lineIndex + 1 } :: below }

/-- Whether `enterNode` pushes a frame for this name: the node exists and has lines. -/
def pushesFrame (c : DialogueController) (nodeName : Str) : Bool :=
  match getNodeByName c nodeName with
  | some node => node.lines ≠ []
  | none => false

/-- How the first part of a round of the loop of `advanceLine` ends. -/
inductive Exiting where
  /-- A condition of the current line failed: `lineIndex++; continue;`. -/
  | conditionFailed
  /-- `didAdvance` is true: `continue`, which leaves the loop. -/
  | advanced
  /-- Nothing advanced, and the frame of the round is still at the back of the stack. -/
  | sameFrame
  /-- Nothing advanced, and `exitNode` has popped the frame of the round. -/
  | poppedFrame
  deriving DecidableEq, Repr

mutual

/-- The method `present`. -/
def present (host : Host) : Nat → DialogueController → DialogueNode → Nat →
    Except Err (Bool × DialogueController)
  | 0, _, _, _ => .error .outOfFuel
  | fuel + 1, c, node, index =>
    if h : index < node.lines.length then
      let line := node.lines.get ⟨index, h⟩
      match resolveConditions fuel host.resolver line.conditions with
      | .error e => .error e
      | .ok (false, asked) => .ok (false, logVariables c asked)
      | .ok (true, asked) =>
        let c := logVariables c asked
        if line.actorKey = [] ∧ line.content = [] then
          if line.gotoNode ≠ [] then enterNode host fuel c line.gotoNode 0
          else .ok (false, c)
        else
          match substituteVariables fuel host.resolver line.content with
          | .error e => .error e
          | .ok (speech, askedSpeech) =>
            match presentOptions fuel host.resolver line.options with
            | .error e => .error e
            | .ok (options, presented, askedOptions) =>
              .ok (true, notify host
                { logVariables c (askedSpeech ++ askedOptions) with m_presentedOptions := presented }
                (.onProgress { actorKey := line.actorKey, speech := speech, options := options }))
    else .ok (false, c)

/-- The method `enterNode`. -/
def enterNode (host : Host) : Nat → DialogueController → Str → Nat →
    Except Err (Bool × DialogueController)
  | 0, _, _, _ => .error .outOfFuel
  | fuel + 1, c, nodeName, lineIndex =>
    match getNodeByName c nodeName with
    | some node =>
      let c := incrementBack c
      if node.lines ≠ [] then
        match present host fuel
            { c with m_nodeStack := { node := node, lineIndex := lineIndex } :: c.m_nodeStack,
                     pushes := c.pushes + 1 }
            node lineIndex with
        | .error e => .error e
        | .ok (true, c) => .ok (true, c)
        | .ok (false, c) => advanceLine host fuel c
      else .ok (false, c)
    | none => .ok (false, c)

/-- The method `exitNode`. -/
def exitNode (host : Host) : Nat → DialogueController → Except Err (Bool × DialogueController)
  | 0, _ => .error .outOfFuel
  | fuel + 1, c =>
    match c.m_nodeStack with
    | [] => .ok (false, c)
    | _ :: [] => .ok (true, { c with m_nodeStack := [] })
    | _ :: top :: below =>
      present host fuel { c with m_nodeStack := top :: below } top.node top.lineIndex

/-- The method `advanceLine`. -/
def advanceLine (host : Host) : Nat → DialogueController → Except Err (Bool × DialogueController)
  | 0, _ => .error .outOfFuel
  | fuel + 1, c =>
    match advanceLineLoop host fuel { c with m_isProgressing := true } with
    | .error e => .error e
    | .ok (didAdvance, c') => .ok (didAdvance, { c' with m_isProgressing := c.m_isProgressing })

/-- The `while` loop of `advanceLine`, entered with `didAdvance == false`; the result is
`didAdvance` when the loop is left (a round that sets it leaves the loop). `activeNode` and
`lineIndex` are references to the frame that is at the back of the stack when the round starts.
The first part of a round (exiting the current line) ends in one of four ways, see `Exiting`; the
second part (entering the new line) runs when nothing has advanced.

After an `exitNode` that returned false the two references denote the popped frame. When no frame
was pushed since, the memory still holds that frame, whose `lineIndex` is past its last line, so
the second part calls `exitNode` again. When a frame was pushed since, and when the `enterNode` of
the first part pushed a frame and returned false, what the references denote depends on the
memory layout and the round ends with `Err.staleReference`. -/
def advanceLineLoop (host : Host) : Nat → DialogueController →
    Except Err (Bool × DialogueController)
  | 0, _ => .error .outOfFuel
  | fuel + 1, c =>
    if c.m_isPaused = false ∧ c.m_pendingStop = false then
      match c.m_nodeStack with
      | [] => .ok (false, c)
      | top :: _ =>
        let exiting : Except Err (Exiting × DialogueController) :=
          if h : top.lineIndex < top.node.lines.length then
            let currentLine := top.node.lines.get ⟨top.lineIndex, h⟩
            match resolveConditions fuel host.resolver currentLine.conditions with
            | .error e => .error e
            | .ok (false, asked) => .ok (.conditionFailed, incrementBack (logVariables c asked))
            | .ok (true, asked) =>
              match resolveActions fuel host currentLine.actions (logVariables c asked) with
              | .error e => .error e
              | .ok c =>
                if currentLine.gotoNode ≠ [] then
                  match enterNode host fuel c currentLine.gotoNode 0 with
                  | .error e => .error e
                  | .ok (true, c) => .ok (.advanced, c)
                  | .ok (false, c') =>
                    if pushesFrame c currentLine.gotoNode then .error .staleReference
                    else .ok (.sameFrame, c')
                else .ok (.sameFrame, c)
          else
            match exitNode host fuel c with
            | .error e => .error e
            | .ok (true, c) => .ok (.advanced, c)
            | .ok (false, c') =>
              if c'.pushes = c.pushes then .ok (.poppedFrame, c') else .error .staleReference
        match exiting with
        | .error e => .error e
        | .ok (.conditionFailed, c) => advanceLineLoop host fuel c
        | .ok (.advanced, c) => .ok (true, c)
        | .ok (.sameFrame, c) =>
          match c.m_nodeStack with
          | [] => .error .staleReference
          | top :: _ =>
            let entering :=
              if top.lineIndex + 1 < top.node.lines.length then
                present host fuel (incrementBack c) top.node (top.lineIndex + 1)
              else exitNode host fuel c
            match entering with
            | .error e => .error e
            | .ok (true, c) => .ok (true, c)
            | .ok (false, c) => advanceLineLoop host fuel c
        | .ok (.poppedFrame, c) =>
          match exitNode host fuel c with
          | .error e => .error e
          | .ok (true, c) => .ok (true, c)
          | .ok (false, c) => advanceLineLoop host fuel c
    else .ok (false, c)

end

/-- The end of `run`: an empty stack sets `m_pendingStop`, and a pending stop ends the
dialogue. -/
def endIfStopped (host : Host) (c : DialogueController) : DialogueController :=
  if c.m_nodeStack = [] then onDialogueEnded host { c with m_pendingStop := true }
  else if c.m_pendingStop then onDialogueEnded host c
  else c

/-- The method `run`. -/
def run (host : Host) (fuel : Nat) (c : DialogueController) :
    Except Err (Bool × DialogueController) :=
  if c.m_presentedOptions = [] then
    match (if c.m_pendingStop = false then advanceLine host fuel c else .ok (false, c)) with
    | .error e => .error e
    | .ok (didProgress, c) => .ok (didProgress, endIfStopped host c)
  else .ok (false, c)

/-- The name that `start` enters: the default start node `"Start"` for the empty name. -/
def startNodeName (startNode : Str) : Str :=
  if startNode = [] then "Start".toList else startNode

/-- The method `start(const std::string&, unsigned, bool)`. -/
def start (host : Host) (fuel : Nat) (c : DialogueController) (startNode : Str) (lineIndex : Nat)
    (forceStart : Bool) : Except Err (Bool × DialogueController) :=
  if c.m_nodeStack ≠ [] then
    if forceStart then enterNode host fuel (onDialogueEnded host c) (startNodeName startNode) lineIndex
    else .ok (false, c)
  else enterNode host fuel c (startNodeName startNode) lineIndex

/-- The body of `start(const NodeStack&, bool)` after the check of the running dialogue. -/
def startStackBody (host : Host) (fuel : Nat) (c : DialogueController)
    (nodeStack : List NodeState) : Except Err (Bool × DialogueController) :=
  match nodeStack with
  | [] => .ok (false, c)
  | top :: below =>
    match present host fuel { c with m_nodeStack := top :: below } top.node top.lineIndex with
    | .error e => .error e
    | .ok (true, c) => .ok (true, c)
    | .ok (false, c) => advanceLine host fuel c

/-- The method `start(const NodeStack&, bool)`; the head of `nodeStack` is its back. -/
def startStack (host : Host) (fuel : Nat) (c : DialogueController) (nodeStack : List NodeState)
    (forceStart : Bool) : Except Err (Bool × DialogueController) :=
  if c.m_nodeStack ≠ [] then
    if forceStart then startStackBody host fuel (onDialogueEnded host c) nodeStack
    else .ok (false, c)
  else startStackBody host fuel c nodeStack

/-- The method `selectOption`. -/
def selectOption (host : Host) (fuel : Nat) (c : DialogueController) (index : Nat) :
    Except Err (Bool × DialogueController) :=
  if c.m_isPaused then .ok (false, c)
  else if c.m_presentedOptions ≠ [] then
    if h : index < c.m_presentedOptions.length then
      match resolveActions fuel host (c.m_presentedOptions.get ⟨index, h⟩).resolveActions
          { c with m_presentedOptions := [] } with
      | .error e => .error e
      | .ok c' =>
        if c'.m_isPaused = false ∧ c'.m_pendingStop = false ∧
            (c.m_presentedOptions.get ⟨index, h⟩).nextNode ≠ [] then
          enterNode host fuel c' (c.m_presentedOptions.get ⟨index, h⟩).nextNode 0
        else run host fuel c'
    else .ok (false, c)
  else .ok (false, c)

/-- The method `progressDialogue`. -/
def progressDialogue (host : Host) (fuel : Nat) (c : DialogueController) :
    Except Err (Bool × DialogueController) :=
  if c.m_isPaused then .ok (false, c) else run host fuel c

/-- The loop `while (m_isSkipping) m_isSkipping = progressDialogue();` of `skipDialogue`. -/
def skipDialogueLoop (host : Host) : Nat → DialogueController → Except Err DialogueController
  | 0, _ => .error .outOfFuel
  | fuel + 1, c =>
    if c.m_isSkipping then
      match progressDialogue host fuel c with
      | .error e => .error e
      | .ok (progressed, c) => skipDialogueLoop host fuel { c with m_isSkipping := progressed }
    else .ok c

/-- The method `skipDialogue`. -/
def skipDialogue (host : Host) (fuel : Nat) (c : DialogueController) :
    Except Err DialogueController :=
  if c.m_isPaused then .ok c
  else if c.m_nodeStack ≠ [] then skipDialogueLoop host fuel { c with m_isSkipping := true }
  else .ok c

/-- The method `setIsPaused`. -/
def setIsPaused (host : Host) (fuel : Nat) (c : DialogueController) (isPaused : Bool) :
    Except Err DialogueController :=
  if isPaused ≠ c.m_isPaused then
    if isPaused then .ok (notify host { c with m_isPaused := true } .onPaused)
    else
      match progressDialogue host fuel { c with m_isPaused := false } with
      | .error e => .error e
      | .ok (_, c) => .ok c
  else .ok c


/-! ## Definitions used to state the properties -/

/-- The leading run of spaces and tabs of a string. -/
def leadingRun (s : Str) : Str := s.takeWhile (fun c => c = ' ' || c = '\t')

/-- The indentation level as the specification words it: the number of tabs of the leading run
plus the number of its spaces divided by four. -/
def specIndentLevel (s : Str) : Nat :=
  (leadingRun s).count '\t' + (leadingRun s).count ' ' / 4

/-- The number of spaces that end a run of spaces and tabs, after its last tab. -/
def spacesAfterLastTab (run : Str) : Nat := (run.reverse.takeWhile (fun c => c = ' ')).length

/-- Whether `parseLine` returns on this text within the given fuel. -/
def lineParses (fuel : Nat) (lineString : Str) : Bool :=
  match parseLine fuel lineString {} with
  | .ok _ => true
  | .error _ => false

/-- Whether `parseLine` returns, within the given fuel, on every text that `parseNodes` may hand
to it for these lines: the trimmed line, and the trimmed line without its first character. -/
def linesParse (fuel : Nat) (lines : List Str) : Bool :=
  lines.all fun l =>
    lineParses fuel (trim l) && lineParses fuel (substrFrom (trim l) k_potentialLine.length)

/-- What the loop of a scope returns, in terms of the state it starts from: an index that is not
before the starting one, and the node set extended by some nodes, the last of which carries the
name of the node of the scope. -/
def ScopeResult (sc : Scope) (out : Nat × List DialogueNode × Nat) : Prop :=
  sc.i ≤ out.1 ∧ ∃ extra n, out.2.1 = sc.nodeSet ++ extra ++ [n] ∧ n.name = sc.node.name

/-- The loop of a scope returns from every state with at most `m` lines left, given fuel
`f0 + 2 * m + 1`. -/
def ScopeReturns (rand : Nat → Nat) (tags : Str) (lines : List Str) (f0 m : Nat) : Prop :=
  ∀ (sc : Scope) (name : Str) (level fuel : Nat), lines.length - sc.i ≤ m →
    f0 + 2 * m + 1 ≤ fuel →
    ∃ out, parseNodesLoop rand tags lines fuel name level sc = .ok out ∧ ScopeResult sc out

/-- A control-only line that carries a goto: no actor, no content, and a goto. -/
def isControlGoto (l : DialogueNode.Line) : Prop :=
  l.actorKey = [] ∧ l.content = [] ∧ l.gotoNode ≠ []

/-- A chain of `n` control-only lines that each carry a goto: the conditions of line `index` of
`node` hold and its goto names a registered node with lines, whose first line is the next line
of the chain, and so on, down to line `tindex` of the node `tnode`. `asked` lists the names that
the conditions of the lines of the chain pass to `resolveVariable`, in order. -/
inductive GotoChain (resolver : Option IDialogueResolver) (f0 : Nat)
    (nodes : List (Str × DialogueNode)) :
    DialogueNode → Nat → DialogueNode → Nat → Nat → List Str → Prop where
  | here (node : DialogueNode) (index : Nat) :
      GotoChain resolver f0 nodes node index node index 0 []
  | step (node : DialogueNode) (index : Nat) (next tnode : DialogueNode) (tindex n : Nat)
      (asked askedRest : List Str) (h : index < node.lines.length)
      (hcontrol : isControlGoto (node.lines.get ⟨index, h⟩))
      (hcond : resolveConditions f0 resolver (node.lines.get ⟨index, h⟩).conditions
        = .ok (true, asked))
      (hfind : nodes.lookup (node.lines.get ⟨index, h⟩).gotoNode = some next)
      (hlines : next.lines ≠ [])
      (hrest : GotoChain resolver f0 nodes next 0 tnode tindex n askedRest) :
      GotoChain resolver f0 nodes node index tnode tindex (n + 1) (asked ++ askedRest)

/-- Where the traversal goes when it leaves line `index` of `node`, the frame at the back of the
stack, `rest` being the frames below: the stack it goes on with, whose back is the position that
follows, and the number of frames pushed. Without a goto that position is the next line of the
node, or, after the last line of the node, the position of the frame below; with a goto to a
registered node with lines it is the first line of that node. -/
inductive LeavesTo (nodes : List (Str × DialogueNode)) (node : DialogueNode) (index : Nat)
    (rest : List NodeState) : List NodeState → Nat → Prop where
  | next (h : index < node.lines.length) (hgoto : (node.lines.get ⟨index, h⟩).gotoNode = [])
      (hnext : index + 1 < node.lines.length) :
      LeavesTo nodes node index rest (⟨node, index + 1⟩ :: rest) 0
  | goto (target : DialogueNode) (h : index < node.lines.length)
      (hgoto : (node.lines.get ⟨index, h⟩).gotoNode ≠ [])
      (hfind : nodes.lookup (node.lines.get ⟨index, h⟩).gotoNode = some target)
      (hlines : target.lines ≠ []) :
      LeavesTo nodes node index rest (⟨target, 0⟩ :: ⟨node, index + 1⟩ :: rest) 1
  | parent (below : NodeState) (others : List NodeState) (h : index < node.lines.length)
      (hgoto : (node.lines.get ⟨index, h⟩).gotoNode = [])
      (hlast : ¬ index + 1 < node.lines.length) (hrest : rest = below :: others) :
      LeavesTo nodes node index rest (below :: others) 0

/-- A bracket group of a normal line: an inline option `[[text|target]]` or a goto
`[[target]]`. -/
inductive GotoGroup where
  | option (text target : Str)
  | goto (target : Str)

/-- The text between the brackets of a group. -/
def GotoGroup.body : GotoGroup → Str
  | .option text target => text ++ k_separator ++ target
  | .goto target => target

/-- The calls of `resolveAction` of the Resolver among the calls to the host: the name and the
parameters of each, in order. -/
def actionCalls (trace : List Event) : List (Str × List Str) :=
  trace.filterMap fun e =>
    match e with
    | .resolveAction name params => some (name, params)
    | _ => none

/-- The names that `resolveAction` handles itself. -/
def builtinStopNames : List Str := ["stop".toList, "end".toList, "fin".toList, "exit".toList]

/-- What the loop of a scope that starts in the state `sc` returns, as to the names: an index
that is at least `lo`, and the node set extended by some nodes and then by the node of the scope.
Each added node but the last carries a child name `p:j`, where `p` is at least as long as the
name of the scope and `j` is a line index from `lo` on and before the returned index; no line
index names two of the nodes. -/
def ScopeNames (lo : Nat) (sc : Scope) (name : Str) (out : Nat × List DialogueNode × Nat) : Prop :=
  lo ≤ out.1 ∧ ∃ (extra : List DialogueNode) (n : DialogueNode) (opened : List (Str × Nat)),
    out.2.1 = sc.nodeSet ++ extra ++ [n] ∧ n.name = name ∧
    extra.map (fun x => x.name) = opened.map (fun t => childName t.1 t.2) ∧
    (∀ t ∈ opened, lo ≤ t.2 ∧ t.2 < out.1 ∧ name.length ≤ t.1.length) ∧
    (opened.map (fun t => t.2)).Nodup

/-- The indentation level of line `m` of `lines`. -/
def levelAt (lines : List Str) (m : Nat) : Nat := calulateIndentLevel (lines.getD m [])

/-- A line with further options added after its own. -/
def withMoreOptions (l : DialogueNode.Line) (more : List DialogueNode.Option) :
    DialogueNode.Line :=
  { l with options := l.options ++ more }

/-- Two lines that differ at most in their goto and in their options. -/
def sameText (a b : DialogueNode.Line) : Prop :=
  b = { a with gotoNode := b.gotoNode, options := b.options }

/-- Where a line stands that has just been linked to a child node and has gained no option
since: it is the last line of the node while no potential line is buffered, or the last buffered
potential line, or a buffered potential line with a later one after it. -/
inductive Previous where
  | lastLine
  | lastBuffered
  | buffered
  deriving DecidableEq, Repr

/-- Whether a scope of indentation `level` that goes on with the lines given keeps the link of
the line that stands as said: whether it does not meet a deeper line while that line is the
previous line of `parseNodes` and has gained no option. A line that starts with `->`, or with
`%->` at the level of the scope, adds an option to the previous line; a line of the scope with
other text after `%` is buffered after it; any other line of the scope flushes the buffer, and
is put after the flushed line when it holds text. A line shallower than the scope ends it. While
the line is buffered with a later one after it, the lines that start with `->` and the deeper
lines are those that go to the buffer and to child scopes. -/
def linkKept (level : Nat) : Previous → List Str → Bool
  | _, [] => true
  | .lastLine, l :: rest =>
    if level < calulateIndentLevel l then false
    else if calulateIndentLevel l < level then true
    else if startsWith (trim l) k_potentialLine then
      if substrFrom (trim l) k_potentialLine.length = [] then linkKept level .lastLine rest
      else true
    else if trim l = [] then linkKept level .lastLine rest
    else true
  | .lastBuffered, l :: rest =>
    if startsWith (trim l) k_optionShortcut then true
    else if level < calulateIndentLevel l then false
    else if calulateIndentLevel l < level then true
    else if startsWith (trim l) k_potentialLine then
      if substrFrom (trim l) k_potentialLine.length = [] then linkKept level .lastBuffered rest
      else if startsWith (substrFrom (trim l) k_potentialLine.length) k_optionShortcut then true
      else linkKept level .buffered rest
    else if trim l = [] then linkKept level .lastLine rest
    else true
  | .buffered, l :: rest =>
    if startsWith (trim l) k_optionShortcut then linkKept level .buffered rest
    else if level < calulateIndentLevel l then linkKept level .buffered rest
    else if calulateIndentLevel l < level then true
    else if startsWith (trim l) k_potentialLine then linkKept level .buffered rest
    else if trim l = [] then linkKept level .lastLine rest
    else true

/-- A frame of the node stack refers to a registered node and its line index is at most the
number of lines of that node. -/
def FrameOk (nodes : List (Str × DialogueNode)) (f : NodeState) : Prop :=
  (∃ name, nodes.lookup name = some f.node) ∧ f.lineIndex ≤ f.node.lines.length

/-- Every frame of the node stack is as `FrameOk` says. -/
def StackOk (c : DialogueController) : Prop := ∀ f ∈ c.m_nodeStack, FrameOk c.m_nodes f

/-- The frame at the back of the stack, if there is one, is at a line of its node. -/
def TopInRange (c : DialogueController) : Prop :=
  ∀ (top : NodeState) (rest : List NodeState), c.m_nodeStack = top :: rest →
    top.lineIndex < top.node.lines.length

/-- While options are pending the stack is not empty and its back frame is at a line of its
node (the line that was presented with the options). -/
def OptionsOk (c : DialogueController) : Prop :=
  c.m_presentedOptions ≠ [] → c.m_nodeStack ≠ [] ∧ TopInRange c

/-- The invariant of the traversal: the frames are in range, and so is the state of the pending
options. -/
def TraversalInv (c : DialogueController) : Prop := StackOk c ∧ OptionsOk c

/-- What the internal steps of the traversal need of the state they start from: the frames are
in range and no option is pending. -/
def StepPre (c : DialogueController) : Prop := StackOk c ∧ c.m_presentedOptions = []

/-- What an internal step of the traversal that started from `c` leaves: the same registry, the
invariant, and no pending option when it returns false. -/
def StepPost (c : DialogueController) (r : Bool × DialogueController) : Prop :=
  r.2.m_nodes = c.m_nodes ∧ StackOk r.2 ∧ OptionsOk r.2 ∧ (r.1 = false → r.2.m_presentedOptions = [])

/-- The first part of a round of the loop of `advanceLine`, leaving the current line, for the
frame `top` at the back of the stack: the `exiting` of `advanceLineLoop`. -/
def exitCurrentLine (host : Host) (fuel : Nat) (c : DialogueController) (top : NodeState) :
    Except Err (Exiting × DialogueController) :=
  if h : top.lineIndex < top.node.lines.length then
    let currentLine := top.node.lines.get ⟨top.lineIndex, h⟩
    match resolveConditions fuel host.resolver currentLine.conditions with
    | .error e => .error e
    | .ok (false, asked) => .ok (.conditionFailed, incrementBack (logVariables c asked))
    | .ok (true, asked) =>
      match resolveActions fuel host currentLine.actions (logVariables c asked) with
      | .error e => .error e
      | .ok c =>
        if currentLine.gotoNode ≠ [] then
          match enterNode host fuel c currentLine.gotoNode 0 with
          | .error e => .error e
          | .ok (true, c) => .ok (.advanced, c)
          | .ok (false, c') =>
            if pushesFrame c currentLine.gotoNode then .error .staleReference
            else .ok (.sameFrame, c')
        else .ok (.sameFrame, c)
  else
    match exitNode host fuel c with
    | .error e => .error e
    | .ok (true, c) => .ok (.advanced, c)
    | .ok (false, c') =>
      if c'.pushes = c.pushes then .ok (.poppedFrame, c') else .error .staleReference

/-- The second part of a round of the loop of `advanceLine`, entering the new line, for the
frame `top` at the back of the stack: the `entering` of `advanceLineLoop`. -/
def enterNewLine (host : Host) (fuel : Nat) (c : DialogueController) (top : NodeState) :
    Except Err (Bool × DialogueController) :=
  if top.lineIndex + 1 < top.node.lines.length then
    present host fuel (incrementBack c) top.node (top.lineIndex + 1)
  else exitNode host fuel c

/-- The internal steps of the traversal, given `fuel`, lead from a state that is as `StepPre`
says to a state that is as `StepPost` says. `present` is called for the frame at the back of the
stack; `enterNode` is called while that frame, if there is one, is at a line of its node, and
with a line index that is at most the number of lines of the node entered. -/
def StepsSafe (host : Host) (fuel : Nat) : Prop :=
  (∀ (c : DialogueController) (node : DialogueNode) (index : Nat) (rest : List NodeState)
      (r : Bool × DialogueController), StepPre c → c.m_nodeStack = ⟨node, index⟩ :: rest →
      present host fuel c node index = .ok r → StepPost c r) ∧
  (∀ (c : DialogueController) (nodeName : Str) (lineIndex : Nat)
      (r : Bool × DialogueController), StepPre c → TopInRange c →
      (∀ node, getNodeByName c nodeName = some node → lineIndex ≤ node.lines.length) →
      enterNode host fuel c nodeName lineIndex = .ok r → StepPost c r) ∧
  (∀ (c : DialogueController) (r : Bool × DialogueController), StepPre c →
      exitNode host fuel c = .ok r → StepPost c r) ∧
  (∀ (c : DialogueController) (r : Bool × DialogueController), StepPre c →
      advanceLine host fuel c = .ok r → StepPost c r) ∧
  (∀ (c : DialogueController) (r : Bool × DialogueController), StepPre c →
      advanceLineLoop host fuel c = .ok r → StepPost c r)

/-- A host with a Delegate and a Resolver that knows no variable and handles every action
without calling the controller. -/
def plainHost : Host := ⟨true, some ⟨fun _ => [], fun _ _ => (true, .nothing)⟩⟩

/-- A generator whose `rand()` always returns `r`. -/
def constRand (r : Nat) : Nat → Nat → Nat := fun _ _ => r

/-- The node `Start` of C5: one line with one shortcut option whose action is the built-in
`stop` and whose goto is `target`. -/
def stopNode (target : Str) : DialogueNode :=
  { name := "Start".toList,
    lines := [{ actorKey := "A".toList, content := "hi".toList,
                options := [{ content := "go".toList, gotoNode := target, isShortcut := true,
                              actions := [⟨"stop".toList, []⟩] }] }] }

/-- The node `Other` of C5. -/
def otherNode : DialogueNode :=
  { name := "Other".toList, lines := [{ actorKey := "B".toList, content := "there".toList }] }

/-- The state of C5 after `start("Start")`: the line of `Start` is shown and its option pending. -/
def stopStarted (nodes : List (Str × DialogueNode)) (target : Str) : DialogueController :=
  { m_nodes := nodes, m_nodeStack := [⟨stopNode target, 0⟩],
    m_presentedOptions := [⟨target, [⟨"stop".toList, []⟩]⟩],
    trace := [.onProgress ⟨"A".toList, "hi".toList, [⟨true, "go".toList⟩]⟩], pushes := 1 }

/-- The node `Start` of C6: a line with content, then a control line with a goto to `B`. -/
def skipStartNode : DialogueNode :=
  { name := "Start".toList,
    lines := [{ actorKey := "A".toList, content := "hi".toList }, { gotoNode := "B".toList }] }

/-- The node `B` of C6: two lines with content and no option. -/
def skipTargetNode : DialogueNode :=
  { name := "B".toList,
    lines := [{ actorKey := "X".toList, content := "one".toList },
              { actorKey := "X".toList, content := "two".toList }] }

/-- A state of the scenario of C6. -/
def skipState (stack : List NodeState) (skipping : Bool) (trace : List Event) (pushes : Nat) :
    DialogueController :=
  { m_nodes := [("B".toList, skipTargetNode), ("Start".toList, skipStartNode)],
    m_nodeStack := stack, m_isSkipping := skipping, trace := trace, pushes := pushes }

/-- The `onProgress` of a line without options. -/
def progressOf (actorKey speech : String) : Event :=
  .onProgress ⟨actorKey.toList, speech.toList, []⟩

/-- The calls of the Delegate among the calls to the host. -/
def delegateCalls (trace : List Event) : List Event :=
  trace.filter fun e =>
    match e with
    | .onProgress _ => true
    | .onEnd => true
    | .onPaused => true
    | _ => false

/-- The node with the single line of C3. -/
def scoreNode (name tags : Str) : DialogueNode :=
  { name := name, tags := tags,
    lines := [{ actorKey := "Greeter".toList, content := "Welcome".toList,
                conditions := ["$(score) >= 10".toList] }] }

/-- The node that the body `Greeter: Hello $(name)!` of C2 parses to. -/
def greeterNode (tags : Str) : DialogueNode :=
  { name := "Start".toList, tags := tags,
    lines := [{ actorKey := "Greeter".toList, content := "Hello $(name)!".toList }] }

/-- The state of the scope of `P` after its first line `A: hi`. -/
def linkedScope : Scope :=
  { i := 1,
    node := { name := "P".toList, lines := [{ actorKey := "A".toList, content := "hi".toList }] },
    potentialNode := {}, nodeSet := [], k := 0 }

/-- Three lines: a line, a deeper line, and a line of the first level. -/
def linkedLines : List Str := ["A: hi".toList, "\tB: child".toList, "C: next".toList]

/-- Four lines: a potential line, a deeper line, a potential line and a normal line. -/
def bufferedLines : List Str :=
  ["%A: one".toList, "\tB: child".toList, "%C: two".toList, "D: end".toList]

/-- The state of the scope of `P` after the potential line `%A: one`. -/
def bufferedScope : Scope :=
  { i := 1, node := { name := "P".toList },
    potentialNode := { lines := [{ actorKey := "A".toList, content := "one".toList }] },
    nodeSet := [], k := 0 }

/-- The lines of the witness of C8: a run of two potential lines ended by a normal line. -/
def potentialLines : List Str := ["%A: one".toList, "%B: two".toList, "C: end".toList]

/-- The parses of the two candidates of the witness of C8. -/
def potentialCandidates : List DialogueNode.Line :=
  [{ actorKey := "A".toList, content := "one".toList },
   { actorKey := "B".toList, content := "two".toList }]

/-- The state in which the scope of `P` starts. -/
def startScope : Scope :=
  { i := 0, node := { name := "P".toList }, potentialNode := {}, nodeSet := [], k := 0 }

/-- The node `C` of the witness of C6: a line with content and an inline option, then a line
with content. -/
def skipOptionNode : DialogueNode :=
  { name := "C".toList,
    lines := [{ actorKey := "X".toList, content := "one".toList,
                options := [{ content := "yes".toList, gotoNode := "Y".toList }] },
              { actorKey := "X".toList, content := "two".toList }] }

/-- The node `B` of the witness of C6: a pure goto line to `C`. -/
def skipMiddleNode : DialogueNode := { name := "B".toList, lines := [{ gotoNode := "C".toList }] }

/-- The state of the witness of C6: the registry holds `Start`, `B` and `C`, and the dialogue
is at the first line of `Start`. -/
def skipChainStarted : DialogueController :=
  { m_nodes := [("C".toList, skipOptionNode), ("B".toList, skipMiddleNode),
                ("Start".toList, skipStartNode)],
    m_nodeStack := [⟨skipStartNode, 0⟩],
    trace := [progressOf "A" "hi"], pushes := 1 }

/-- A host with a Delegate and a Resolver that answers every variable with `v` and handles
every action without calling the controller. -/
def constHost (v : Str) : Host := ⟨true, some ⟨fun _ => v, fun _ _ => (true, .nothing)⟩⟩

/-- The Resolver of C16: `a` is `x`, `b` is `y`, any other name is not known. -/
def abResolver : IDialogueResolver :=
  ⟨fun n => if n = "a".toList then "x".toList else if n = "b".toList then "y".toList else [],
   fun _ _ => (true, .nothing)⟩

/-- The node of C19: one line with content, a closing bracket in it, and no placeholder. -/
def bracketNode : DialogueNode :=
  { name := "Start".toList,
    lines := [{ actorKey := "A".toList, content := "Hello (world)".toList,
                options := [{ content := "yes".toList, gotoNode := "Y".toList }] }] }

/-- The node of the witness of C19: a line with two options, the second with a condition that
fails. -/
def twoOptionNode : DialogueNode :=
  { name := "Start".toList,
    lines := [{ actorKey := "A".toList, content := "Hello $(n)".toList,
                options := [{ content := "yes".toList, gotoNode := "Y".toList,
                              actions := [⟨"give".toList, ["1".toList]⟩] },
                            { content := "no $(n)".toList, gotoNode := "N".toList,
                              isShortcut := true, conditions := ["$(n) == 3".toList] }] }] }

/-- The lines of the witness of C11: a line and a shortcut option line. -/
def shortcutLines : List Str := ["A: hi".toList, "-> go [[B]]".toList]

/-- A node `Start` with the single line `A: hi`. -/
def oneLineNode : DialogueNode :=
  { name := "Start".toList, lines := [{ actorKey := "A".toList, content := "hi".toList }] }

/-- A state whose registry holds `oneLineNode` only. -/
def oneLineState (stack : List NodeState) (skipping : Bool) (trace : List Event) (pushes : Nat) :
    DialogueController :=
  { m_nodes := [("Start".toList, oneLineNode)], m_nodeStack := stack, m_isSkipping := skipping,
    trace := trace, pushes := pushes }

/-- The node of C24: a line gated by the condition `false`, then two lines with content. The
first two lines carry an action each. -/
def gatedNode : DialogueNode :=
  { name := "Start".toList,
    lines := [{ actorKey := "A".toList, content := "one".toList, conditions := ["false".toList],
                actions := [⟨"first".toList, []⟩] },
              { actorKey := "B".toList, content := "two".toList,
                actions := [⟨"second".toList, []⟩] },
              { actorKey := "C".toList, content := "three".toList }] }

/-- The node of C25: a line with the actions `stop` and `give`, then a line with content. -/
def stopGiveNode : DialogueNode :=
  { name := "Start".toList,
    lines := [{ actorKey := "A".toList, content := "hi".toList,
                actions := [⟨"stop".toList, []⟩, ⟨"give".toList, ["gold".toList]⟩] },
              { actorKey := "B".toList, content := "bye".toList }] }

/-- The lines of the witness of C28: a line, a deeper line, and a line at the first level. -/
def shallowLines : List Str := ["A: one".toList, "\tB: two".toList, "C: three".toList]

/-- The state of the scope of the child `P:1` of the witness of C28 after its line `B: two`. -/
def shallowScope : Scope :=
  { i := 2,
    node := { name := "P:1".toList,
              lines := [{ actorKey := "B".toList, content := "two".toList }] },
    potentialNode := {}, nodeSet := [], k := 0 }

/-- A controller whose registry holds `oneLineNode`, after `setIsPaused(true)`. -/
def pausedIdle : DialogueController :=
  { m_nodes := [("Start".toList, oneLineNode)], m_isPaused := true, trace := [.onPaused] }

/-- A controller whose registry holds `oneLineNode`, after `start("Start", 0)`. -/
def oneLineRunning : DialogueController :=
  oneLineState [⟨oneLineNode, 0⟩] false [progressOf "A" "hi"] 1

/-- The node `Start` of the witness of C6: a line with content and the action `give`, then a
control line with the condition `true` and a goto to `B`. -/
def skipGiveNode : DialogueNode :=
  { name := "Start".toList,
    lines := [{ actorKey := "A".toList, content := "hi".toList,
                actions := [⟨"give".toList, ["gold".toList]⟩] },
              { conditions := ["true".toList], gotoNode := "B".toList }] }

/-- The state of the witness of C6 after `start("Start")`. -/
def skipGiveStarted : DialogueController :=
  { m_nodes := [("C".toList, skipOptionNode), ("B".toList, skipMiddleNode),
                ("Start".toList, skipGiveNode)],
    m_nodeStack := [⟨skipGiveNode, 0⟩],
    trace := [progressOf "A" "hi"], pushes := 1 }

/-! ## Theorems -/

/-- A resolver is determined by its two methods: one whose `resolveVariable` maps `k` to `v`
is the resolver that answers `v` for `k` and asks the original one for every other name. -/
theorem resolver_eq_of_resolveVariable (r : IDialogueResolver) (k v : Str)
    (h : r.resolveVariable k = v) :
    r = ⟨fun n => if n = k then v else r.resolveVariable n, r.resolveAction⟩ := by
  cases r with
  | mk rv ra =>
    simp only [IDialogueResolver.mk.injEq, and_true]
    funext n
    by_cases hn : n = k
    · subst hn; simp [← h]
    · simp [hn]

/-- C1. `addNode(node)`: when the name is taken the call returns false and changes nothing;
otherwise it returns true, the node is found under its name afterwards, and the lookup of every
other name is as before. -/
theorem addNode_contract (c : DialogueController) (n : DialogueNode) :
    match getNodeByName c n.name with
    | some _ => addNode c n = (false, c)
    | none =>
      (addNode c n).1 = true ∧ getNodeByName (addNode c n).2 n.name = some n ∧
        ∀ m, m ≠ n.name → getNodeByName (addNode c n).2 m = getNodeByName c m := by
  unfold getNodeByName addNode
  cases hl : c.m_nodes.lookup n.name with
  | some x => simp
  | none =>
    refine ⟨rfl, ?_, ?_⟩
    · simp [List.lookup]
    · intro m hm
      have hb : (m == n.name) = false := by simpa using hm
      simp [List.lookup, hb]

/-- C4. `selectOption(index)` returns false and changes nothing, the trace of calls to the host
included, when the controller is paused, or no option is pending, or the index is not below the
number of pending options. -/
theorem selectOption_rejected (host : Host) (fuel : Nat) (c : DialogueController) (index : Nat)
    (h : c.m_isPaused = true ∨ c.m_presentedOptions = [] ∨
      c.m_presentedOptions.length ≤ index) :
    selectOption host fuel c index = .ok (false, c) := by
  unfold selectOption
  rcases h with h | h | h
  · simp [h]
  · simp [h]
  · have : ¬ index < c.m_presentedOptions.length := by omega
    simp [this]

/-- A witness of C4: an index past the two pending options of a running dialogue. -/
theorem selectOption_rejected_witness :
    selectOption ⟨true, none⟩ 5
      { m_nodeStack := [⟨{ name := "Start".toList, lines := [{ content := "hi".toList }] }, 0⟩],
        m_presentedOptions := [⟨"A".toList, []⟩, ⟨"B".toList, []⟩] } 2
      = .ok (false,
      { m_nodeStack := [⟨{ name := "Start".toList, lines := [{ content := "hi".toList }] }, 0⟩],
        m_presentedOptions := [⟨"A".toList, []⟩, ⟨"B".toList, []⟩] }) :=
  selectOption_rejected _ _ _ _ (Or.inr (Or.inr (by decide)))

/-- A line whose conditions do not all hold is not presented. -/
theorem present_fails (host : Host) (fuel : Nat) (c : DialogueController) (node : DialogueNode)
    (index : Nat) (h : index < node.lines.length) (asked : List Str)
    (hc : resolveConditions fuel host.resolver (node.lines.get ⟨index, h⟩).conditions
      = .ok (false, asked)) :
    present host (fuel + 1) c node index = .ok (false, logVariables c asked) := by
  rw [present, dif_pos h]
  simp only [hc]

/-- A line with an actor or content whose conditions hold is presented. -/
theorem present_shows (host : Host) (fuel : Nat) (c : DialogueController) (node : DialogueNode)
    (index : Nat) (h : index < node.lines.length) (asked askedSpeech askedOptions : List Str)
    (speech : Str) (options : List DialogueOption) (presented : List PresentedOption)
    (hc : resolveConditions fuel host.resolver (node.lines.get ⟨index, h⟩).conditions
      = .ok (true, asked))
    (hne : ¬ ((node.lines.get ⟨index, h⟩).actorKey = [] ∧ (node.lines.get ⟨index, h⟩).content = []))
    (hs : substituteVariables fuel host.resolver (node.lines.get ⟨index, h⟩).content
      = .ok (speech, askedSpeech))
    (ho : presentOptions fuel host.resolver (node.lines.get ⟨index, h⟩).options
      = .ok (options, presented, askedOptions)) :
    present host (fuel + 1) c node index = .ok (true, notify host
      { logVariables (logVariables c asked) (askedSpeech ++ askedOptions) with
          m_presentedOptions := presented }
      (.onProgress ⟨(node.lines.get ⟨index, h⟩).actorKey, speech, options⟩)) := by
  rw [present, dif_pos h]
  simp only [hc, hne, if_false, hs, ho]


/-- C2. With a Resolver that maps `name` to `World`, adding the node `Start` with the body
`Greeter: Hello $(name)!` to an empty registry succeeds, `start("Start")` returns true, and the
calls to the host are one lookup of `name` followed by one `onProgress` with actor `Greeter`,
speech `Hello World!` and no option; there is no `onEnd`. -/
theorem greeter_start (crand : Nat → Nat → Nat) (tags : Str) (seed fuel : Nat)
    (r : IDialogueResolver) (h : r.resolveVariable "name".toList = "World".toList) :
    ∃ c1 c2,
      addNodeBody crand (fuel + 6) ⟨true, some r⟩ {} "Start".toList tags
        "Greeter: Hello $(name)!".toList seed = .ok (true, c1) ∧
      start ⟨true, some r⟩ (fuel + 6) c1 "Start".toList 0 true = .ok (true, c2) ∧
      c2.trace = [.resolveVariable "name".toList,
        .onProgress ⟨"Greeter".toList, "Hello World!".toList, []⟩] ∧
      c2.m_presentedOptions = [] := by
  rw [resolver_eq_of_resolveVariable r _ _ h]
  refine ⟨{ m_nodes := [("Start".toList, greeterNode tags)] },
    { m_nodes := [("Start".toList, greeterNode tags)],
      m_nodeStack := [⟨greeterNode tags, 0⟩],
      trace := [.resolveVariable "name".toList,
        .onProgress ⟨"Greeter".toList, "Hello World!".toList, []⟩],
      pushes := 1 }, rfl, rfl, rfl, rfl⟩

/-- A witness of C2: the Resolver that answers `World` to every name. -/
theorem greeter_start_witness :
    ∃ c1 c2,
      addNodeBody (constRand 0) 6 ⟨true, some ⟨fun _ => "World".toList, fun _ _ => (true, .nothing)⟩⟩
        {} "Start".toList [] "Greeter: Hello $(name)!".toList 0 = .ok (true, c1) ∧
      start ⟨true, some ⟨fun _ => "World".toList, fun _ _ => (true, .nothing)⟩⟩ 6 c1
        "Start".toList 0 true = .ok (true, c2) ∧
      c2.trace = [.resolveVariable "name".toList,
        .onProgress ⟨"Greeter".toList, "Hello World!".toList, []⟩] ∧
      c2.m_presentedOptions = [] :=
  greeter_start (constRand 0) [] 0 0 ⟨fun _ => "World".toList, fun _ _ => (true, .nothing)⟩ rfl

/-- The condition `15 >= 10` holds. -/
theorem evalCondition_fifteen : evalCondition "15 >= 10".toList = .ok true := by decide

/-- The condition `5 >= 10` fails. -/
theorem evalCondition_five : evalCondition "5 >= 10".toList = .ok false := by decide

/-- C3. The line `<<if $(score) >= 10>> Greeter: Welcome` parses to one line with the single
condition `$(score) >= 10`, actor `Greeter` and content `Welcome`. On a node with that single
line, when the Resolver maps `score` to `15` `present` returns true and fires one `onProgress`
with that content; when it maps `score` to `5` `present` returns false and calls no Delegate. -/
theorem score_gate (fuel : Nat) (name tags : Str) (node : DialogueNode) (c : DialogueController)
    (hasDelegate : Bool) (r15 r5 : IDialogueResolver)
    (h15 : r15.resolveVariable "score".toList = "15".toList)
    (h5 : r5.resolveVariable "score".toList = "5".toList) :
    parseLine (fuel + 3) "<<if $(score) >= 10>> Greeter: Welcome".toList node
      = .ok (true, { node with lines := node.lines ++ (scoreNode name tags).lines }) ∧
    present ⟨true, some r15⟩ (fuel + 4) c (scoreNode name tags) 0
      = .ok (true, { c with
          m_presentedOptions := [],
          trace := c.trace ++ [.resolveVariable "score".toList] ++
            [.onProgress ⟨"Greeter".toList, "Welcome".toList, []⟩] }) ∧
    present ⟨hasDelegate, some r5⟩ (fuel + 4) c (scoreNode name tags) 0
      = .ok (false, { c with trace := c.trace ++ [.resolveVariable "score".toList] }) := by
  rw [resolver_eq_of_resolveVariable r15 _ _ h15, resolver_eq_of_resolveVariable r5 _ _ h5]
  have he15 := evalCondition_fifteen
  have he5 := evalCondition_five
  have hsub15 : substituteVariables (fuel + 3)
      (some ⟨fun n => if n = "score".toList then "15".toList else r15.resolveVariable n,
        r15.resolveAction⟩) (trim "$(score) >= 10".toList)
      = .ok ("15 >= 10".toList, ["score".toList]) := rfl
  have hsub5 : substituteVariables (fuel + 3)
      (some ⟨fun n => if n = "score".toList then "5".toList else r5.resolveVariable n,
        r5.resolveAction⟩) (trim "$(score) >= 10".toList)
      = .ok ("5 >= 10".toList, ["score".toList]) := rfl
  have hc15 : resolveConditions (fuel + 3)
      (some ⟨fun n => if n = "score".toList then "15".toList else r15.resolveVariable n,
        r15.resolveAction⟩) ["$(score) >= 10".toList] = .ok (true, ["score".toList]) := by
    rw [resolveConditions, resolveCondition, hsub15]
    simp only [he15, resolveConditions, List.append_nil]
  have hc5 : resolveConditions (fuel + 3)
      (some ⟨fun n => if n = "score".toList then "5".toList else r5.resolveVariable n,
        r5.resolveAction⟩) ["$(score) >= 10".toList] = .ok (false, ["score".toList]) := by
    rw [resolveConditions, resolveCondition, hsub5]
    simp only [he5]
  have hs : ∀ r : IDialogueResolver, substituteVariables (fuel + 3) (some r) "Welcome".toList
      = .ok ("Welcome".toList, []) := fun _ => rfl
  have hs15 := hs ⟨fun n => if n = "score".toList then "15".toList else r15.resolveVariable n,
    r15.resolveAction⟩
  have h0 : 0 < (scoreNode name tags).lines.length := by simp [scoreNode]
  have hline : (scoreNode name tags).lines.get ⟨0, h0⟩
      = { actorKey := "Greeter".toList, content := "Welcome".toList,
          conditions := ["$(score) >= 10".toList] } := rfl
  refine ⟨rfl, ?_, ?_⟩
  · rw [present_shows ⟨true, some ⟨fun n => if n = "score".toList then "15".toList
        else r15.resolveVariable n, r15.resolveAction⟩⟩ (fuel + 3) c (scoreNode name tags) 0 h0
      ["score".toList] [] [] "Welcome".toList [] [] (by rw [hline]; exact hc15)
      (by rw [hline]; simp) (by rw [hline]; exact hs15) (by rw [hline]; rfl)]
    rw [hline]
    simp [logVariables, notify]
  · rw [present_fails ⟨hasDelegate, some ⟨fun n => if n = "score".toList then "5".toList
        else r5.resolveVariable n, r5.resolveAction⟩⟩ (fuel + 3) c (scoreNode name tags) 0 h0
      ["score".toList] (by rw [hline]; exact hc5)]
    simp [logVariables]

/-- A witness of C3: the two Resolvers that answer `15`, respectively `5`, to every name. -/
theorem score_gate_witness :
    parseLine 3 "<<if $(score) >= 10>> Greeter: Welcome".toList {}
      = .ok (true, { ({} : DialogueNode) with lines := [] ++ (scoreNode [] []).lines }) ∧
    present ⟨true, some ⟨fun _ => "15".toList, fun _ _ => (true, .nothing)⟩⟩ 4 {} (scoreNode [] []) 0
      = .ok (true, { ({} : DialogueController) with
          m_presentedOptions := [],
          trace := [] ++ [.resolveVariable "score".toList] ++
            [.onProgress ⟨"Greeter".toList, "Welcome".toList, []⟩] }) ∧
    present ⟨true, some ⟨fun _ => "5".toList, fun _ _ => (true, .nothing)⟩⟩ 4 {} (scoreNode [] []) 0
      = .ok (false, { ({} : DialogueController) with
          trace := [] ++ [.resolveVariable "score".toList] }) :=
  score_gate 0 [] [] {} {} true ⟨fun _ => "15".toList, fun _ _ => (true, .nothing)⟩
    ⟨fun _ => "5".toList, fun _ _ => (true, .nothing)⟩ rfl rfl


/-- C5: the code at the failing input without a goto. The body `A: hi` followed by
`-> go <<stop>>` is registered as `Start` and started. `selectOption(0)` runs the built-in `stop`
while `m_isProgressing` is false, so `stop()` ends the dialogue at once, and `run()` then ends it
a second time: `onEnd` is called twice. -/
theorem selectOption_stop_ends_twice :
    addNodeBody (constRand 0) 20 plainHost {} "Start".toList [] "A: hi\n-> go <<stop>>".toList 0
      = .ok (true, { m_nodes := [("Start".toList, stopNode [])] }) ∧
    start plainHost 20 { m_nodes := [("Start".toList, stopNode [])] } "Start".toList 0 true
      = .ok (true, stopStarted [("Start".toList, stopNode [])] []) ∧
    selectOption plainHost 20 (stopStarted [("Start".toList, stopNode [])] []) 0
      = .ok (false,
          { m_nodes := [("Start".toList, stopNode [])],
            trace := [.onProgress ⟨"A".toList, "hi".toList, [⟨true, "go".toList⟩]⟩, .onEnd, .onEnd],
            pushes := 1 }) :=
  ⟨by decide, by decide, by decide⟩

/-- C5: the code at the failing input with a goto. When the option with the action `stop` also
has a goto to the registered node `Other`, `selectOption(0)` ends the dialogue at once and then
enters `Other`: it returns true with a frame on the stack. -/
theorem selectOption_stop_then_goto :
    start plainHost 20
        { m_nodes := [("Other".toList, otherNode), ("Start".toList, stopNode "Other".toList)] }
        "Start".toList 0 true
      = .ok (true, stopStarted
          [("Other".toList, otherNode), ("Start".toList, stopNode "Other".toList)]
          "Other".toList) ∧
    selectOption plainHost 20
        (stopStarted [("Other".toList, otherNode), ("Start".toList, stopNode "Other".toList)]
          "Other".toList) 0
      = .ok (true,
          { m_nodes := [("Other".toList, otherNode), ("Start".toList, stopNode "Other".toList)],
            m_nodeStack := [⟨otherNode, 0⟩],
            trace := [.onProgress ⟨"A".toList, "hi".toList, [⟨true, "go".toList⟩]⟩, .onEnd,
              .onProgress ⟨"B".toList, "there".toList, []⟩],
            pushes := 2 }) :=
  ⟨by decide, by decide⟩


/-- One round of the loop of `skipDialogue`. -/
theorem skipDialogueLoop_step (host : Host) (fuel : Nat) (c c' c'' : DialogueController)
    (p : Bool) (h : progressDialogue host fuel c = .ok (p, c')) (hs : c.m_isSkipping = true)
    (hc : c'' = { c' with m_isSkipping := p }) :
    skipDialogueLoop host (fuel + 1) c = skipDialogueLoop host fuel c'' := by
  subst hc
  simp only [skipDialogueLoop, hs, if_true, h]

/-- The loop of `skipDialogue` ends when `m_isSkipping` is false. -/
theorem skipDialogueLoop_done (host : Host) (fuel : Nat) (c : DialogueController)
    (hs : c.m_isSkipping = false) : skipDialogueLoop host (fuel + 1) c = .ok c := by
  simp [skipDialogueLoop, hs]

/-- The method `skipDialogue` on a running dialogue that is not paused is its loop. -/
theorem skipDialogue_eq_loop (host : Host) (fuel : Nat) (c c' : DialogueController)
    (hp : c.m_isPaused = false) (hs : c.m_nodeStack ≠ []) (hc : c' = { c with m_isSkipping := true }) :
    skipDialogue host fuel c = skipDialogueLoop host fuel c' := by
  subst hc
  simp [skipDialogue, hp, hs]

theorem skipScenario_round1 (fuel : Nat) :
    progressDialogue plainHost (fuel + 8) (skipState [⟨skipStartNode, 0⟩] true [progressOf "A" "hi"] 1)
      = .ok (true, skipState [⟨skipTargetNode, 0⟩, ⟨skipStartNode, 2⟩] true
          [progressOf "A" "hi", progressOf "X" "one"] 2) := rfl

theorem skipScenario_round2 (fuel : Nat) :
    progressDialogue plainHost (fuel + 8)
        (skipState [⟨skipTargetNode, 0⟩, ⟨skipStartNode, 2⟩] true
          [progressOf "A" "hi", progressOf "X" "one"] 2)
      = .ok (true, skipState [⟨skipTargetNode, 1⟩, ⟨skipStartNode, 2⟩] true
          [progressOf "A" "hi", progressOf "X" "one", progressOf "X" "two"] 2) := rfl

theorem skipScenario_round3 (fuel : Nat) :
    progressDialogue plainHost (fuel + 8)
        (skipState [⟨skipTargetNode, 1⟩, ⟨skipStartNode, 2⟩] true
          [progressOf "A" "hi", progressOf "X" "one", progressOf "X" "two"] 2)
      = .ok (true, skipState [] false
          [progressOf "A" "hi", progressOf "X" "one", progressOf "X" "two", .onEnd] 2) := rfl

theorem skipScenario_round4 (fuel : Nat) :
    progressDialogue plainHost (fuel + 8)
        (skipState [] true
          [progressOf "A" "hi", progressOf "X" "one", progressOf "X" "two", .onEnd] 2)
      = .ok (false, skipState [] false
          [progressOf "A" "hi", progressOf "X" "one", progressOf "X" "two", .onEnd, .onEnd] 2) := rfl

/-- C6 fails as stated. The dialogue is at the first line of `Start`, which is followed by a
control line with a goto to the node `B` of two lines with content and no option. `skipDialogue`
fires an `onProgress` for each of the two lines, runs to the end of the dialogue, and leaves the
stack empty. -/
theorem skipDialogue_runs_past_content :
    start plainHost 20 (skipState [] false [] 0) "Start".toList 0 true
      = .ok (true, skipState [⟨skipStartNode, 0⟩] false [progressOf "A" "hi"] 1) ∧
    skipDialogue plainHost 20 (skipState [⟨skipStartNode, 0⟩] false [progressOf "A" "hi"] 1)
      = .ok (skipState [] false
          [progressOf "A" "hi", progressOf "X" "one", progressOf "X" "two", .onEnd, .onEnd] 2) := by
  refine ⟨by decide, ?_⟩
  exact (skipDialogue_eq_loop plainHost (19 + 1) _
      (skipState [⟨skipStartNode, 0⟩] true [progressOf "A" "hi"] 1) rfl (by decide) rfl).trans <|
    (skipDialogueLoop_step plainHost 19 _ _
      (skipState [⟨skipTargetNode, 0⟩, ⟨skipStartNode, 2⟩] true
        [progressOf "A" "hi", progressOf "X" "one"] 2) true (skipScenario_round1 11) rfl rfl).trans <|
    (skipDialogueLoop_step plainHost 18 _ _
      (skipState [⟨skipTargetNode, 1⟩, ⟨skipStartNode, 2⟩] true
        [progressOf "A" "hi", progressOf "X" "one", progressOf "X" "two"] 2) true
      (skipScenario_round2 10) rfl rfl).trans <|
    (skipDialogueLoop_step plainHost 17 _ _
      (skipState [] true
        [progressOf "A" "hi", progressOf "X" "one", progressOf "X" "two", .onEnd] 2) true
      (skipScenario_round3 9) rfl rfl).trans <|
    (skipDialogueLoop_step plainHost 16 _ _
      (skipState [] false
        [progressOf "A" "hi", progressOf "X" "one", progressOf "X" "two", .onEnd, .onEnd] 2) false
      (skipScenario_round4 8) rfl rfl).trans <|
    skipDialogueLoop_done _ 15 _ rfl

/-- C7 fails as stated. In the body `A: hi [[x|y]]` followed by the deeper line `B: child`, the
child node `P:1` is emitted, but the line before it ends in an inline option, so neither its own
goto (which stays empty) nor the goto of that option (which stays `y`) is set to `P:1`. In the
body `A: hi`, a line `B: deep` two levels deeper and a line `C: less` one level deeper, the nodes
`P:1` and `P:2` are emitted; the line `A: hi` ends with the goto `P:2`, and no line has a goto
to `P:1`. In the body `%A: one`, a deeper `B: child`, `%C: two`, `D: end`, with a generator
that returns 1, the node `P:1` is emitted and the potential line linked to it is dropped by the
flush: no line has a goto to `P:1`. -/
theorem parse_previous_line_not_linked :
    parse (constRand 0) 20 "P".toList [] "A: hi [[x|y]]\n\tB: child".toList 0 []
      = .ok [{ name := "P:1".toList,
               lines := [{ actorKey := "B".toList, content := "child".toList }] },
             { name := "P".toList,
               lines := [{ actorKey := "A".toList, content := "hi".toList, gotoNode := [],
                           options := [{ content := "x".toList, gotoNode := "y".toList,
                                         isShortcut := false }] }] }] ∧
    parse (constRand 0) 20 "P".toList [] "A: hi\n\t\tB: deep\n\tC: less".toList 0 []
      = .ok [{ name := "P:1".toList,
               lines := [{ actorKey := "B".toList, content := "deep".toList }] },
             { name := "P:2".toList,
               lines := [{ actorKey := "C".toList, content := "less".toList }] },
             { name := "P".toList,
               lines := [{ actorKey := "A".toList, content := "hi".toList,
                           gotoNode := "P:2".toList }] }] ∧
    parse (constRand 1) 20 "P".toList [] "%A: one\n\tB: child\n%C: two\nD: end".toList 0 []
      = .ok [{ name := "P:1".toList,
               lines := [{ actorKey := "B".toList, content := "child".toList }] },
             { name := "P".toList,
               lines := [{ actorKey := "C".toList, content := "two".toList },
                         { actorKey := "D".toList, content := "end".toList }] }] :=
  ⟨by decide, by decide, by decide⟩

/-- C8 fails as stated. In the run of the two potential lines `%A: one` and `%-> opt`, the second
one is taken as a shortcut option of the first: one candidate is buffered, it is chosen whatever
`rand()` returns (here `1`), and the line that the node gains is neither the parse of `A: one`
nor the parse of `-> opt`. -/
theorem parse_potential_shortcut_joins :
    parse (constRand 1) 20 "P".toList [] "%A: one\n%-> opt\nB: end".toList 0 []
      = .ok [{ name := "P".toList,
               lines := [{ actorKey := "A".toList, content := "one".toList,
                           options := [{ content := "opt".toList, isShortcut := true }] },
                         { actorKey := "B".toList, content := "end".toList }] }] ∧
    parseLine 20 "A: one".toList {}
      = .ok (true, { lines := [{ actorKey := "A".toList, content := "one".toList }] }) ∧
    parseLine 20 "-> opt".toList {}
      = .ok (false, { lines := [{ options := [{ content := "opt".toList, isShortcut := true }] }] }) :=
  ⟨by decide, by decide, by decide⟩

theorem takeWhile_concat {α : Type} (p : α → Bool) (l : List α) (x : α) :
    (l ++ [x]).takeWhile p =
      if l.all p then (if p x then l ++ [x] else l) else l.takeWhile p := by
  induction l with
  | nil => by_cases hx : p x <;> simp [List.takeWhile, hx]
  | cons a l ih =>
    by_cases ha : p a
    · simp only [List.cons_append, List.takeWhile_cons, ha, if_true, ih, List.all_cons,
        Bool.true_and]
      split <;> [split; skip] <;> simp_all
    · simp [List.takeWhile_cons, ha]

/-- In a run of spaces and tabs without a tab, every character is a space. -/
theorem all_space_of_no_tab (l : Str) (hl : ∀ c ∈ l, c = ' ' ∨ c = '\t') (ht : '\t' ∉ l) :
    (l.reverse.all fun c => decide (c = ' ')) = true := by
  simp only [List.all_eq_true, List.mem_reverse, decide_eq_true_eq]
  intro c hc
  rcases hl c hc with h | h
  · exact h
  · exact absurd (h ▸ hc) ht

theorem spacesAfterLastTab_of_no_tab (l : Str) (hl : ∀ c ∈ l, c = ' ' ∨ c = '\t')
    (ht : '\t' ∉ l) : spacesAfterLastTab l = l.length := by
  unfold spacesAfterLastTab
  have h := all_space_of_no_tab l hl ht
  rw [List.takeWhile_eq_self_iff.mpr (by simpa using h)]
  simp

theorem spacesAfterLastTab_cons (x : Char) (l : Str) (hl : ∀ c ∈ l, c = ' ' ∨ c = '\t') :
    spacesAfterLastTab (x :: l) =
      if '\t' ∈ l then spacesAfterLastTab l
      else if x = ' ' then l.length + 1 else l.length := by
  unfold spacesAfterLastTab
  rw [List.reverse_cons, takeWhile_concat]
  by_cases ht : '\t' ∈ l
  · have : (l.reverse.all fun c => decide (c = ' ')) = false := by
      rw [Bool.eq_false_iff]
      intro hall
      simp only [List.all_eq_true, List.mem_reverse, decide_eq_true_eq] at hall
      exact absurd (hall _ ht) (by decide)
    simp [this, ht]
  · have h := all_space_of_no_tab l hl ht
    simp only [h, if_true, ht, if_false, decide_eq_true_eq]
    split <;> simp

theorem leadingRun_mem (s : Str) : ∀ c ∈ leadingRun s, c = ' ' ∨ c = '\t' := by
  intro c hc
  have := List.mem_takeWhile_imp hc
  simpa using this

theorem calulateIndentLevelLoop_eq (s : Str) : ∀ level spaces : Nat,
    calulateIndentLevelLoop s level spaces =
      level + (leadingRun s).count '\t' +
        (if '\t' ∈ leadingRun s then spacesAfterLastTab (leadingRun s)
         else spaces + (leadingRun s).length) / 4 := by
  induction s with
  | nil => intro level spaces; simp [calulateIndentLevelLoop, leadingRun]
  | cons c cs ih =>
    intro level spaces
    have hm := leadingRun_mem cs
    by_cases h1 : c = ' '
    · subst h1
      have hlr : leadingRun (' ' :: cs) = ' ' :: leadingRun cs := by
        simp [leadingRun, List.takeWhile]
      rw [calulateIndentLevelLoop, if_pos rfl, ih, hlr, spacesAfterLastTab_cons _ _ hm]
      have hc : List.count '\t' (' ' :: leadingRun cs) = List.count '\t' (leadingRun cs) := by
        rw [List.count_cons]; simp
      rw [hc]
      by_cases ht : '\t' ∈ leadingRun cs
      · simp [ht]
      · simp [ht]; omega
    · by_cases h2 : c = '\t'
      · subst h2
        have hlr : leadingRun ('\t' :: cs) = '\t' :: leadingRun cs := by
          simp [leadingRun, List.takeWhile]
        rw [calulateIndentLevelLoop, if_neg (by decide), if_pos rfl, ih, hlr,
          spacesAfterLastTab_cons _ _ hm]
        have hc : List.count '\t' ('\t' :: leadingRun cs) = List.count '\t' (leadingRun cs) + 1 := by
          rw [List.count_cons]; simp
        rw [hc]
        by_cases ht : '\t' ∈ leadingRun cs
        · simp [ht]; omega
        · simp [ht]; omega
      · have hlr : leadingRun (c :: cs) = [] := by
          simp [leadingRun, List.takeWhile, h1, h2]
        rw [calulateIndentLevelLoop, if_neg h1, if_neg h2, hlr]
        simp

/-- C9, as amended. The measured indentation level is the number of tabs in the leading run of
spaces and tabs plus a quarter (rounded down) of the number of spaces that follow the last tab of
that run: spaces before a tab do not count. -/
theorem calulateIndentLevel_eq (s : Str) :
    calulateIndentLevel s =
      (leadingRun s).count '\t' + spacesAfterLastTab (leadingRun s) / 4 := by
  rw [calulateIndentLevel, calulateIndentLevelLoop_eq]
  by_cases ht : '\t' ∈ leadingRun s
  · simp [ht]
  · simp [ht, spacesAfterLastTab_of_no_tab _ (leadingRun_mem s) ht]

/-- C9 fails as stated: four spaces followed by a tab measure one level, not two. -/
theorem calulateIndentLevel_not_additive :
    calulateIndentLevel "    \tx".toList = 1 ∧ specIndentLevel "    \tx".toList = 2 := by
  decide

/-! ### More fuel does not change a result -/

/-- A result that one more unit of fuel preserves is preserved by any larger fuel. -/
theorem ok_of_le {α : Type} (f : Nat → Except Err α)
    (step : ∀ n r, f n = .ok r → f (n + 1) = .ok r) {n m : Nat} (hnm : n ≤ m) {r : α}
    (h : f n = .ok r) : f m = .ok r := by
  induction hnm with
  | refl => exact h
  | step _ ih => exact step _ _ ih

theorem splitLoop_succ (s delim : Str) : ∀ (fuel start : Nat) (elems r : List Str),
    splitLoop fuel s delim start elems = .ok r → splitLoop (fuel + 1) s delim start elems = .ok r
  | 0, _, _, _, h => by simp [splitLoop] at h
  | fuel + 1, start, elems, r, h => by
    rw [splitLoop] at h ⊢
    cases hf : find s delim start with
    | none => simpa [hf] using h
    | some e =>
      simp only [hf] at h ⊢
      exact splitLoop_succ s delim fuel _ _ r h

theorem split_mono {n m : Nat} (hnm : n ≤ m) {s delim : Str} {elems r : List Str}
    (h : split n s delim elems = .ok r) : split m s delim elems = .ok r :=
  ok_of_le (fun k => split k s delim elems) (fun k r h => splitLoop_succ s delim k 0 elems r h) hnm h

theorem parseGroupsLoop_succ (pre start stop : Str) : ∀ (fuel : Nat) (s : Str) (contents : List Str)
    (r : Str × List Str), parseGroupsLoop fuel pre start stop s contents = .ok r →
      parseGroupsLoop (fuel + 1) pre start stop s contents = .ok r
  | 0, _, _, _, h => by simp [parseGroupsLoop] at h
  | fuel + 1, s, contents, r, h => by
    rw [parseGroupsLoop] at h ⊢
    cases hf : find s start 0 with
    | none => simpa [hf] using h
    | some a =>
      cases hg : find s stop 0 with
      | none => simpa [hf, hg] using h
      | some b =>
        simp only [hf, hg] at h ⊢
        exact parseGroupsLoop_succ pre start stop fuel _ _ r h

theorem parseGroups_mono {n m : Nat} (hnm : n ≤ m) {s start stop : Str} {contents : List Str}
    {r : Str × List Str} (h : parseGroups n s start stop contents = .ok r) :
    parseGroups m s start stop contents = .ok r :=
  ok_of_le (fun k => parseGroups k s start stop contents)
    (fun k r h => parseGroupsLoop_succ _ start stop k s contents r h) hnm h

theorem splitGroups_mono {n m : Nat} (hnm : n ≤ m) (seperator : Str) :
    ∀ (groups : List Str) (r : List (List Str)),
      splitGroups n seperator groups = .ok r → splitGroups m seperator groups = .ok r
  | [], r, h => by simpa [splitGroups] using h
  | g :: gs, r, h => by
    rw [splitGroups] at h ⊢
    cases h1 : split n g seperator [] with
    | error e => simp [h1] at h
    | ok list =>
      cases h2 : splitGroups n seperator gs with
      | error e => simp [h1, h2] at h
      | ok rest =>
        rw [split_mono hnm h1, splitGroups_mono hnm seperator gs rest h2]
        simpa [h1, h2] using h

theorem parseGroupedLists_mono {n m : Nat} (hnm : n ≤ m) {s start stop seperator : Str}
    {lists : List (List Str)} {r : Str × List (List Str)}
    (h : parseGroupedLists n s start stop seperator lists = .ok r) :
    parseGroupedLists m s start stop seperator lists = .ok r := by
  rw [parseGroupedLists] at h ⊢
  cases h1 : parseGroups n s start stop [] with
  | error e => simp [h1] at h
  | ok v =>
    obtain ⟨s', groups⟩ := v
    cases h2 : splitGroups n seperator groups with
    | error e => simp [h1, h2] at h
    | ok parsed =>
      rw [parseGroups_mono hnm h1]
      simp only [splitGroups_mono hnm seperator groups parsed h2]
      simpa [h1, h2] using h

/-- The guarded call of `parseGroups` in `parseOutCommon`. -/
theorem guarded_parseGroups_mono {n m : Nat} (hnm : n ≤ m) (p : Prop) [Decidable p]
    {s start stop : Str} {r : Str × List Str}
    (h : (if p then parseGroups n s start stop [] else .ok (s, [])) = .ok r) :
    (if p then parseGroups m s start stop [] else .ok (s, [])) = .ok r := by
  split at h
  · rw [if_pos ‹_›]; exact parseGroups_mono hnm h
  · rw [if_neg ‹_›]; exact h

theorem guarded_parseGroupedLists_mono {n m : Nat} (hnm : n ≤ m) (p : Prop) [Decidable p]
    {s start stop seperator : Str} {r : Str × List (List Str)}
    (h : (if p then parseGroupedLists n s start stop seperator [] else .ok (s, [])) = .ok r) :
    (if p then parseGroupedLists m s start stop seperator [] else .ok (s, [])) = .ok r := by
  split at h
  · rw [if_pos ‹_›]; exact parseGroupedLists_mono hnm h
  · rw [if_neg ‹_›]; exact h

theorem parseOutCommon_mono {n m : Nat} (hnm : n ≤ m) {lineString : Str} {wantGoto : Bool}
    {r : Common} (h : parseOutCommon n lineString wantGoto = .ok r) :
    parseOutCommon m lineString wantGoto = .ok r := by
  rw [parseOutCommon] at h ⊢
  cases h1 : (if lineString ≠ [] then parseGroups n lineString k_ifBegin k_ifEnd []
      else .ok (lineString, [])) with
  | error e => simp [h1] at h
  | ok v1 =>
    obtain ⟨s1, conditions⟩ := v1
    rw [guarded_parseGroups_mono hnm _ h1]
    simp only [h1] at h ⊢
    cases h2 : (if s1 ≠ [] then parseGroupedLists n s1 k_actionBegin k_actionEnd k_separator []
        else .ok (s1, [])) with
    | error e => simp [h2] at h
    | ok v2 =>
      obtain ⟨s2, actionGroups⟩ := v2
      rw [guarded_parseGroupedLists_mono hnm _ h2]
      simp only [h2] at h ⊢
      cases h3 : (if wantGoto = true ∧ s2 ≠ [] then parseGroups n s2 k_gotoBegin k_gotoEnd []
          else .ok (s2, [])) with
      | error e => simp [h3] at h
      | ok v3 =>
        obtain ⟨s3, gotos⟩ := v3
        rw [guarded_parseGroups_mono hnm _ h3]
        simpa [h3] using h

theorem parseLine_mono {n m : Nat} (hnm : n ≤ m) {lineString : Str} {node : DialogueNode}
    {r : Bool × DialogueNode} (h : parseLine n lineString node = .ok r) :
    parseLine m lineString node = .ok r := by
  rw [parseLine] at h ⊢
  by_cases h0 : lineString = []
  · simpa [h0] using h
  · simp only [h0, if_false] at h ⊢
    by_cases hs : startsWith lineString k_optionShortcut = true
    · simp only [hs, if_true] at h ⊢
      cases h1 : parseOutCommon n (substrFrom lineString 2) true with
      | error e => simp [h1] at h
      | ok c =>
        rw [parseOutCommon_mono hnm h1]
        simpa [h1] using h
    · simp only [hs, if_false] at h ⊢
      cases h1 : parseGroupedLists n lineString k_gotoBegin k_gotoEnd k_separator [] with
      | error e => simp [h1] at h
      | ok v =>
        obtain ⟨s1, groups⟩ := v
        rw [parseGroupedLists_mono hnm h1]
        simp only [h1] at h ⊢
        cases h2 : parseOutCommon n s1 false with
        | error e => simp [h2] at h
        | ok c =>
          rw [parseOutCommon_mono hnm h2]
          simpa [h2] using h

/-! ### The scope loop of `parseNodes` -/

/-- Whether `parseLine` returns does not depend on the node, and the name and tags of the node
are kept. -/
theorem parseLine_any_node (fuel : Nat) (s : Str) (node : DialogueNode)
    (h : lineParses fuel s = true) :
    ∃ r, parseLine fuel s node = .ok r ∧ r.2.name = node.name ∧ r.2.tags = node.tags := by
  unfold lineParses at h
  rw [parseLine] at h ⊢
  by_cases h0 : s = []
  · simp [h0]
  · simp only [h0, if_false] at h ⊢
    by_cases hs : startsWith s k_optionShortcut = true
    · simp only [hs, if_true] at h ⊢
      cases h1 : parseOutCommon fuel (substrFrom s 2) true with
      | error e => simp [h1] at h
      | ok c => exact ⟨_, rfl, rfl, rfl⟩
    · simp only [hs, if_false] at h ⊢
      cases h1 : parseGroupedLists fuel s k_gotoBegin k_gotoEnd k_separator [] with
      | error e => simp [h1] at h
      | ok v =>
        obtain ⟨s1, groups⟩ := v
        simp only [h1] at h ⊢
        cases h2 : parseOutCommon fuel s1 false with
        | error e => simp [h2] at h
        | ok c => exact ⟨_, rfl, rfl, rfl⟩

theorem lineParses_mono {n m : Nat} (hnm : n ≤ m) {s : Str} (h : lineParses n s = true) :
    lineParses m s = true := by
  unfold lineParses at h ⊢
  cases h1 : parseLine n s {} with
  | error e => simp [h1] at h
  | ok r => simp [parseLine_mono hnm h1]

/-- A normal line, one that is not empty and does not start with `->`, adds one line to the
node, and that line does not depend on the node. -/
theorem parseLine_normal (fuel : Nat) (s : Str) (line : DialogueNode.Line)
    (h0 : s ≠ []) (hs : startsWith s k_optionShortcut = false)
    (h : parseLine fuel s {} = .ok (true, { lines := [line] })) (node : DialogueNode) :
    parseLine fuel s node = .ok (true, { node with lines := node.lines ++ [line] }) := by
  have hs' : ¬ startsWith s k_optionShortcut = true := by simp [hs]
  rw [parseLine, if_neg h0, if_neg hs'] at h ⊢
  cases h1 : parseGroupedLists fuel s k_gotoBegin k_gotoEnd k_separator [] with
  | error e => simp [h1] at h
  | ok v =>
    obtain ⟨s1, groups⟩ := v
    simp only [h1] at h ⊢
    cases h2 : parseOutCommon fuel s1 false with
    | error e => simp [h2] at h
    | ok c =>
      simp only [h2, Except.ok.injEq, Prod.mk.injEq, true_and, DialogueNode.mk.injEq,
        List.nil_append, List.cons.injEq, and_true] at h
      simp only [h]

theorem flushPotentialLines_name (rand : Nat → Nat) (node pot : DialogueNode) (k : Nat) :
    (flushPotentialLines rand node pot k).1.name = node.name := by
  unfold flushPotentialLines
  split <;> rfl

theorem flushPotentialLines_empty (rand : Nat → Nat) (node pot : DialogueNode) (k : Nat)
    (h : pot.lines = []) : flushPotentialLines rand node pot k = (node, pot, k) := by
  unfold flushPotentialLines
  simp [h]

theorem linkPrevious_name (node pot : DialogueNode) (child : Str) :
    (linkPrevious node pot child).1.name = node.name := by
  unfold linkPrevious
  split
  · rfl
  · split <;> rfl

theorem backName_concat (nodeSet : List DialogueNode) (n : DialogueNode) :
    backName (nodeSet ++ [n]) = n.name := by
  simp [backName]

section ScopeLoop

variable (rand : Nat → Nat) (tags : Str) (lines : List Str)

/-- Past the last line the scope ends. -/
theorem parseNodesLoop_end (fuel : Nat) (name : Str) (level : Nat) (sc : Scope)
    (hi : ¬ sc.i < lines.length) :
    parseNodesLoop rand tags lines (fuel + 1) name level sc = .ok (finishScope rand sc) := by
  rw [parseNodesLoop, dif_neg hi]

/-- A line that starts with `->` while potential lines are buffered goes to the buffer. -/
theorem parseNodesLoop_absorb (fuel : Nat) (name : Str) (level : Nat) (sc : Scope)
    (hi : sc.i < lines.length)
    (h : startsWith (trim (lines.get ⟨sc.i, hi⟩)) k_optionShortcut = true ∧
      sc.potentialNode.lines ≠ []) :
    parseNodesLoop rand tags lines (fuel + 1) name level sc =
      match parseLine fuel (trim (lines.get ⟨sc.i, hi⟩)) sc.potentialNode with
      | .error e => .error e
      | .ok (_, potentialNode) =>
        parseNodesLoop rand tags lines fuel name level
          { sc with i := sc.i + 1, potentialNode := potentialNode } := by
  rw [parseNodesLoop, dif_pos hi]
  simp only [h, ne_eq, not_false_eq_true, and_self, if_true]

/-- A deeper line opens a child scope; afterwards the scope goes on with the previous line
linked to the child. -/
theorem parseNodesLoop_child (fuel : Nat) (name : Str) (level : Nat) (sc : Scope)
    (hi : sc.i < lines.length)
    (h : ¬ (startsWith (trim (lines.get ⟨sc.i, hi⟩)) k_optionShortcut = true ∧
      sc.potentialNode.lines ≠ []))
    (hd : level < calulateIndentLevel (lines.get ⟨sc.i, hi⟩)) :
    parseNodesLoop rand tags lines (fuel + 1) name level sc =
      match parseNodesLoop rand tags lines fuel (childName name sc.i)
          (calulateIndentLevel (lines.get ⟨sc.i, hi⟩))
          { i := sc.i, node := { name := childName name sc.i, tags := tags },
            potentialNode := {}, nodeSet := sc.nodeSet, k := sc.k } with
      | .error e => .error e
      | .ok (i, nodeSet, k) =>
        parseNodesLoop rand tags lines fuel name level
          { i := i, node := (linkPrevious sc.node sc.potentialNode (backName nodeSet)).1,
            potentialNode := (linkPrevious sc.node sc.potentialNode (backName nodeSet)).2,
            nodeSet := nodeSet, k := k } := by
  rw [parseNodesLoop, dif_pos hi]
  simp only [h, if_false, gt_iff_lt, hd, if_true]

/-- A shallower line ends the scope. -/
theorem parseNodesLoop_shallow (fuel : Nat) (name : Str) (level : Nat) (sc : Scope)
    (hi : sc.i < lines.length)
    (h : ¬ (startsWith (trim (lines.get ⟨sc.i, hi⟩)) k_optionShortcut = true ∧
      sc.potentialNode.lines ≠ []))
    (hd : calulateIndentLevel (lines.get ⟨sc.i, hi⟩) < level) :
    parseNodesLoop rand tags lines (fuel + 1) name level sc = .ok (finishScope rand sc) := by
  rw [parseNodesLoop, dif_pos hi]
  have : ¬ level < calulateIndentLevel (lines.get ⟨sc.i, hi⟩) := by omega
  simp only [h, if_false, gt_iff_lt, this, hd, if_true]

/-- A potential line of the scope is parsed into the buffer. -/
theorem parseNodesLoop_potential (fuel : Nat) (name : Str) (level : Nat) (sc : Scope)
    (hi : sc.i < lines.length)
    (h : ¬ (startsWith (trim (lines.get ⟨sc.i, hi⟩)) k_optionShortcut = true ∧
      sc.potentialNode.lines ≠ []))
    (hd : calulateIndentLevel (lines.get ⟨sc.i, hi⟩) = level)
    (hp : startsWith (trim (lines.get ⟨sc.i, hi⟩)) k_potentialLine = true) :
    parseNodesLoop rand tags lines (fuel + 1) name level sc =
      match parseLine fuel (substrFrom (trim (lines.get ⟨sc.i, hi⟩)) k_potentialLine.length)
          sc.potentialNode with
      | .error e => .error e
      | .ok (_, potentialNode) =>
        parseNodesLoop rand tags lines fuel name level
          { sc with i := sc.i + 1, potentialNode := potentialNode } := by
  rw [parseNodesLoop, dif_pos hi]
  simp only [h, if_false, gt_iff_lt, hd, lt_self_iff_false, hp, if_true]

/-- Any other line of the scope flushes the buffer and is parsed into the node. -/
theorem parseNodesLoop_normal (fuel : Nat) (name : Str) (level : Nat) (sc : Scope)
    (hi : sc.i < lines.length)
    (h : ¬ (startsWith (trim (lines.get ⟨sc.i, hi⟩)) k_optionShortcut = true ∧
      sc.potentialNode.lines ≠ []))
    (hd : calulateIndentLevel (lines.get ⟨sc.i, hi⟩) = level)
    (hp : startsWith (trim (lines.get ⟨sc.i, hi⟩)) k_potentialLine = false) :
    parseNodesLoop rand tags lines (fuel + 1) name level sc =
      match parseLine fuel (trim (lines.get ⟨sc.i, hi⟩))
          (flushPotentialLines rand sc.node sc.potentialNode sc.k).1 with
      | .error e => .error e
      | .ok (_, node) =>
        parseNodesLoop rand tags lines fuel name level
          { sc with i := sc.i + 1, node := node,
                    potentialNode := (flushPotentialLines rand sc.node sc.potentialNode sc.k).2.1,
                    k := (flushPotentialLines rand sc.node sc.potentialNode sc.k).2.2 } := by
  rw [parseNodesLoop, dif_pos hi]
  simp only [h, if_false, gt_iff_lt, hd, lt_self_iff_false, hp, Bool.false_eq_true]

end ScopeLoop

section ScopeTermination

variable (rand : Nat → Nat) (tags : Str) (lines : List Str) (f0 : Nat)

theorem linesParse_get (hl : linesParse f0 lines = true) (i : Nat) (hi : i < lines.length)
    (fuel : Nat) (hf : f0 ≤ fuel) :
    lineParses fuel (trim (lines.get ⟨i, hi⟩)) = true ∧
    lineParses fuel (substrFrom (trim (lines.get ⟨i, hi⟩)) k_potentialLine.length) = true := by
  unfold linesParse at hl
  rw [List.all_eq_true] at hl
  have := hl _ (List.get_mem lines i hi)
  simp only [Bool.and_eq_true] at this
  exact ⟨lineParses_mono hf this.1, lineParses_mono hf this.2⟩

omit tags lines in
theorem finishScope_result (sc : Scope) : ScopeResult sc (finishScope rand sc) :=
  ⟨le_refl _, [], (flushPotentialLines rand sc.node sc.potentialNode sc.k).1,
    by simp [finishScope], flushPotentialLines_name _ _ _ _⟩

/-- A line at the level of the scope that is not taken as an option of the buffer is consumed:
the scope returns with a later index. -/
theorem parseNodesLoop_consume (hl : linesParse f0 lines = true) (m : Nat)
    (ih : ScopeReturns rand tags lines f0 m) (sc : Scope) (name : Str) (level fuel : Nat)
    (hi : sc.i < lines.length)
    (h : ¬ (startsWith (trim (lines.get ⟨sc.i, hi⟩)) k_optionShortcut = true ∧
      sc.potentialNode.lines ≠ []))
    (hd : calulateIndentLevel (lines.get ⟨sc.i, hi⟩) = level)
    (hm : lines.length - sc.i ≤ m + 1) (hf : f0 + 2 * m + 2 ≤ fuel) :
    ∃ out, parseNodesLoop rand tags lines fuel name level sc = .ok out ∧ ScopeResult sc out ∧
      sc.i < out.1 := by
  obtain ⟨fuel, rfl⟩ : ∃ k, fuel = k + 1 := ⟨fuel - 1, by omega⟩
  have hp := linesParse_get lines f0 hl sc.i hi fuel (by omega)
  cases hpot : startsWith (trim (lines.get ⟨sc.i, hi⟩)) k_potentialLine with
  | true =>
    rw [parseNodesLoop_potential rand tags lines fuel name level sc hi h hd hpot]
    obtain ⟨r, hr, hname, _⟩ := parseLine_any_node fuel _ sc.potentialNode hp.2
    rw [hr]
    obtain ⟨out, ho, hle, extra, n, hset, hn⟩ :=
      ih { sc with i := sc.i + 1, potentialNode := r.2 } name level fuel
        (by simp only; omega) (by omega)
    exact ⟨out, ho, ⟨by simp only at hle; omega, extra, n, hset, hn⟩, by simp only at hle; omega⟩
  | false =>
    rw [parseNodesLoop_normal rand tags lines fuel name level sc hi h hd hpot]
    obtain ⟨r, hr, hname, _⟩ := parseLine_any_node fuel _
      (flushPotentialLines rand sc.node sc.potentialNode sc.k).1 hp.1
    rw [hr]
    obtain ⟨out, ho, hle, extra, n, hset, hn⟩ :=
      ih { sc with i := sc.i + 1, node := r.2,
                   potentialNode := (flushPotentialLines rand sc.node sc.potentialNode sc.k).2.1,
                   k := (flushPotentialLines rand sc.node sc.potentialNode sc.k).2.2 }
        name level fuel (by simp only; omega) (by omega)
    refine ⟨out, ho, ⟨by simp only at hle; omega, extra, n, hset, ?_⟩, by simp only at hle; omega⟩
    simp only at hn
    rw [hn, hname, flushPotentialLines_name]

/-- The loop of a scope returns when every line parses: with `m` lines left, fuel
`f0 + 2 * m + 1` is enough. -/
theorem parseNodesLoop_returns (hl : linesParse f0 lines = true) :
    ∀ m, ScopeReturns rand tags lines f0 m := by
  intro m
  induction m with
  | zero =>
    intro sc name level fuel hm hf
    obtain ⟨fuel, rfl⟩ : ∃ k, fuel = k + 1 := ⟨fuel - 1, by omega⟩
    rw [parseNodesLoop_end rand tags lines fuel name level sc (by omega)]
    exact ⟨_, rfl, finishScope_result rand sc⟩
  | succ m ih =>
    intro sc name level fuel hm hf
    by_cases hi : sc.i < lines.length
    · by_cases habs : startsWith (trim (lines.get ⟨sc.i, hi⟩)) k_optionShortcut = true ∧
          sc.potentialNode.lines ≠ []
      · obtain ⟨fuel, rfl⟩ : ∃ k, fuel = k + 1 := ⟨fuel - 1, by omega⟩
        have hp := linesParse_get lines f0 hl sc.i hi fuel (by omega)
        rw [parseNodesLoop_absorb rand tags lines fuel name level sc hi habs]
        obtain ⟨r, hr, hname, _⟩ := parseLine_any_node fuel _ sc.potentialNode hp.1
        rw [hr]
        obtain ⟨out, ho, hle, extra, n, hset, hn⟩ :=
          ih { sc with i := sc.i + 1, potentialNode := r.2 } name level fuel
            (by simp only; omega) (by omega)
        exact ⟨out, ho, by simp only at hle; omega, extra, n, hset, hn⟩
      · by_cases hd : level < calulateIndentLevel (lines.get ⟨sc.i, hi⟩)
        · obtain ⟨fuel, rfl⟩ : ∃ k, fuel = k + 1 := ⟨fuel - 1, by omega⟩
          rw [parseNodesLoop_child rand tags lines fuel name level sc hi habs hd]
          obtain ⟨outc, hoc, ⟨_, extrac, nc, hsetc, hnc⟩, hlt⟩ :=
            parseNodesLoop_consume rand tags lines f0 hl m ih
              { i := sc.i, node := { name := childName name sc.i, tags := tags },
                potentialNode := {}, nodeSet := sc.nodeSet, k := sc.k }
              (childName name sc.i) (calulateIndentLevel (lines.get ⟨sc.i, hi⟩)) fuel hi
              (by simp) rfl (by simp only; omega) (by omega)
          obtain ⟨i', nodeSet', k'⟩ := outc
          rw [hoc]
          obtain ⟨out, ho, hle, extra, n, hset, hn⟩ :=
            ih { i := i', node := (linkPrevious sc.node sc.potentialNode (backName nodeSet')).1,
                 potentialNode := (linkPrevious sc.node sc.potentialNode (backName nodeSet')).2,
                 nodeSet := nodeSet', k := k' } name level fuel
              (by simp only at hlt ⊢; omega) (by omega)
          refine ⟨out, ho, by simp only at hle hlt; omega, extrac ++ [nc] ++ extra, n, ?_, ?_⟩
          · simp only at hset hsetc
            rw [hset, hsetc]
            simp
          · simp only at hn
            rw [hn, linkPrevious_name]
        · by_cases hs : calulateIndentLevel (lines.get ⟨sc.i, hi⟩) < level
          · obtain ⟨fuel, rfl⟩ : ∃ k, fuel = k + 1 := ⟨fuel - 1, by omega⟩
            rw [parseNodesLoop_shallow rand tags lines fuel name level sc hi habs hs]
            exact ⟨_, rfl, finishScope_result rand sc⟩
          · obtain ⟨out, ho, hres, _⟩ :=
              parseNodesLoop_consume rand tags lines f0 hl m ih sc name level fuel hi habs
                (by omega) hm (by omega)
            exact ⟨out, ho, hres⟩
    · obtain ⟨fuel, rfl⟩ : ∃ k, fuel = k + 1 := ⟨fuel - 1, by omega⟩
      rw [parseNodesLoop_end rand tags lines fuel name level sc hi]
      exact ⟨_, rfl, finishScope_result rand sc⟩

end ScopeTermination

theorem linkLine_no_option (l : DialogueNode.Line) (child : Str) (h : l.options = []) :
    linkLine l child = { l with gotoNode := child } := by
  simp [linkLine, h]

theorem linkLine_last_option (l : DialogueNode.Line) (child : Str)
    (options : List DialogueNode.Option) (o : DialogueNode.Option) (h : l.options = options ++ [o]) :
    linkLine l child =
      if o.isShortcut then { l with options := options ++ [{ o with gotoNode := child }] }
      else l := by
  simp [linkLine, h]

theorem modifyBack_concat {α : Type} (f : α → α) (v : List α) (x : α) :
    modifyBack f (v ++ [x]) = v ++ [f x] := by
  simp [modifyBack]

theorem startsWith_potential_not_shortcut (s : Str)
    (h : startsWith s k_potentialLine = true) : startsWith s k_optionShortcut = false := by
  unfold startsWith at h ⊢
  cases s with
  | nil => simp
  | cons c t =>
    simp only [k_potentialLine, k_optionShortcut] at h ⊢
    have hc : c = '%' := by simpa using h
    subst hc
    cases t <;> simp

section PotentialRun

variable (rand : Nat → Nat) (tags : Str) (lines : List Str)

/-- Buffering the candidates of a run of potential lines, one round of the loop per line. -/
theorem parseNodesLoop_buffer (f0 : Nat) (sc : Scope) (name : Str) (level : Nat)
    (cands : List DialogueNode.Line) (hpot : sc.potentialNode.lines = [])
    (hrun : ∀ (j : Nat) (hj : j < cands.length), ∃ h : sc.i + j < lines.length,
      calulateIndentLevel (lines.get ⟨sc.i + j, h⟩) = level ∧
      startsWith (trim (lines.get ⟨sc.i + j, h⟩)) k_potentialLine = true ∧
      substrFrom (trim (lines.get ⟨sc.i + j, h⟩)) k_potentialLine.length ≠ [] ∧
      startsWith (substrFrom (trim (lines.get ⟨sc.i + j, h⟩)) k_potentialLine.length)
        k_optionShortcut = false ∧
      parseLine f0 (substrFrom (trim (lines.get ⟨sc.i + j, h⟩)) k_potentialLine.length) {}
        = .ok (true, { lines := [cands.get ⟨j, hj⟩] }))
    (fuel : Nat) (hf : f0 ≤ fuel) :
    ∀ j, j ≤ cands.length →
      parseNodesLoop rand tags lines (fuel + cands.length) name level sc =
        parseNodesLoop rand tags lines (fuel + (cands.length - j)) name level
          { sc with i := sc.i + j,
                    potentialNode := { sc.potentialNode with lines := cands.take j } } := by
  intro j
  induction j with
  | zero =>
    intro _
    have : ({ sc with i := sc.i + 0,
                      potentialNode := { sc.potentialNode with lines := cands.take 0 } } : Scope)
        = sc := by
      cases sc with
      | mk i node pot nodeSet k =>
        cases pot with
        | mk pn pt pl =>
          simp only at hpot
          simp [hpot]
    rw [this]
    rfl
  | succ j ih =>
    intro hj
    rw [ih (by omega)]
    obtain ⟨h, hlev, hp, hne, hns, hparse⟩ := hrun j (by omega)
    obtain ⟨g, hg⟩ : ∃ g, fuel + (cands.length - j) = g + 1 := ⟨fuel + (cands.length - j) - 1, by omega⟩
    have hg' : fuel + (cands.length - (j + 1)) = g := by omega
    rw [hg, hg']
    have hnabs : ¬ (startsWith (trim (lines.get ⟨sc.i + j, h⟩)) k_optionShortcut = true ∧
        (List.take j cands) ≠ []) := by
      rw [startsWith_potential_not_shortcut _ hp]
      simp
    rw [parseNodesLoop_potential rand tags lines g name level _ h hnabs hlev hp]
    have hparse' := parseLine_mono (show f0 ≤ g by omega) hparse
    rw [parseLine_normal g _ _ hne hns hparse']
    simp only [List.take_succ, List.getElem?_eq_getElem (show j < cands.length by omega),
      Option.toList_some, Nat.add_assoc]
    rfl

end PotentialRun

section PotentialFlush

variable (rand : Nat → Nat) (tags : Str) (lines : List Str)

omit tags lines in
theorem flushPotentialLines_cands (node pot : DialogueNode) (k : Nat)
    (cands : List DialogueNode.Line) (hN : cands ≠ []) (hpot : pot.lines = []) :
    flushPotentialLines rand node { pot with lines := cands } k =
      ({ node with lines := node.lines ++
          [cands.get ⟨rand k % cands.length, Nat.mod_lt _ (List.length_pos.mpr hN)⟩] },
        pot, k + 1) := by
  unfold flushPotentialLines
  cases pot with
  | mk pn pt pl =>
    simp only at hpot
    subst hpot
    simp [hN]

/-- At the end of a run of potential lines the scope goes on as if the run had been the one
chosen candidate: the end of the lines, a shallower line, or a line of the scope that is no
potential line flushes the buffer, provided the line does not start with `->`. -/
theorem parseNodesLoop_flush (sc : Scope) (name : Str) (level : Nat)
    (cands : List DialogueNode.Line) (hN : cands ≠ []) (hpot : sc.potentialNode.lines = [])
    (hend : sc.i + cands.length = lines.length ∨
      ∃ h : sc.i + cands.length < lines.length,
        startsWith (trim (lines.get ⟨sc.i + cands.length, h⟩)) k_optionShortcut = false ∧
        (calulateIndentLevel (lines.get ⟨sc.i + cands.length, h⟩) < level ∨
          (calulateIndentLevel (lines.get ⟨sc.i + cands.length, h⟩) = level ∧
            startsWith (trim (lines.get ⟨sc.i + cands.length, h⟩)) k_potentialLine = false)))
    (fuel : Nat) :
    parseNodesLoop rand tags lines fuel name level
        { sc with i := sc.i + cands.length,
                  potentialNode := { sc.potentialNode with lines := cands } } =
      parseNodesLoop rand tags lines fuel name level
        { sc with i := sc.i + cands.length,
                  node := { sc.node with lines := sc.node.lines ++
                    [cands.get ⟨rand sc.k % cands.length,
                      Nat.mod_lt _ (List.length_pos.mpr hN)⟩] },
                  k := sc.k + 1 } := by
  cases fuel with
  | zero => rw [parseNodesLoop, parseNodesLoop]
  | succ fuel =>
    rcases hend with hend | ⟨h, hns, hend⟩
    · rw [parseNodesLoop_end rand tags lines fuel name level _ (by simp only; omega),
        parseNodesLoop_end rand tags lines fuel name level _ (by simp only; omega)]
      simp only [finishScope, flushPotentialLines_cands rand _ _ _ cands hN hpot,
        flushPotentialLines_empty rand _ _ _ hpot]
    · have hnabs1 : ¬ (startsWith (trim (lines.get ⟨sc.i + cands.length, h⟩)) k_optionShortcut
            = true ∧ cands ≠ []) := by
        intro hc
        rw [hns] at hc
        exact absurd hc.1 (by decide)
      have hnabs2 : ¬ (startsWith (trim (lines.get ⟨sc.i + cands.length, h⟩)) k_optionShortcut
            = true ∧ sc.potentialNode.lines ≠ []) := by
        intro hc
        rw [hns] at hc
        exact absurd hc.1 (by decide)
      rcases hend with hsh | ⟨heq, hnp⟩
      · rw [parseNodesLoop_shallow rand tags lines fuel name level _ h hnabs1 hsh,
          parseNodesLoop_shallow rand tags lines fuel name level _ h hnabs2 hsh]
        simp only [finishScope, flushPotentialLines_cands rand _ _ _ cands hN hpot,
          flushPotentialLines_empty rand _ _ _ hpot]
      · rw [parseNodesLoop_normal rand tags lines fuel name level _ h hnabs1 heq hnp,
          parseNodesLoop_normal rand tags lines fuel name level _ h hnabs2 heq hnp]
        simp only [flushPotentialLines_cands rand _ _ _ cands hN hpot,
          flushPotentialLines_empty rand _ _ _ hpot]

end PotentialFlush

/-- C8, as amended. In a scope whose buffer of potential lines is empty, let the next `N >= 1`
lines be at the level of the scope and start with `%`, let the text after the `%` be non-empty,
not start with `->`, and parse to the candidate lines `cands`, and let the run be ended by the
end of the lines, or by a line that does not start with `->` and is shallower than the scope or
is a line of the scope that does not start with `%`. Let every line parse. Then the scope returns,
and it returns what it returns when started after the run with exactly one line added to its
node, the candidate at index `r mod N` for the next value `r` of the generator, with an empty
buffer, and with the generator advanced by one call. -/
theorem potential_run_chosen (rand : Nat → Nat) (tags : Str) (lines : List Str) (f0 : Nat)
    (sc : Scope) (name : Str) (level : Nat) (cands : List DialogueNode.Line) (fuel : Nat)
    (hl : linesParse f0 lines = true) (hN : cands ≠ []) (hpot : sc.potentialNode.lines = [])
    (hrun : ∀ (j : Nat) (hj : j < cands.length), ∃ h : sc.i + j < lines.length,
      calulateIndentLevel (lines.get ⟨sc.i + j, h⟩) = level ∧
      startsWith (trim (lines.get ⟨sc.i + j, h⟩)) k_potentialLine = true ∧
      substrFrom (trim (lines.get ⟨sc.i + j, h⟩)) k_potentialLine.length ≠ [] ∧
      startsWith (substrFrom (trim (lines.get ⟨sc.i + j, h⟩)) k_potentialLine.length)
        k_optionShortcut = false ∧
      parseLine f0 (substrFrom (trim (lines.get ⟨sc.i + j, h⟩)) k_potentialLine.length) {}
        = .ok (true, { lines := [cands.get ⟨j, hj⟩] }))
    (hend : sc.i + cands.length = lines.length ∨
      ∃ h : sc.i + cands.length < lines.length,
        startsWith (trim (lines.get ⟨sc.i + cands.length, h⟩)) k_optionShortcut = false ∧
        (calulateIndentLevel (lines.get ⟨sc.i + cands.length, h⟩) < level ∨
          (calulateIndentLevel (lines.get ⟨sc.i + cands.length, h⟩) = level ∧
            startsWith (trim (lines.get ⟨sc.i + cands.length, h⟩)) k_potentialLine = false)))
    (hf : f0 + 2 * (lines.length - sc.i) + 1 ≤ fuel) :
    ∃ out,
      parseNodesLoop rand tags lines (fuel + cands.length) name level sc = .ok out ∧
      parseNodesLoop rand tags lines fuel name level
        { sc with i := sc.i + cands.length,
                  node := { sc.node with lines := sc.node.lines ++
                    [cands.get ⟨rand sc.k % cands.length,
                      Nat.mod_lt _ (List.length_pos.mpr hN)⟩] },
                  k := sc.k + 1 } = .ok out := by
  have hb := parseNodesLoop_buffer rand tags lines f0 sc name level cands hpot hrun fuel
    (by omega) cands.length (le_refl _)
  rw [Nat.sub_self, Nat.add_zero, List.take_length,
    parseNodesLoop_flush rand tags lines sc name level cands hN hpot hend fuel] at hb
  obtain ⟨out, ho, _⟩ := parseNodesLoop_returns rand tags lines f0 hl (lines.length - sc.i)
    { sc with i := sc.i + cands.length,
              node := { sc.node with lines := sc.node.lines ++
                [cands.get ⟨rand sc.k % cands.length, Nat.mod_lt _ (List.length_pos.mpr hN)⟩] },
              k := sc.k + 1 } name level fuel (by simp only; omega) hf
  exact ⟨out, hb.trans ho, ho⟩

/-- A witness of C8: the run `%A: one`, `%B: two` ended by `C: end`, with a generator that
returns 1. The scope of `P` returns what it returns from the third line on with the one line
`B: two` in its node. -/
theorem potential_run_chosen_witness :
    ∃ out,
      parseNodesLoop (fun _ => 1) [] potentialLines (10 + 2) "P".toList 0 startScope = .ok out ∧
      parseNodesLoop (fun _ => 1) [] potentialLines 10 "P".toList 0
        { i := 2,
          node := { name := "P".toList,
                    lines := [{ actorKey := "B".toList, content := "two".toList }] },
          potentialNode := {}, nodeSet := [], k := 1 } = .ok out :=
  potential_run_chosen (fun _ => 1) [] potentialLines 3 startScope "P".toList 0
    potentialCandidates 10 (by decide) (by decide) rfl
    (by
      intro j hj
      match j, hj with
      | 0, _ => exact ⟨by decide, by decide, by decide, by decide, by decide, rfl⟩
      | 1, _ => exact ⟨by decide, by decide, by decide, by decide, by decide, rfl⟩)
    (Or.inr ⟨by decide, by decide, Or.inr ⟨by decide, by decide⟩⟩) (by decide)

/-! ### More fuel does not change what the Resolver is asked -/

theorem substituteVariablesLoop_succ (r : IDialogueResolver) : ∀ (fuel : Nat) (s : Str)
    (startPos : Nat) (endPos : Option Nat) (asked : List Str) (res : Str × List Str),
    substituteVariablesLoop r fuel s startPos endPos asked = .ok res →
      substituteVariablesLoop r (fuel + 1) s startPos endPos asked = .ok res
  | 0, _, _, _, _, _, h => by simp [substituteVariablesLoop] at h
  | fuel + 1, s, startPos, none, asked, res, h => by
    rw [substituteVariablesLoop] at h ⊢
    exact h
  | fuel + 1, s, startPos, some endPos, asked, res, h => by
    rw [substituteVariablesLoop] at h ⊢
    by_cases h1 : startPos ≠ npos
    · rw [if_pos h1] at h ⊢
      by_cases h2 : startPos > s.length
      · rw [if_pos h2] at h; simp at h
      · rw [if_neg h2] at h ⊢
        by_cases h3 : startPos < k_variableBegin.length
        · simp only [h3, if_true] at h; simp at h
        · simp only [h3, if_false] at h ⊢
          exact substituteVariablesLoop_succ r fuel _ _ _ _ res h
    · rw [if_neg h1] at h ⊢
      exact h

theorem substituteVariables_mono {n m : Nat} (hnm : n ≤ m) {resolver : Option IDialogueResolver}
    {s : Str} {res : Str × List Str} (h : substituteVariables n resolver s = .ok res) :
    substituteVariables m resolver s = .ok res := by
  cases resolver with
  | none => exact h
  | some r =>
    exact ok_of_le (fun k => substituteVariables k (some r) s)
      (fun k res h => substituteVariablesLoop_succ r k _ _ _ _ res h) hnm h

theorem resolveCondition_mono {n m : Nat} (hnm : n ≤ m) {resolver : Option IDialogueResolver}
    {s : Str} {res : Bool × List Str} (h : resolveCondition n resolver s = .ok res) :
    resolveCondition m resolver s = .ok res := by
  rw [resolveCondition] at h ⊢
  cases h1 : substituteVariables n resolver (trim s) with
  | error e => simp [h1] at h
  | ok v =>
    rw [substituteVariables_mono hnm h1]
    simpa [h1] using h

theorem resolveConditions_mono {n m : Nat} (hnm : n ≤ m) (resolver : Option IDialogueResolver) :
    ∀ (conditions : List Str) (res : Bool × List Str),
      resolveConditions n resolver conditions = .ok res →
        resolveConditions m resolver conditions = .ok res
  | [], res, h => by simpa [resolveConditions] using h
  | condition :: rest, res, h => by
    rw [resolveConditions] at h ⊢
    cases h1 : resolveCondition n resolver condition with
    | error e => simp [h1] at h
    | ok v =>
      obtain ⟨holds, asked⟩ := v
      rw [resolveCondition_mono hnm h1]
      cases holds with
      | false => simpa [h1] using h
      | true =>
        simp only [h1] at h ⊢
        cases h2 : resolveConditions n resolver rest with
        | error e => simp [h2] at h
        | ok w =>
          rw [resolveConditions_mono hnm resolver rest w h2]
          simpa [h2] using h

theorem presentOptions_mono {n m : Nat} (hnm : n ≤ m) (resolver : Option IDialogueResolver) :
    ∀ (options : List DialogueNode.Option)
      (res : List DialogueOption × List PresentedOption × List Str),
      presentOptions n resolver options = .ok res → presentOptions m resolver options = .ok res
  | [], res, h => by simpa [presentOptions] using h
  | option :: rest, res, h => by
    rw [presentOptions] at h ⊢
    cases h1 : resolveConditions n resolver option.conditions with
    | error e => simp [h1] at h
    | ok v =>
      rw [resolveConditions_mono hnm resolver _ v h1]
      simp only [h1] at h ⊢
      cases h2 : substituteVariables n resolver option.content with
      | error e => simp [h2] at h
      | ok w =>
        rw [substituteVariables_mono hnm h2]
        simp only [h2] at h ⊢
        cases h3 : presentOptions n resolver rest with
        | error e => simp [h3] at h
        | ok u =>
          rw [presentOptions_mono hnm resolver rest u h3]
          simpa [h3] using h

theorem presentOptions_length (fuel : Nat) (resolver : Option IDialogueResolver) :
    ∀ (options : List DialogueNode.Option)
      (res : List DialogueOption × List PresentedOption × List Str),
      presentOptions fuel resolver options = .ok res →
        res.1.length = options.length ∧ res.2.1.length = options.length
  | [], res, h => by
    simp only [presentOptions, Except.ok.injEq] at h
    subst h
    simp
  | option :: rest, res, h => by
    rw [presentOptions] at h
    cases h1 : resolveConditions fuel resolver option.conditions with
    | error e => simp [h1] at h
    | ok v =>
      simp only [h1] at h
      cases h2 : substituteVariables fuel resolver option.content with
      | error e => simp [h2] at h
      | ok w =>
        simp only [h2] at h
        cases h3 : presentOptions fuel resolver rest with
        | error e => simp [h3] at h
        | ok u =>
          simp only [h3, Except.ok.injEq] at h
          subst h
          have := presentOptions_length fuel resolver rest u h3
          simp [this.1, this.2]

/-! ### Following a chain of goto lines -/

theorem logVariables_nil (c : DialogueController) : logVariables c [] = c := by
  cases c
  simp [logVariables]

theorem logVariables_logVariables (c : DialogueController) (a b : List Str) :
    logVariables (logVariables c a) b = logVariables c (a ++ b) := by
  simp [logVariables]

theorem substituteParams_mono {n m : Nat} (hnm : n ≤ m) (resolver : Option IDialogueResolver) :
    ∀ (params : List Str) (res : List Str × List Str),
      substituteParams n resolver params = .ok res → substituteParams m resolver params = .ok res
  | [], res, h => by simpa [substituteParams] using h
  | param :: rest, res, h => by
    rw [substituteParams] at h ⊢
    cases h1 : substituteVariables n resolver param with
    | error e =>
      rw [h1] at h
      simp at h
    | ok v =>
      obtain ⟨p, asked⟩ := v
      rw [h1] at h
      rw [substituteVariables_mono hnm h1]
      simp only at h ⊢
      cases h2 : substituteParams n resolver rest with
      | error e =>
        rw [h2] at h
        simp at h
      | ok w =>
        rw [h2] at h
        rw [substituteParams_mono hnm resolver rest w h2]
        exact h

theorem resolveAction_mono {n m : Nat} (hnm : n ≤ m) (host : Host) (c c' : DialogueController)
    (actionName : Str) (params : List Str)
    (h : resolveAction n host c actionName params = .ok c') :
    resolveAction m host c actionName params = .ok c' := by
  rw [resolveAction] at h ⊢
  split
  · rename_i hb
    rw [if_pos hb] at h
    exact h
  · rename_i hb
    rw [if_neg hb] at h
    cases h1 : substituteParams n host.resolver params with
    | error e =>
      rw [h1] at h
      simp at h
    | ok v =>
      rw [h1] at h
      rw [substituteParams_mono hnm host.resolver params v h1]
      exact h

theorem resolveActions_mono {n m : Nat} (hnm : n ≤ m) (host : Host) :
    ∀ (actions : List DialogueNode.Action) (c c' : DialogueController),
      resolveActions n host actions c = .ok c' → resolveActions m host actions c = .ok c'
  | [], c, c', h => by simpa [resolveActions] using h
  | action :: rest, c, c', h => by
    rw [resolveActions] at h ⊢
    cases h1 : resolveAction n host c action.name action.params with
    | error e =>
      rw [h1] at h
      simp at h
    | ok c1 =>
      rw [h1] at h
      rw [resolveAction_mono hnm host c c1 _ _ h1]
      exact resolveActions_mono hnm host rest c1 c' h

theorem delegateCalls_append (a b : List Event) :
    delegateCalls (a ++ b) = delegateCalls a ++ delegateCalls b := by
  simp [delegateCalls, List.filter_append]

theorem delegateCalls_resolveVariable (asked : List Str) :
    delegateCalls (asked.map Event.resolveVariable) = [] := by
  induction asked with
  | nil => rfl
  | cons a rest ih =>
    simp only [List.map_cons, delegateCalls, List.filter_cons] at ih ⊢
    exact ih

/-- While the controller is progressing and paused, an action changes neither of the two flags
and makes no call of the Delegate. -/
theorem resolveAction_quiet (fuel : Nat) (host : Host) (c c' : DialogueController)
    (actionName : Str) (params : List Str) (hp : c.m_isProgressing = true)
    (hpa : c.m_isPaused = true) (h : resolveAction fuel host c actionName params = .ok c') :
    c'.m_isProgressing = true ∧ c'.m_isPaused = true ∧
      delegateCalls c'.trace = delegateCalls c.trace := by
  rw [resolveAction] at h
  split at h
  · simp only [Except.ok.injEq] at h
    rw [← h]
    simp [stop, hp, hpa]
  · cases h1 : substituteParams fuel host.resolver params with
    | error e =>
      rw [h1] at h
      simp at h
    | ok v =>
      obtain ⟨parsed, asked⟩ := v
      rw [h1] at h
      simp only at h
      cases hr : host.resolver with
      | none =>
        rw [hr] at h
        simp only [Except.ok.injEq] at h
        rw [← h]
        simp [logVariables, hp, hpa, delegateCalls_append, delegateCalls_resolveVariable]
      | some r =>
        rw [hr] at h
        simp only [Except.ok.injEq] at h
        rw [← h]
        cases (r.resolveAction actionName parsed).2 <;>
          simp [hostCall, stop, pause, hp, hpa, delegateCalls_append,
            delegateCalls_resolveVariable, delegateCalls]

theorem resolveActions_quiet (fuel : Nat) (host : Host) :
    ∀ (actions : List DialogueNode.Action) (c c' : DialogueController),
      c.m_isProgressing = true → c.m_isPaused = true →
      resolveActions fuel host actions c = .ok c' →
      c'.m_isProgressing = true ∧ c'.m_isPaused = true ∧
        delegateCalls c'.trace = delegateCalls c.trace
  | [], c, c', hp, hpa, h => by
    simp only [resolveActions, Except.ok.injEq] at h
    rw [← h]
    exact ⟨hp, hpa, rfl⟩
  | action :: rest, c, c', hp, hpa, h => by
    rw [resolveActions] at h
    cases h1 : resolveAction fuel host c action.name action.params with
    | error e =>
      rw [h1] at h
      simp at h
    | ok c1 =>
      rw [h1] at h
      obtain ⟨a1, a2, a3⟩ := resolveAction_quiet fuel host c c1 _ _ hp hpa h1
      obtain ⟨b1, b2, b3⟩ := resolveActions_quiet fuel host rest c1 c' a1 a2 h
      exact ⟨b1, b2, b3.trans a3⟩

/-- Actions that change nothing but the trace of the calls to the host, whatever the state, make
no call of the Delegate. -/
theorem quiet_actions_events (fuel : Nat) (host : Host) (actions : List DialogueNode.Action)
    (events : List Event)
    (h : ∀ c₀ : DialogueController,
      resolveActions fuel host actions c₀ = .ok { c₀ with trace := c₀.trace ++ events }) :
    delegateCalls events = [] := by
  have hq := resolveActions_quiet fuel host actions
    { m_isProgressing := true, m_isPaused := true } _ rfl rfl
    (h { m_isProgressing := true, m_isPaused := true })
  simpa [delegateCalls] using hq.2.2
/-- Presenting the first line of a chain of control lines with gotos enters the nodes of the
chain and presents the line with content at its end. -/
theorem present_chain (host : Host) (nodes : List (Str × DialogueNode)) (tnode : DialogueNode)
    (tindex : Nat) (ht : tindex < tnode.lines.length) (f0 : Nat) (askedC askedS askedO : List Str)
    (speech : Str) (options : List DialogueOption) (presented : List PresentedOption)
    (hcontent : ¬ ((tnode.lines.get ⟨tindex, ht⟩).actorKey = [] ∧
      (tnode.lines.get ⟨tindex, ht⟩).content = []))
    (hcond : resolveConditions f0 host.resolver (tnode.lines.get ⟨tindex, ht⟩).conditions
      = .ok (true, askedC))
    (hsub : substituteVariables f0 host.resolver (tnode.lines.get ⟨tindex, ht⟩).content
      = .ok (speech, askedS))
    (hopts : presentOptions f0 host.resolver (tnode.lines.get ⟨tindex, ht⟩).options
      = .ok (options, presented, askedO)) :
    ∀ (n : Nat) (node : DialogueNode) (index : Nat) (askedChain : List Str),
      GotoChain host.resolver f0 nodes node index tnode tindex n askedChain →
      ∀ (c : DialogueController) (rest : List NodeState) (fuel : Nat), c.m_nodes = nodes →
        c.m_nodeStack = ⟨node, index⟩ :: rest → f0 + 2 * n + 1 ≤ fuel →
        ∃ below, present host fuel c node index = .ok (true,
          notify host
            { c with m_nodeStack := ⟨tnode, tindex⟩ :: below,
                     m_presentedOptions := presented,
                     trace := c.trace ++
                       (askedChain ++ (askedC ++ askedS ++ askedO)).map Event.resolveVariable,
                     pushes := c.pushes + n }
            (.onProgress ⟨(tnode.lines.get ⟨tindex, ht⟩).actorKey, speech, options⟩)) := by
  intro n node index askedChain hchain
  induction hchain with
  | here node index =>
    intro c rest fuel hnodes hstack hf
    obtain ⟨fuel, rfl⟩ : ∃ k, fuel = k + 1 := ⟨fuel - 1, by omega⟩
    refine ⟨rest, ?_⟩
    rw [present, dif_pos ht]
    simp only [resolveConditions_mono (show f0 ≤ fuel by omega) _ _ _ hcond,
      substituteVariables_mono (show f0 ≤ fuel by omega) hsub,
      presentOptions_mono (show f0 ≤ fuel by omega) _ _ _ hopts, hcontent, if_false]
    cases c
    simp only at hstack
    subst hstack
    simp [logVariables, List.append_assoc]
  | step node index next tnode tindex n asked askedRest h hcontrol hc hfind hlines hrest ih =>
    intro c rest fuel hnodes hstack hf
    obtain ⟨fuel, rfl⟩ : ∃ k, fuel = k + 2 := ⟨fuel - 2, by omega⟩
    obtain ⟨ha, hco, hg⟩ := hcontrol
    obtain ⟨ns, stack, po, sk, pr, pa, ps, tr, pu⟩ := c
    simp only at hnodes hstack
    subst hnodes hstack
    obtain ⟨below, hb⟩ := ih ht hcontent hcond hsub hopts
      { m_nodes := ns, m_nodeStack := ⟨next, 0⟩ :: ⟨node, index + 1⟩ :: rest,
        m_presentedOptions := po, m_isSkipping := sk, m_isProgressing := pr, m_isPaused := pa,
        m_pendingStop := ps, trace := tr ++ asked.map Event.resolveVariable, pushes := pu + 1 }
      (⟨node, index + 1⟩ :: rest) fuel rfl rfl (by omega)
    refine ⟨below, ?_⟩
    rw [present, dif_pos h]
    simp only [resolveConditions_mono (show f0 ≤ fuel + 1 by omega) _ _ _ hc, ha, hco, and_self,
      if_true, hg, ne_eq, not_false_eq_true]
    rw [enterNode]
    simp only [getNodeByName, logVariables, hfind, incrementBack, hlines, ne_eq,
      not_false_eq_true, if_true]
    rw [hb]
    simp only [Nat.add_assoc, Nat.add_comm 1 n, List.map_append, List.append_assoc]
/-- From a line whose conditions hold and whose actions change nothing but the trace,
`progressDialogue` moves to the position that follows; when that position starts a chain of
control lines with gotos, the line with content at the end of the chain is presented. -/
theorem progressDialogue_chain (host : Host) (c : DialogueController) (node : DialogueNode)
    (index : Nat) (rest : List NodeState) (fnode : DialogueNode) (findex : Nat)
    (frest : List NodeState) (pushed : Nat) (tnode : DialogueNode) (tindex n f0 : Nat)
    (asked0 : List Str) (events : List Event) (askedChain askedC askedS askedO : List Str)
    (speech : Str) (options : List DialogueOption) (presented : List PresentedOption)
    (fuel : Nat)
    (hpaused : c.m_isPaused = false) (hstop : c.m_pendingStop = false)
    (hnone : c.m_presentedOptions = []) (hstack : c.m_nodeStack = ⟨node, index⟩ :: rest)
    (hcur : index < node.lines.length)
    (hcurcond : resolveConditions f0 host.resolver (node.lines.get ⟨index, hcur⟩).conditions
      = .ok (true, asked0))
    (hcuract : ∀ c₀ : DialogueController,
      resolveActions f0 host (node.lines.get ⟨index, hcur⟩).actions c₀
        = .ok { c₀ with trace := c₀.trace ++ events })
    (hleave : LeavesTo c.m_nodes node index rest (⟨fnode, findex⟩ :: frest) pushed)
    (hchain : GotoChain host.resolver f0 c.m_nodes fnode findex tnode tindex n askedChain)
    (ht : tindex < tnode.lines.length)
    (hcontent : ¬ ((tnode.lines.get ⟨tindex, ht⟩).actorKey = [] ∧
      (tnode.lines.get ⟨tindex, ht⟩).content = []))
    (hcond : resolveConditions f0 host.resolver (tnode.lines.get ⟨tindex, ht⟩).conditions
      = .ok (true, askedC))
    (hsub : substituteVariables f0 host.resolver (tnode.lines.get ⟨tindex, ht⟩).content
      = .ok (speech, askedS))
    (hopts : presentOptions f0 host.resolver (tnode.lines.get ⟨tindex, ht⟩).options
      = .ok (options, presented, askedO))
    (hf : f0 + 2 * n + 4 ≤ fuel) :
    ∃ below, progressDialogue host fuel c = .ok (true,
      notify host
        { c with m_nodeStack := ⟨tnode, tindex⟩ :: below,
                 m_presentedOptions := presented,
                 trace := c.trace ++ asked0.map Event.resolveVariable ++ events ++
                   (askedChain ++ (askedC ++ askedS ++ askedO)).map Event.resolveVariable,
                 pushes := c.pushes + pushed + n }
        (.onProgress ⟨(tnode.lines.get ⟨tindex, ht⟩).actorKey, speech, options⟩)) := by
  obtain ⟨fuel, rfl⟩ : ∃ k, fuel = k + 3 := ⟨fuel - 3, by omega⟩
  obtain ⟨ns, stack, po, sk, pr, pa, ps, tr, pu⟩ := c
  simp only at hpaused hstop hnone hstack hchain hleave
  subst hpaused hstop hnone hstack
  have hact := fun c₀ => resolveActions_mono (show f0 ≤ fuel + 1 by omega) host _ c₀ _ (hcuract c₀)
  have hcc := resolveConditions_mono (show f0 ≤ fuel + 1 by omega) _ _ _ hcurcond
  have hpc := present_chain host ns tnode tindex ht f0 askedC askedS askedO speech
    options presented hcontent hcond hsub hopts n fnode findex askedChain hchain
  cases hleave with
  | next h hgoto hnext =>
    obtain ⟨below, hb⟩ := hpc
      { m_nodes := ns, m_nodeStack := ⟨node, index + 1⟩ :: rest, m_presentedOptions := [],
        m_isSkipping := sk, m_isProgressing := true, m_isPaused := false, m_pendingStop := false,
        trace := tr ++ asked0.map Event.resolveVariable ++ events, pushes := pu }
      rest (fuel + 1) rfl rfl (by omega)
    refine ⟨below, ?_⟩
    unfold progressDialogue run
    simp only [Bool.false_eq_true, if_false, if_true]
    rw [advanceLine, advanceLineLoop]
    simp only [and_self, if_true, dif_pos hcur, hcc, hact, hgoto, ne_eq, not_true_eq_false,
      if_false, logVariables, incrementBack, hnext]
    rw [hb]
    cases hd : host.hasDelegate <;>
      simp [notify, hd, endIfStopped, List.append_assoc]
  | goto target h hgoto hfind hlines =>
    obtain ⟨below, hb⟩ := hpc
      { m_nodes := ns, m_nodeStack := ⟨fnode, 0⟩ :: ⟨node, index + 1⟩ :: rest,
        m_presentedOptions := [],
        m_isSkipping := sk, m_isProgressing := true, m_isPaused := false, m_pendingStop := false,
        trace := tr ++ asked0.map Event.resolveVariable ++ events, pushes := pu + 1 }
      (⟨node, index + 1⟩ :: rest) fuel rfl rfl (by omega)
    refine ⟨below, ?_⟩
    unfold progressDialogue run
    simp only [Bool.false_eq_true, if_false, if_true]
    rw [advanceLine, advanceLineLoop]
    simp only [and_self, if_true, dif_pos hcur, hcc, hact, hgoto, ne_eq, not_false_eq_true,
      logVariables]
    rw [enterNode]
    simp only [getNodeByName, hfind, incrementBack, hlines, ne_eq, not_false_eq_true, if_true]
    rw [hb]
    cases hd : host.hasDelegate <;>
      simp [notify, hd, endIfStopped, List.append_assoc, Nat.add_assoc]
  | parent below others h hgoto hlast hrest =>
    subst hrest
    obtain ⟨below', hb⟩ := hpc
      { m_nodes := ns, m_nodeStack := ⟨fnode, findex⟩ :: frest, m_presentedOptions := [],
        m_isSkipping := sk, m_isProgressing := true, m_isPaused := false, m_pendingStop := false,
        trace := tr ++ asked0.map Event.resolveVariable ++ events, pushes := pu }
      frest fuel rfl rfl (by omega)
    refine ⟨below', ?_⟩
    unfold progressDialogue run
    simp only [Bool.false_eq_true, if_false, if_true]
    rw [advanceLine, advanceLineLoop]
    simp only [and_self, if_true, dif_pos hcur, hcc, hact, hgoto, ne_eq, not_true_eq_false,
      if_false, logVariables, hlast]
    rw [exitNode]
    simp only
    rw [hb]
    cases hd : host.hasDelegate <;>
      simp [notify, hd, endIfStopped, List.append_assoc]

/-- Claim C6 (amended): let the dialogue be running and not paused, with no pending option and no
pending stop, and let there be a Delegate. Let the conditions of the current line hold and let
its actions change nothing but the trace of the calls to the host: they neither pause nor stop
the dialogue. Let the position that follows the current line (its next line; the first line of
the node of its goto; or, after the last line of a node, the position of the frame below) start
a chain of control-only lines whose conditions hold and that each carry a goto, and let the
chain end at a line with an actor or content whose conditions hold, on which the substitution
of the variables returns, and that has at least one option. Then `skipDialogue` returns with
that line at the back of the stack and its options pending, with `m_isSkipping` false, and
having made one call of the Delegate: the `onProgress` of that line. -/
theorem skipDialogue_stops_at_options (host : Host) (c : DialogueController)
    (node : DialogueNode) (index : Nat) (rest : List NodeState) (fnode : DialogueNode)
    (findex : Nat) (frest : List NodeState) (pushed : Nat) (tnode : DialogueNode)
    (tindex n f0 : Nat) (asked0 : List Str) (events : List Event)
    (askedChain askedC askedS askedO : List Str) (speech : Str)
    (options : List DialogueOption) (presented : List PresentedOption) (fuel : Nat)
    (hdelegate : host.hasDelegate = true)
    (hpaused : c.m_isPaused = false) (hstop : c.m_pendingStop = false)
    (hnone : c.m_presentedOptions = []) (hstack : c.m_nodeStack = ⟨node, index⟩ :: rest)
    (hcur : index < node.lines.length)
    (hcurcond : resolveConditions f0 host.resolver (node.lines.get ⟨index, hcur⟩).conditions
      = .ok (true, asked0))
    (hcuract : ∀ c₀ : DialogueController,
      resolveActions f0 host (node.lines.get ⟨index, hcur⟩).actions c₀
        = .ok { c₀ with trace := c₀.trace ++ events })
    (hleave : LeavesTo c.m_nodes node index rest (⟨fnode, findex⟩ :: frest) pushed)
    (hchain : GotoChain host.resolver f0 c.m_nodes fnode findex tnode tindex n askedChain)
    (ht : tindex < tnode.lines.length)
    (hcontent : ¬ ((tnode.lines.get ⟨tindex, ht⟩).actorKey = [] ∧
      (tnode.lines.get ⟨tindex, ht⟩).content = []))
    (hcond : resolveConditions f0 host.resolver (tnode.lines.get ⟨tindex, ht⟩).conditions
      = .ok (true, askedC))
    (hsub : substituteVariables f0 host.resolver (tnode.lines.get ⟨tindex, ht⟩).content
      = .ok (speech, askedS))
    (hopts : presentOptions f0 host.resolver (tnode.lines.get ⟨tindex, ht⟩).options
      = .ok (options, presented, askedO))
    (hsome : (tnode.lines.get ⟨tindex, ht⟩).options ≠ [])
    (hf : f0 + 2 * n + 7 ≤ fuel) :
    ∃ (below : List NodeState) (c' : DialogueController),
      skipDialogue host fuel c = .ok c' ∧
      c' = { c with m_nodeStack := ⟨tnode, tindex⟩ :: below,
                    m_presentedOptions := presented,
                    m_isSkipping := false,
                    trace := c.trace ++ asked0.map Event.resolveVariable ++ events ++
                      (askedChain ++ (askedC ++ askedS ++ askedO)).map Event.resolveVariable ++
                      [.onProgress ⟨(tnode.lines.get ⟨tindex, ht⟩).actorKey, speech, options⟩],
                    pushes := c.pushes + pushed + n } ∧
      presented ≠ [] ∧
      delegateCalls c'.trace = delegateCalls c.trace ++
        [.onProgress ⟨(tnode.lines.get ⟨tindex, ht⟩).actorKey, speech, options⟩] := by
  have hpres : presented ≠ [] := by
    have hlen := (presentOptions_length f0 host.resolver _ _ hopts).2
    intro he
    rw [he] at hlen
    exact hsome (List.length_eq_zero.mp hlen.symm)
  have hquiet := quiet_actions_events f0 host _ events hcuract
  obtain ⟨fuel, rfl⟩ : ∃ k, fuel = k + 3 := ⟨fuel - 3, by omega⟩
  obtain ⟨ns, stack, po, sk, pr, pa, ps, tr, pu⟩ := c
  simp only at hpaused hstop hnone hstack hchain hleave ⊢
  subst hpaused hstop hnone hstack
  obtain ⟨below, hb⟩ := progressDialogue_chain host
    { m_nodes := ns, m_nodeStack := ⟨node, index⟩ :: rest, m_presentedOptions := [],
      m_isSkipping := true, m_isProgressing := pr, m_isPaused := false, m_pendingStop := false,
      trace := tr, pushes := pu } node index
    rest fnode findex frest pushed tnode tindex n f0 asked0 events askedChain askedC askedS
    askedO speech options presented (fuel + 2)
    rfl rfl rfl rfl hcur hcurcond hcuract hleave hchain ht hcontent hcond hsub
    hopts (by omega)
  simp only [notify, hdelegate, if_true] at hb
  refine ⟨below, _, ?_, rfl, hpres, ?_⟩
  · rw [skipDialogue_eq_loop host (fuel + 3) _
        { m_nodes := ns, m_nodeStack := ⟨node, index⟩ :: rest, m_presentedOptions := [],
          m_isSkipping := true, m_isProgressing := pr, m_isPaused := false,
          m_pendingStop := false, trace := tr, pushes := pu } rfl (by simp) rfl,
      skipDialogueLoop_step host (fuel + 2) _ _
        { m_nodes := ns, m_nodeStack := ⟨tnode, tindex⟩ :: below,
          m_presentedOptions := presented,
          m_isSkipping := true, m_isProgressing := pr, m_isPaused := false,
          m_pendingStop := false,
          trace := tr ++ asked0.map Event.resolveVariable ++ events ++
            (askedChain ++ (askedC ++ askedS ++ askedO)).map Event.resolveVariable ++
            [.onProgress ⟨(tnode.lines.get ⟨tindex, ht⟩).actorKey, speech, options⟩],
          pushes := pu + pushed + n } true hb rfl rfl,
      skipDialogueLoop_step host (fuel + 1) _
        { m_nodes := ns, m_nodeStack := ⟨tnode, tindex⟩ :: below,
          m_presentedOptions := presented,
          m_isSkipping := true, m_isProgressing := pr, m_isPaused := false,
          m_pendingStop := false,
          trace := tr ++ asked0.map Event.resolveVariable ++ events ++
            (askedChain ++ (askedC ++ askedS ++ askedO)).map Event.resolveVariable ++
            [.onProgress ⟨(tnode.lines.get ⟨tindex, ht⟩).actorKey, speech, options⟩],
          pushes := pu + pushed + n }
        { m_nodes := ns, m_nodeStack := ⟨tnode, tindex⟩ :: below,
          m_presentedOptions := presented,
          m_isSkipping := false, m_isProgressing := pr, m_isPaused := false,
          m_pendingStop := false,
          trace := tr ++ asked0.map Event.resolveVariable ++ events ++
            (askedChain ++ (askedC ++ askedS ++ askedO)).map Event.resolveVariable ++
            [.onProgress ⟨(tnode.lines.get ⟨tindex, ht⟩).actorKey, speech, options⟩],
          pushes := pu + pushed + n } false (by simp [progressDialogue, run, hpres]) rfl rfl]
    exact skipDialogueLoop_done host fuel _ rfl
  · simp only [delegateCalls_append, delegateCalls_resolveVariable, hquiet, List.append_nil]
    rfl

/-- A witness of C6: the current line of `Start` has the action `give`; the control line
`<<if true>> [[B]]` that follows and the control line `[[C]]` of `B` lead to the first line of
`C`, which has an option. `skipDialogue` stops there after one `onProgress`. -/
theorem skipDialogue_stops_at_options_witness :
    ∃ (below : List NodeState) (c' : DialogueController),
      skipDialogue plainHost 20 skipGiveStarted = .ok c' ∧
      c' = { skipGiveStarted with
               m_nodeStack := ⟨skipOptionNode, 0⟩ :: below,
               m_presentedOptions := [⟨"Y".toList, []⟩],
               m_isSkipping := false,
               trace := [progressOf "A" "hi", .resolveAction "give".toList ["gold".toList],
                 .onProgress ⟨"X".toList, "one".toList, [⟨true, "yes".toList⟩]⟩],
               pushes := 3 } ∧
      ([⟨"Y".toList, []⟩] : List PresentedOption) ≠ [] ∧
      delegateCalls c'.trace = [progressOf "A" "hi",
        .onProgress ⟨"X".toList, "one".toList, [⟨true, "yes".toList⟩]⟩] :=
  skipDialogue_stops_at_options plainHost skipGiveStarted skipGiveNode 0 [] skipGiveNode 1 [] 0
    skipOptionNode 0 2 3 [] [.resolveAction "give".toList ["gold".toList]] [] [] [] []
    "one".toList [⟨true, "yes".toList⟩] [⟨"Y".toList, []⟩] 20
    rfl rfl rfl rfl rfl (by decide) (by decide)
    (fun c₀ => by simp [resolveActions, resolveAction, substituteParams, substituteVariables,
      plainHost, hostCall, skipGiveNode]; rfl)
    (LeavesTo.next (by decide) (by decide) (by decide))
    (GotoChain.step skipGiveNode 1 skipMiddleNode skipOptionNode 0 1 [] [] (by decide)
      ⟨rfl, rfl, by decide⟩ (by decide) (by decide) (by decide)
      (GotoChain.step skipMiddleNode 0 skipOptionNode skipOptionNode 0 0 [] [] (by decide)
        ⟨rfl, rfl, by decide⟩ (by decide) (by decide) (by decide)
        (GotoChain.here skipOptionNode 0)))
    (by decide) (by decide) (by decide) (by decide) (by decide) (by decide) (by decide)

/-! ### Searching in strings -/

theorem findAux_not_mem (p : Char) (ps : Str) : ∀ (s : Str) (k : Nat), p ∉ s →
    findAux (p :: ps) s k = none
  | [], k, _ => by simp [findAux]
  | c :: cs, k, h => by
    have hc : p ≠ c := fun e => h (e ▸ List.mem_cons_self _ _)
    have hcs : p ∉ cs := fun e => h (List.mem_cons_of_mem _ e)
    have hb : (p == c) = false := by simpa using hc
    rw [findAux]
    simp only [List.isPrefixOf, hb, Bool.false_and, Bool.false_eq_true, if_false]
    exact findAux_not_mem p ps cs (k + 1) hcs

theorem isPrefixOf_append (pat v : Str) : pat.isPrefixOf (pat ++ v) = true := by
  induction pat with
  | nil => simp [List.isPrefixOf]
  | cons p ps ih => simp [List.isPrefixOf, ih]

theorem findAux_append (p : Char) (ps : Str) (v : Str) : ∀ (u : Str) (k : Nat), p ∉ u →
    findAux (p :: ps) (u ++ (p :: ps) ++ v) k = some (k + u.length)
  | [], k, _ => by
    have := isPrefixOf_append (p :: ps) v
    simp only [List.nil_append, List.cons_append] at this ⊢
    rw [findAux]
    simp [this]
  | c :: cs, k, h => by
    have hc : p ≠ c := fun e => h (e ▸ List.mem_cons_self _ _)
    have hcs : p ∉ cs := fun e => h (List.mem_cons_of_mem _ e)
    have hb : (p == c) = false := by simpa using hc
    simp only [List.cons_append]
    rw [findAux]
    simp only [List.isPrefixOf, hb, Bool.false_and, Bool.false_eq_true, if_false]
    have := findAux_append p ps v cs (k + 1) hcs
    simp only [List.cons_append, List.append_assoc] at this ⊢
    rw [this]
    simp only [List.length_cons, Option.some.injEq]
    omega

/-- A pattern whose first character does not occur in the string is not found. -/
theorem find_not_mem (p : Char) (ps s : Str) (h : p ∉ s) : find s (p :: ps) 0 = none := by
  simp [find, findAux_not_mem p ps s 0 h]

/-- The first occurrence of a pattern after a text without the first character of the
pattern is at the end of that text. -/
theorem find_append (p : Char) (ps u v : Str) (h : p ∉ u) :
    find (u ++ (p :: ps) ++ v) (p :: ps) 0 = some u.length := by
  simp only [find, Nat.zero_le, if_true, List.drop_zero]
  rw [findAux_append p ps v u 0 h]
  simp

/-! ### Trimming -/

/-- Claim C17: on a running dialogue (non-empty node stack) both forms of `start` with
`forceStart` false return false and leave the state, and with it the record of the calls to the
host, unchanged. With `forceStart` true they do what they do from the state that
`onDialogueEnded` leaves: the stack and the pending options are empty, the four flags are false,
the registry is unchanged, and one `onEnd` has been added to the calls when there is a
Delegate. -/
theorem start_while_running (host : Host) (fuel : Nat) (c : DialogueController)
    (startNode : Str) (lineIndex : Nat) (nodeStack : List NodeState)
    (hrun : c.m_nodeStack ≠ []) :
    start host fuel c startNode lineIndex false = .ok (false, c) ∧
    startStack host fuel c nodeStack false = .ok (false, c) ∧
    start host fuel c startNode lineIndex true =
      start host fuel (onDialogueEnded host c) startNode lineIndex false ∧
    startStack host fuel c nodeStack true =
      startStack host fuel (onDialogueEnded host c) nodeStack false ∧
    onDialogueEnded host c =
      { c with m_nodeStack := [], m_presentedOptions := [], m_isSkipping := false,
               m_isProgressing := false, m_isPaused := false, m_pendingStop := false,
               trace := c.trace ++ (if host.hasDelegate then [Event.onEnd] else []) } := by
  have hended : (onDialogueEnded host c).m_nodeStack = [] := by
    cases hd : host.hasDelegate <;> simp [onDialogueEnded, notify, hd]
  refine ⟨?_, ?_, ?_, ?_, ?_⟩
  · simp [start, hrun]
  · simp [startStack, hrun]
  · simp [start, hrun, hended]
  · simp [startStack, hrun, hended]
  · cases hd : host.hasDelegate <;> simp [onDialogueEnded, notify, hd]

/-- A witness of C17: the running state of the skip scenario. -/
theorem start_while_running_witness :
    start plainHost 5 skipChainStarted "B".toList 0 false = .ok (false, skipChainStarted) ∧
    startStack plainHost 5 skipChainStarted [⟨skipMiddleNode, 0⟩] false
      = .ok (false, skipChainStarted) ∧
    start plainHost 5 skipChainStarted "B".toList 0 true =
      start plainHost 5 (onDialogueEnded plainHost skipChainStarted) "B".toList 0 false ∧
    startStack plainHost 5 skipChainStarted [⟨skipMiddleNode, 0⟩] true =
      startStack plainHost 5 (onDialogueEnded plainHost skipChainStarted)
        [⟨skipMiddleNode, 0⟩] false ∧
    onDialogueEnded plainHost skipChainStarted =
      { skipChainStarted with
          m_nodeStack := [], m_presentedOptions := [], m_isSkipping := false,
          m_isProgressing := false, m_isPaused := false, m_pendingStop := false,
          trace := skipChainStarted.trace ++
            (if plainHost.hasDelegate then [Event.onEnd] else []) } :=
  start_while_running plainHost 5 skipChainStarted "B".toList 0 [⟨skipMiddleNode, 0⟩]
    (by decide)

/-- Claim C18: `stop` behaves in exactly three ways. When `m_isProgressing` is true it sets
`m_pendingStop`, changes nothing else and returns true. Otherwise, when the node stack is not
empty, it returns true with the stack and the pending options empty, the four flags false, and
one `onEnd` added to the calls to the host when there is a Delegate. Otherwise it returns false
and leaves the state, and with it the record of the calls to the host, unchanged. -/
theorem stop_three_ways (host : Host) (c : DialogueController) :
    (c.m_isProgressing = true → stop host c = (true, { c with m_pendingStop := true })) ∧
    (c.m_isProgressing = false → c.m_nodeStack ≠ [] →
      stop host c = (true,
        { c with m_nodeStack := [], m_presentedOptions := [], m_isSkipping := false,
                 m_isProgressing := false, m_isPaused := false, m_pendingStop := false,
                 trace := c.trace ++ (if host.hasDelegate then [Event.onEnd] else []) })) ∧
    (c.m_isProgressing = false → c.m_nodeStack = [] → stop host c = (false, c)) := by
  refine ⟨?_, ?_, ?_⟩
  · intro hp
    simp [stop, hp]
  · intro hp hs
    cases hd : host.hasDelegate <;> simp [stop, hp, hs, onDialogueEnded, notify, hd]
  · intro hp hs
    simp [stop, hp, hs]

/-! ### Substitution of variables -/

/-- C16 fails in the code. With `a` resolving to `x`, the first round of `substituteVariables`
on `$(a)$(b)` leaves `x$(b)` and searches on from index 3, past the `$(` at index 1: `find`
returns `npos`, `npos + 2` wraps around to 1, the closing bracket is found at index 4, and the
second round calls `replace` at position `1 - 2`, which throws `std::out_of_range`. A text that
holds a closing bracket and no placeholder at all, such as `Hello (world)`, throws in the first
round, whatever the Resolver answers. Placeholders with enough text between them are
substituted. -/
theorem substituteVariables_adjacent_throws (fuel : Nat) (r : IDialogueResolver) :
    substituteVariables (fuel + 2) (some abResolver) "$(a)$(b)".toList = .error .outOfRange ∧
    substituteVariables (fuel + 1) (some r) "Hello (world)".toList = .error .outOfRange ∧
    substituteVariables (fuel + 3) (some abResolver) "$(a) and $(b)".toList
      = .ok ("x and y".toList, ["a".toList, "b".toList]) :=
  ⟨rfl, rfl, rfl⟩

/-! ### Empty action groups -/

/-- C13 fails in the code. `split` always pushes a last piece, so the list of an empty action
group is never empty: it holds one empty item, the test `action.empty()` is false, and the line
gets an Action with an empty name and no parameter. The same holds for a group with only
whitespace between the delimiters. -/
theorem parseLine_empty_action_kept :
    parseLine 20 "A: hi <<>>".toList {}
      = .ok (true, { lines := [{ actorKey := "A".toList, content := "hi".toList,
                                 actions := [{ name := [], params := [] }] }] }) ∧
    parseLine 20 "A: hi << >> there".toList {}
      = .ok (true, { lines := [{ actorKey := "A".toList, content := "hi  there".toList,
                                 actions := [{ name := [], params := [] }] }] }) :=
  ⟨by decide, by decide⟩


/-! ### Delimiters in the wrong order -/

theorem parseGroupsLoop_hangs :
    ∀ (fuel n : Nat) (contents : List Str),
      parseGroupsLoop fuel "]] ".toList k_gotoBegin k_gotoEnd
        (']' :: ']' :: (List.replicate n ' ' ++ " [[a]]".toList)) contents = .error .outOfFuel
  | 0, _, _ => rfl
  | fuel + 1, n, contents => by
    have h1 : find (']' :: ']' :: (List.replicate n ' ' ++ " [[a]]".toList)) k_gotoBegin 0
        = some (n + 3) := by
      have := find_append '[' ['['] (']' :: ']' :: (List.replicate n ' ' ++ [' '])) "a]]".toList
        (by simp [List.mem_replicate])
      simpa [k_gotoBegin, Nat.add_assoc] using this
    have h2 : find (']' :: ']' :: (List.replicate n ' ' ++ " [[a]]".toList)) k_gotoEnd 0
        = some 0 := by
      simp [find, findAux, k_gotoEnd]
    rw [parseGroupsLoop]
    simp only [h1, h2]
    have hs : "]] ".toList ++
        substrFrom (']' :: ']' :: (List.replicate n ' ' ++ " [[a]]".toList)) (0 + k_gotoEnd.length)
        = ']' :: ']' :: (List.replicate (n + 1) ' ' ++ " [[a]]".toList) := by
      simp [substrFrom, k_gotoEnd, List.replicate_succ]
    simp only [hs]
    exact parseGroupsLoop_hangs fuel (n + 1) _

/-- The line `]] [[a]]` is not parsed within any fuel. -/
theorem parseLine_hangs (fuel : Nat) (node : DialogueNode) :
    parseLine fuel "]] [[a]]".toList node = .error .outOfFuel := by
  have hl := parseGroupsLoop_hangs fuel 0 []
  have hp : parseGroups fuel "]] [[a]]".toList k_gotoBegin k_gotoEnd [] = .error .outOfFuel := by
    rw [parseGroups]
    exact hl
  rw [parseLine, if_neg (by decide), if_neg (by decide)]
  simp only [parseGroupedLists, hp]

theorem parseGroupsLoop_if_hangs :
    ∀ (fuel n : Nat) (contents : List Str),
      parseGroupsLoop fuel "<<a>> ".toList k_ifBegin k_ifEnd
        ('<' :: '<' :: 'a' :: '>' :: '>' :: ' ' :: (List.replicate n ' ' ++ "<<if x>>".toList))
        contents = .error .outOfFuel
  | 0, _, _ => rfl
  | fuel + 1, n, contents => by
    have h1 : find ('<' :: '<' :: 'a' :: '>' :: '>' :: ' ' ::
        (List.replicate n ' ' ++ "<<if x>>".toList)) k_ifBegin 0 = some (n + 6) := by
      have := findAux_append '<' "<if".toList " x>>".toList (List.replicate n ' ') 6
        (by simp [List.mem_replicate])
      simp only [String.toList, List.cons_append, List.append_assoc, List.nil_append,
        List.length_replicate] at this
      simp [find, findAux, k_ifBegin, List.isPrefixOf, this, Nat.add_comm]
    have h2 : find ('<' :: '<' :: 'a' :: '>' :: '>' :: ' ' ::
        (List.replicate n ' ' ++ "<<if x>>".toList)) k_ifEnd 0 = some 3 := by
      simp [find, findAux, k_ifEnd, List.isPrefixOf]
    rw [parseGroupsLoop]
    simp only [h1, h2]
    have hs : "<<a>> ".toList ++
        substrFrom ('<' :: '<' :: 'a' :: '>' :: '>' :: ' ' ::
          (List.replicate n ' ' ++ "<<if x>>".toList)) (3 + k_ifEnd.length)
        = '<' :: '<' :: 'a' :: '>' :: '>' :: ' ' ::
          (List.replicate (n + 1) ' ' ++ "<<if x>>".toList) := by
      simp [substrFrom, k_ifEnd, List.replicate_succ]
    simp only [hs]
    exact parseGroupsLoop_if_hangs fuel (n + 1) _

/-- The line `<<a>> <<if x>>` is not parsed within any fuel. -/
theorem parseLine_if_hangs (fuel : Nat) (node : DialogueNode) :
    parseLine fuel "<<a>> <<if x>>".toList node = .error .outOfFuel := by
  cases fuel with
  | zero => rfl
  | succ fuel =>
    have hg : parseGroupedLists (fuel + 1) "<<a>> <<if x>>".toList k_gotoBegin k_gotoEnd
        k_separator [] = .ok ("<<a>> <<if x>>".toList, []) := rfl
    have hl := parseGroupsLoop_if_hangs (fuel + 1) 0 []
    have hp : parseGroups (fuel + 1) "<<a>> <<if x>>".toList k_ifBegin k_ifEnd []
        = .error .outOfFuel := by
      rw [parseGroups]
      exact hl
    rw [parseLine, if_neg (by decide), if_neg (by decide)]
    simp only [hg, parseOutCommon]
    rw [if_pos (by decide), hp]
/-- A body of one line at level 0, a normal line on which `parseLine` never returns: `parseNodes`
does not return either. -/
theorem parseNodes_hangs (rand : Nat → Nat) (tags l name : Str) (ht : trim l = l)
    (hlevel : calulateIndentLevel l = 0) (hs : startsWith l k_optionShortcut = false)
    (hp : startsWith l k_potentialLine = false)
    (hh : ∀ fuel node, parseLine fuel l node = .error .outOfFuel)
    (fuel : Nat) (nodes : List DialogueNode) (k : Nat) :
    parseNodes rand fuel name tags [l] 0 0 nodes k = .error .outOfFuel := by
  rw [parseNodes]
  cases fuel with
  | zero => rfl
  | succ fuel =>
    rw [parseNodesLoop, dif_pos (by simp)]
    simp only [List.get_cons_zero, List.get, ht, hs, hp, hlevel, hh, Nat.lt_irrefl, gt_iff_lt,
      if_false, Bool.false_eq_true, false_and]

/-- C15 fails in the code. In the line `]] [[a]]` the closing delimiter comes first. Each round
of the loop of `parseGroups` finds both delimiters, records what follows the opening one, and
rebuilds the string as the fixed prefix `]] ` followed by what came after the first closing
delimiter: the string after the round is the one before it with one more space, both delimiters
are found again, and the loop never ends. The same happens with the delimiters of the if-groups
on the line `<<a>> <<if x>>`, where the closing delimiter of the action group comes before the
opening delimiter of the if-group. Whatever the fuel, `parse` does not return. -/
theorem parse_hangs (crand : Nat → Nat → Nat) (fuel : Nat) (name tags : Str) (seed : Nat) :
    parse crand fuel name tags "]] [[a]]".toList seed [] = .error .outOfFuel ∧
    parse crand fuel name tags "<<a>> <<if x>>".toList seed [] = .error .outOfFuel := by
  have h1 : (getlines "]] [[a]]".toList).map (fun l => replaceEndlineTokens (stripComment l))
      = ["]] [[a]]".toList] := by decide
  have h2 : (getlines "<<a>> <<if x>>".toList).map
      (fun l => replaceEndlineTokens (stripComment l)) = ["<<a>> <<if x>>".toList] := by decide
  constructor
  · rw [parse, h1, parseNodes_hangs (crand seed) tags _ name (by decide) (by decide) (by decide)
      (by decide) (fun fuel node => parseLine_hangs fuel node) fuel [] 0]
  · rw [parse, h2, parseNodes_hangs (crand seed) tags _ name (by decide) (by decide) (by decide)
      (by decide) (fun fuel node => parseLine_if_hangs fuel node) fuel [] 0]

/-! ### Lines without groups -/

/-- The search finds nothing exactly in the texts that do not hold the pattern. -/
theorem findAux_eq_none (pat : Str) : ∀ (s : Str) (k : Nat),
    findAux pat s k = none ↔ ¬ pat <:+: s
  | [], k => by
    by_cases hp : pat = [] <;> simp [findAux, hp]
  | c :: cs, k => by
    rw [findAux, List.infix_cons_iff]
    by_cases hp : pat.isPrefixOf (c :: cs) = true
    · simp only [hp, if_true]
      simp only [List.isPrefixOf_iff_prefix] at hp
      simp [hp]
    · simp only [hp, if_false, Bool.false_eq_true]
      rw [findAux_eq_none pat cs (k + 1)]
      simp only [List.isPrefixOf_iff_prefix] at hp
      simp [hp]

theorem find_eq_none (s pat : Str) : find s pat 0 = none ↔ ¬ pat <:+: s := by
  simp [find, findAux_eq_none]

/-- The loop of `parseGroups` on a text without the opening delimiter. -/
theorem parseGroups_none (fuel : Nat) (s start stop : Str) (contents : List Str)
    (h : ¬ start <:+: s) :
    parseGroups (fuel + 1) s start stop contents = .ok (s, contents) := by
  have hf := (find_eq_none s start).mpr h
  simp [parseGroups, parseGroupsLoop, hf]

theorem parseGroupedLists_none (fuel : Nat) (s start stop sep : Str) (h : ¬ start <:+: s) :
    parseGroupedLists (fuel + 1) s start stop sep [] = .ok (s, []) := by
  simp [parseGroupedLists, parseGroups_none fuel s start stop [] h, splitGroups]

/-- The lambda `parseOutCommon` on a text without `<<`, when no goto is asked for. -/
theorem parseOutCommon_none (fuel : Nat) (s : Str) (h : ¬ k_actionBegin <:+: s) :
    parseOutCommon (fuel + 1) s false
      = .ok { lineString := s, conditions := [], actions := [], gotoNode := none } := by
  have hif : ¬ k_ifBegin <:+: s := fun hi =>
    h (List.IsInfix.trans (by decide : k_actionBegin <:+: k_ifBegin) hi)
  by_cases hs : s = []
  · subst hs
    rfl
  · simp [parseOutCommon, hs, parseGroups_none fuel s _ _ [] hif,
      parseGroupedLists_none fuel s _ _ _ h, actionsOfGroups]

/-- Claim C14: on a non-empty line that does not start with `->` and holds neither `[[` nor
`<<`, `parseLine` returns true and appends one Line without condition, action, option or goto.
When the line holds a `:`, the actor key is the trimmed text before the first `:` and the content
the trimmed text after it; when it holds none, the actor key is empty and the content is the
trimmed line. -/
theorem parseLine_actor_content (fuel : Nat) (node : DialogueNode) (line : Str)
    (hne : line ≠ []) (hns : startsWith line k_optionShortcut = false)
    (hg : ¬ k_gotoBegin <:+: line) (ha : ¬ k_actionBegin <:+: line) :
    (∀ a b : Str, ':' ∉ a → line = a ++ ':' :: b →
      parseLine (fuel + 1) line node = .ok (true, { node with lines := node.lines ++
        [{ actorKey := trim a, content := trim b }] })) ∧
    (':' ∉ line →
      parseLine (fuel + 1) line node = .ok (true, { node with lines := node.lines ++
        [{ content := trim line }] })) := by
  have hns' : ¬ (startsWith line k_optionShortcut = true) := by
    rw [hns]
    decide
  have hp : parseLine (fuel + 1) line node = .ok (true, { node with lines := node.lines ++
      [withActorAndContent {} line] }) := by
    rw [parseLine, if_neg hne, if_neg hns']
    simp only [parseGroupedLists_none fuel line _ _ _ hg, parseOutCommon_none fuel line ha]
    rfl
  constructor
  · intro a b hna hl
    have hf : find line k_actorContentSeparator 0 = some a.length := by
      have := find_append ':' [] a b hna
      rw [hl]
      simpa [k_actorContentSeparator] using this
    have h1 : substr line 0 a.length = a := by
      rw [hl]
      simp [substr]
    have h2 : substrFrom line (a.length + 1) = b := by
      rw [hl, substrFrom, List.drop_append_eq_append_drop]
      simp
    rw [hp, withActorAndContent, if_pos hne]
    simp only [hf, h1, h2]
  · intro hnc
    have hf : find line k_actorContentSeparator 0 = none := find_not_mem ':' [] line hnc
    rw [hp, withActorAndContent, if_pos hne]
    simp only [hf]

/-- A witness of C14: the line `Bob: it is 10:30` gives the actor key `Bob` and the content
`it is 10:30`, the second colon staying in the content. -/
theorem parseLine_actor_content_witness :
    parseLine (0 + 1) "Bob: it is 10:30".toList {}
      = .ok (true, { lines := [{ actorKey := "Bob".toList, content := "it is 10:30".toList }] }) :=
  (parseLine_actor_content 0 {} "Bob: it is 10:30".toList (by decide) (by decide) (by decide)
    (by decide)).1 "Bob".toList " it is 10:30".toList (by decide) rfl

/-! ### Shortcut option lines -/

/-- C11 fails as stated. In the body `A: one`, `%B: two`, `-> opt` the line `-> opt` comes while
the potential line `B: two` is buffered: the option goes to that buffered line, and the last line
committed to the node, `A: one`, gets no option. -/
theorem parse_shortcut_joins_potential :
    parse (constRand 0) 20 "P".toList [] "A: one\n%B: two\n-> opt".toList 0 []
      = .ok [{ name := "P".toList,
               lines := [{ actorKey := "A".toList, content := "one".toList, options := [] },
                         { actorKey := "B".toList, content := "two".toList,
                           options := [{ content := "opt".toList, isShortcut := true }] }] }] := by
  decide

theorem startsWith_shortcut_not_potential (s : Str)
    (h : startsWith s k_optionShortcut = true) : startsWith s k_potentialLine = false := by
  cases hp : startsWith s k_potentialLine with
  | false => rfl
  | true =>
    rw [startsWith_potential_not_shortcut s hp] at h
    exact absurd h (by decide)

theorem pushOptionToBack_concat (ls : List DialogueNode.Line) (l : DialogueNode.Line)
    (o : DialogueNode.Option) :
    pushOptionToBack (ls ++ [l]) o = ls ++ [{ l with options := l.options ++ [o] }] := by
  simp [pushOptionToBack]

/-- A line that starts with `->` on which `parseLine` returns: `parseOutCommon` returns on the
text after the `->`, and the option built from it goes to the last line of the node. -/
theorem parseLine_shortcut (fuel : Nat) (s : Str) (hs : startsWith s k_optionShortcut = true)
    (hp : lineParses fuel s = true) :
    ∃ c, parseOutCommon fuel (substrFrom s 2) true = .ok c ∧
      ∀ node : DialogueNode, parseLine fuel s node = .ok (false,
        { node with
          lines := pushOptionToBack (if node.lines = [] then [{}] else node.lines)
            (shortcutOption c) }) := by
  have hne : s ≠ [] := by
    intro h0
    rw [h0] at hs
    exact absurd hs (by decide)
  unfold lineParses at hp
  rw [parseLine, if_neg hne, if_pos hs] at hp
  cases h1 : parseOutCommon fuel (substrFrom s 2) true with
  | error e =>
    rw [h1] at hp
    exact absurd hp (by simp)
  | ok c =>
    refine ⟨c, rfl, ?_⟩
    intro node
    rw [parseLine, if_neg hne, if_pos hs, h1]

/-- Claim C11 (amended): in the scope of the node `name` at indentation `level`, let the next
line be at the level of the scope, let its trimmed text start with `->`, and let no potential
line be buffered. Let every line parse. Then `parseOutCommon` returns on the text after the `->`,
and the scope returns what it returns from the next line on with the node changed in its last
line only: the shortcut option built from what `parseOutCommon` found is appended to the options
of the last line of the node, or, when the node has no line yet, to an empty line that becomes
its only line. No line is added otherwise, and the buffer stays empty. -/
theorem shortcut_line_attached (rand : Nat → Nat) (tags : Str) (lines : List Str) (f0 : Nat)
    (sc : Scope) (name : Str) (level fuel : Nat)
    (hl : linesParse f0 lines = true) (hi : sc.i < lines.length)
    (hd : calulateIndentLevel (lines.get ⟨sc.i, hi⟩) = level)
    (hs : startsWith (trim (lines.get ⟨sc.i, hi⟩)) k_optionShortcut = true)
    (hpot : sc.potentialNode.lines = [])
    (hf : f0 + 2 * (lines.length - sc.i) + 1 ≤ fuel) :
    ∃ (c : Common) (newLines : List DialogueNode.Line) (out : Nat × List DialogueNode × Nat),
      parseOutCommon fuel (substrFrom (trim (lines.get ⟨sc.i, hi⟩)) 2) true = .ok c ∧
      (shortcutOption c).isShortcut = true ∧
      parseNodesLoop rand tags lines (fuel + 1) name level sc = .ok out ∧
      parseNodesLoop rand tags lines fuel name level
        { sc with i := sc.i + 1, node := { sc.node with lines := newLines } } = .ok out ∧
      (sc.node.lines = [] → newLines = [{ options := [shortcutOption c] }]) ∧
      (∀ (ls : List DialogueNode.Line) (l : DialogueNode.Line), sc.node.lines = ls ++ [l] →
        newLines = ls ++ [{ l with options := l.options ++ [shortcutOption c] }]) := by
  have hp := (linesParse_get lines f0 hl sc.i hi fuel (by omega)).1
  obtain ⟨c, hc, hline⟩ := parseLine_shortcut fuel _ hs hp
  have hstep := parseNodesLoop_normal rand tags lines fuel name level sc hi
    (fun h => h.2 hpot) hd (startsWith_shortcut_not_potential _ hs)
  rw [flushPotentialLines_empty rand sc.node sc.potentialNode sc.k hpot, hline] at hstep
  simp only at hstep
  obtain ⟨out, ho, _⟩ := parseNodesLoop_returns rand tags lines f0 hl (lines.length - sc.i)
    { sc with
      i := sc.i + 1,
      node := { sc.node with
        lines := pushOptionToBack (if sc.node.lines = [] then [{}] else sc.node.lines)
          (shortcutOption c) } }
    name level fuel (by simp only; omega) hf
  refine ⟨c, _, out, hc, rfl, hstep.trans ho, ho, ?_, ?_⟩
  · intro h0
    rw [if_pos h0]
    rfl
  · intro ls l h
    rw [if_neg (by simp [h]), h, pushOptionToBack_concat]

/-- A witness of C11: the body `A: hi`, `-> go [[B]]` in the scope of `P` after its first
line. -/
theorem shortcut_line_attached_witness :
    ∃ (c : Common) (newLines : List DialogueNode.Line) (out : Nat × List DialogueNode × Nat),
      parseOutCommon 8 (substrFrom (trim (shortcutLines.get ⟨1, by decide⟩)) 2) true = .ok c ∧
      (shortcutOption c).isShortcut = true ∧
      parseNodesLoop (fun _ => 0) [] shortcutLines (8 + 1) "P".toList 0 linkedScope = .ok out ∧
      parseNodesLoop (fun _ => 0) [] shortcutLines 8 "P".toList 0
        { linkedScope with i := linkedScope.i + 1,
                           node := { linkedScope.node with lines := newLines } } = .ok out ∧
      (linkedScope.node.lines = [] → newLines = [{ options := [shortcutOption c] }]) ∧
      (∀ (ls : List DialogueNode.Line) (l : DialogueNode.Line),
        linkedScope.node.lines = ls ++ [l] →
        newLines = ls ++ [{ l with options := l.options ++ [shortcutOption c] }]) :=
  shortcut_line_attached (fun _ => 0) [] shortcutLines 5 linkedScope "P".toList 0 8
    (by decide) (by decide) (by decide) (by decide) rfl (by decide)

/-! ### Action groups -/

theorem actionCalls_append (a b : List Event) :
    actionCalls (a ++ b) = actionCalls a ++ actionCalls b := by
  simp [actionCalls, List.filterMap_append]

theorem actionCalls_resolveVariable (asked : List Str) :
    actionCalls (asked.map Event.resolveVariable) = [] := by
  induction asked with
  | nil => rfl
  | cons a rest ih =>
    simp only [List.map_cons, actionCalls, List.filterMap_cons] at ih ⊢
    exact ih

theorem actionCalls_stop (host : Host) (c : DialogueController) :
    actionCalls (stop host c).2.trace = actionCalls c.trace := by
  unfold stop
  split
  · rfl
  · split
    · cases hd : host.hasDelegate <;>
        simp [onDialogueEnded, notify, hd, actionCalls, List.filterMap_append]
    · rfl

theorem actionCalls_hostCall (host : Host) (c : DialogueController) (call : HostCall) :
    actionCalls (hostCall host c call).trace = actionCalls c.trace := by
  cases call with
  | nothing => rfl
  | stop => exact actionCalls_stop host c
  | pause =>
    simp only [hostCall, pause]
    split
    · rfl
    · cases hd : host.hasDelegate <;> simp [notify, hd, actionCalls, List.filterMap_append]

/-- The loop of `resolveAction` over the parameters, when the substitution returns on each. -/
theorem substituteParams_forall2 (fuel : Nat) (resolver : Option IDialogueResolver) :
    ∀ (params parsed : List Str),
      List.Forall₂ (fun p q => ∃ asked, substituteVariables fuel resolver p = .ok (q, asked))
        params parsed →
      ∃ asked, substituteParams fuel resolver params = .ok (parsed, asked)
  | [], _, h => by
    cases h
    exact ⟨[], rfl⟩
  | p :: ps, _, h => by
    cases h with
    | cons h1 hrest =>
      obtain ⟨a1, h1⟩ := h1
      obtain ⟨a2, h2⟩ := substituteParams_forall2 fuel resolver ps _ hrest
      exact ⟨a1 ++ a2, by simp [substituteParams, h1, h2]⟩

/-- C20 fails in the code. With a Resolver, the action `give` with the parameter `Hello (world)`
is not forwarded: the substitution of the variables in the parameter, which holds `)` and no
placeholder, throws `std::out_of_range`, and `resolveAction` does not return. -/
theorem resolveAction_throws :
    resolveAction 20 plainHost {} "give".toList ["Hello (world)".toList]
      = .error .outOfRange := rfl

/-- What `resolveAction` does when the substitution returns: when the name is `stop`, `end`,
`fin` or `exit` with its ASCII letters in any case, `resolveAction` does what `stop` does and
the Resolver gets no call of `resolveAction`. For any other name, with a Resolver, when the substitution of the variables
returns on each parameter, `resolveAction` returns, and the Resolver gets exactly one call of
`resolveAction`, after the calls it had before: the name is the one given, and the parameters
are the substituted ones, in order. -/
theorem resolveAction_dispatch (fuel : Nat) (host : Host) (c : DialogueController)
    (actionName : Str) (params : List Str) :
    (actionName.map Char.toLower ∈ builtinStopNames →
      resolveAction fuel host c actionName params = .ok (stop host c).2 ∧
      actionCalls (stop host c).2.trace = actionCalls c.trace) ∧
    (actionName.map Char.toLower ∉ builtinStopNames →
      ∀ (r : IDialogueResolver) (parsed : List Str), host.resolver = some r →
        List.Forall₂ (fun p q => ∃ asked, substituteVariables fuel (some r) p = .ok (q, asked))
          params parsed →
        ∃ (asked : List Str) (c' : DialogueController),
          c' = hostCall host
            { c with trace := c.trace ++ asked.map Event.resolveVariable ++
                       [Event.resolveAction actionName parsed] }
            (r.resolveAction actionName parsed).2 ∧
          resolveAction fuel host c actionName params = .ok c' ∧
          actionCalls c'.trace = actionCalls c.trace ++ [(actionName, parsed)]) := by
  constructor
  · intro hb
    have hb' : actionName.map Char.toLower = "stop".toList ∨
        actionName.map Char.toLower = "end".toList ∨ actionName.map Char.toLower = "fin".toList ∨
        actionName.map Char.toLower = "exit".toList := by
      simpa [builtinStopNames] using hb
    refine ⟨?_, actionCalls_stop host c⟩
    rw [resolveAction]
    simp only [hb', if_true]
  · intro hb r parsed hr hsub
    have hb' : ¬ (actionName.map Char.toLower = "stop".toList ∨
        actionName.map Char.toLower = "end".toList ∨ actionName.map Char.toLower = "fin".toList ∨
        actionName.map Char.toLower = "exit".toList) := by
      simpa [builtinStopNames] using hb
    obtain ⟨asked, hp⟩ := substituteParams_forall2 fuel (some r) params parsed hsub
    refine ⟨asked, _, rfl, ?_, ?_⟩
    · rw [resolveAction]
      simp only [hb', if_false, hr, hp]
    · rw [actionCalls_hostCall]
      simp only [actionCalls_append, actionCalls_resolveVariable, List.append_nil]
      rfl

/-- An instance of the dispatch: the name `StOp` does what `stop` does; the action `give` with the
parameter `$(n) coins` is forwarded once with the parameter `5 coins`. -/
theorem resolveAction_dispatch_witness :
    (resolveAction 3 (constHost "5".toList) skipChainStarted "StOp".toList []
        = .ok (stop (constHost "5".toList) skipChainStarted).2 ∧
      actionCalls (stop (constHost "5".toList) skipChainStarted).2.trace
        = actionCalls skipChainStarted.trace) ∧
    ∃ (asked : List Str) (c' : DialogueController),
      c' = hostCall (constHost "5".toList)
        { skipChainStarted with
            trace := skipChainStarted.trace ++ asked.map Event.resolveVariable ++
              [Event.resolveAction "give".toList ["5 coins".toList]] }
        HostCall.nothing ∧
      resolveAction 3 (constHost "5".toList) skipChainStarted "give".toList ["$(n) coins".toList]
        = .ok c' ∧
      actionCalls c'.trace
        = actionCalls skipChainStarted.trace ++ [("give".toList, ["5 coins".toList])] :=
  ⟨(resolveAction_dispatch 3 (constHost "5".toList) skipChainStarted "StOp".toList []).1
      (by decide),
   (resolveAction_dispatch 3 (constHost "5".toList) skipChainStarted "give".toList
      ["$(n) coins".toList]).2 (by decide) _ ["5 coins".toList] rfl
      (List.Forall₂.cons ⟨["n".toList], rfl⟩ List.Forall₂.nil)⟩

/-! ### Presenting a line -/

/-- The flag that the loop over conditions returns is true exactly when every condition
resolves to true. -/
theorem resolveConditions_true_iff (fuel : Nat) (resolver : Option IDialogueResolver) :
    ∀ (conditions : List Str) (all : Bool) (asked : List Str),
      resolveConditions fuel resolver conditions = .ok (all, asked) →
        (all = true ↔
          ∀ condition ∈ conditions, ∃ a, resolveCondition fuel resolver condition = .ok (true, a))
  | [], all, asked, h => by
    simp only [resolveConditions, Except.ok.injEq, Prod.mk.injEq] at h
    simp [← h.1]
  | condition :: rest, all, asked, h => by
    rw [resolveConditions] at h
    cases h1 : resolveCondition fuel resolver condition with
    | error e => simp [h1] at h
    | ok v =>
      obtain ⟨b, a⟩ := v
      cases b with
      | false =>
        simp only [h1, Except.ok.injEq, Prod.mk.injEq] at h
        simp [← h.1, h1]
      | true =>
        simp only [h1] at h
        cases h2 : resolveConditions fuel resolver rest with
        | error e => simp [h2] at h
        | ok w =>
          obtain ⟨all', asked'⟩ := w
          simp only [h2, Except.ok.injEq, Prod.mk.injEq] at h
          have ih := resolveConditions_true_iff fuel resolver rest all' asked' h2
          rw [← h.1, ih]
          simp [h1]

/-- The loop of `present` over the options, when the conditions and the text of each option
evaluate: one entry per option in the payload and in the pending list, in the same order. -/
theorem presentOptions_forall2 (fuel : Nat) (resolver : Option IDialogueResolver) :
    ∀ (options : List DialogueNode.Option) (shown : List DialogueOption),
      List.Forall₂ (fun (o : DialogueNode.Option) (d : DialogueOption) =>
        ∃ a1 a2, resolveConditions fuel resolver o.conditions = .ok (d.isConditionMet, a1) ∧
          substituteVariables fuel resolver o.content = .ok (d.content, a2)) options shown →
      ∃ asked, presentOptions fuel resolver options
        = .ok (shown, options.map (fun o => ⟨o.gotoNode, o.actions⟩), asked)
  | [], _, h => by
    cases h
    exact ⟨[], rfl⟩
  | o :: os, _, h => by
    cases h with
    | cons h1 hrest =>
      obtain ⟨a1, a2, hc, hs⟩ := h1
      obtain ⟨a3, h3⟩ := presentOptions_forall2 fuel resolver os _ hrest
      exact ⟨a1 ++ a2 ++ a3, by simp [presentOptions, hc, hs, h3]⟩

/-- C19 fails in the code. The line has no condition and the content `Hello (world)`, which
holds `)` and no placeholder. With a Resolver, the substitution of the variables in the content
throws `std::out_of_range`: `present` does not return and fires no `onProgress`. -/
theorem present_throws :
    present plainHost 20 {} bracketNode 0 = .error .outOfRange := rfl

/-- What `present` does when the substitution returns: let the index be in range, let the
conditions of the line hold, let its actor key or its content be non-empty, and let there be a Delegate. Let the substitution of the
variables return on the content, and let the conditions and the text of each option evaluate.
Then `present` returns true and fires one `onProgress`, the last call to the host: its option
list has one entry per option of the line, in order, entry `k` carrying the substituted text of
option `k` and the flag of its conditions, which is true exactly when each of them resolves to
true. Afterwards the pending list is replaced by one entry per option, in order, entry `k`
holding the goto and the actions of option `k`. -/
theorem present_options (host : Host) (fuel : Nat) (c : DialogueController) (node : DialogueNode)
    (index : Nat) (asked askedSpeech : List Str) (speech : Str) (shown : List DialogueOption)
    (hdelegate : host.hasDelegate = true) (h : index < node.lines.length)
    (hcond : resolveConditions fuel host.resolver (node.lines.get ⟨index, h⟩).conditions
      = .ok (true, asked))
    (hcontent : ¬ ((node.lines.get ⟨index, h⟩).actorKey = [] ∧
      (node.lines.get ⟨index, h⟩).content = []))
    (hspeech : substituteVariables fuel host.resolver (node.lines.get ⟨index, h⟩).content
      = .ok (speech, askedSpeech))
    (hoptions : List.Forall₂ (fun (o : DialogueNode.Option) (d : DialogueOption) =>
        ∃ a1 a2, resolveConditions fuel host.resolver o.conditions = .ok (d.isConditionMet, a1) ∧
          substituteVariables fuel host.resolver o.content = .ok (d.content, a2))
      (node.lines.get ⟨index, h⟩).options shown) :
    (∃ askedAll : List Str, present host (fuel + 1) c node index = .ok (true,
      { c with
        m_presentedOptions :=
          (node.lines.get ⟨index, h⟩).options.map (fun o => ⟨o.gotoNode, o.actions⟩),
        trace := c.trace ++ askedAll.map Event.resolveVariable ++
          [Event.onProgress ⟨(node.lines.get ⟨index, h⟩).actorKey, speech, shown⟩] })) ∧
    shown.length = (node.lines.get ⟨index, h⟩).options.length ∧
    (∀ (o : DialogueNode.Option) (flag : Bool) (a : List Str),
      resolveConditions fuel host.resolver o.conditions = .ok (flag, a) →
      (flag = true ↔ ∀ condition ∈ o.conditions,
        ∃ a', resolveCondition fuel host.resolver condition = .ok (true, a'))) := by
  obtain ⟨askedOptions, hopts⟩ := presentOptions_forall2 fuel host.resolver _ _ hoptions
  refine ⟨⟨asked ++ (askedSpeech ++ askedOptions), ?_⟩, hoptions.length_eq.symm, ?_⟩
  · rw [present, dif_pos h]
    simp only [hcond, hcontent, if_false, hspeech, hopts]
    simp [notify, hdelegate, logVariables, List.append_assoc]
  · intro o flag a ho
    exact resolveConditions_true_iff fuel host.resolver o.conditions flag a ho

/-- An instance of the presentation: the line of `twoOptionNode` with `n` resolving to `5`, presented while an
older option is pending. Both options are shown, the second with its flag false. -/
theorem present_options_witness :
    ∃ askedAll : List Str,
      present (constHost "5".toList) (4 + 1) { m_presentedOptions := [⟨"Old".toList, []⟩] }
          twoOptionNode 0 = .ok (true,
        { m_presentedOptions :=
            [⟨"Y".toList, [⟨"give".toList, ["1".toList]⟩]⟩, ⟨"N".toList, []⟩],
          trace := [] ++ askedAll.map Event.resolveVariable ++
            [Event.onProgress ⟨"A".toList, "Hello 5".toList,
              [⟨true, "yes".toList⟩, ⟨false, "no 5".toList⟩]⟩] }) :=
  (present_options (constHost "5".toList) 4 { m_presentedOptions := [⟨"Old".toList, []⟩] }
    twoOptionNode 0 [] ["n".toList] "Hello 5".toList
    [⟨true, "yes".toList⟩, ⟨false, "no 5".toList⟩] rfl (by decide) rfl (by decide) rfl
    (List.Forall₂.cons ⟨[], [], rfl, rfl⟩
      (List.Forall₂.cons ⟨["n".toList], ["n".toList], rfl, rfl⟩ List.Forall₂.nil))).1

/-! ### Conditions always evaluate -/

/-- A comparison of two operands as floats returns a boolean, whatever the operands. -/
theorem compareFloats_returns (cmp : Int → Int → Bool) (a b : Str) :
    ∃ result, compareFloats cmp a b = .ok result := by
  unfold compareFloats
  cases fromStringFloat a <;> cases fromStringFloat b <;> exact ⟨_, rfl⟩

/-- The evaluation of a condition returns a boolean, whatever the text: inside
`resolveCondition` only the substitution of the variables can throw. -/
theorem evalCondition_returns (s : Str) : ∃ result, evalCondition s = .ok result := by
  unfold evalCondition
  split
  · exact ⟨_, rfl⟩
  · exact ⟨_, rfl⟩
  · exact compareFloats_returns _ _ _
  · exact compareFloats_returns _ _ _
  · exact compareFloats_returns _ _ _
  · exact compareFloats_returns _ _ _
  · split
    · exact ⟨_, rfl⟩
    · split
      · exact ⟨_, rfl⟩
      · split <;> exact ⟨_, rfl⟩

/-- The method `resolveCondition` returns whenever the substitution of the variables does. -/
theorem resolveCondition_returns (fuel : Nat) (resolver : Option IDialogueResolver) (s text : Str)
    (asked : List Str) (h : substituteVariables fuel resolver (trim s) = .ok (text, asked)) :
    ∃ result, resolveCondition fuel resolver s = .ok (result, asked) := by
  obtain ⟨result, hr⟩ := evalCondition_returns text
  exact ⟨result, by simp only [resolveCondition, h, hr]⟩

/-- Operands with a fraction or an exponent are compared by their values as floats. -/
theorem evalCondition_decimals :
    evalCondition "10.5 >= 10".toList = .ok true ∧
    evalCondition "1e2 > 99.5".toList = .ok true ∧
    evalCondition "0.1 < 0.10000001".toList = .ok true ∧
    evalCondition "16777217 <= 16777216".toList = .ok true ∧
    evalCondition "1e39 > 1".toList = .ok false ∧
    evalCondition "10 apples >= 10".toList = .ok true := by
  decide


/-! ### C21, C23, C24, C25: runs of the controller -/

/-- C21 fails in the code. The registry holds a node `P`. The body `A: hi` with the deeper line
`B: child` parses to the child `P:1` followed by `P`; the loop of `addNode` registers `P:1`,
then fails on `P` and returns false: `P:1` stays registered. -/
theorem addNode_body_partial :
    parse (constRand 0) 20 "P".toList [] "A: hi\n\tB: child".toList 0 []
      = .ok [{ name := "P:1".toList,
               lines := [{ actorKey := "B".toList, content := "child".toList }] },
             { name := "P".toList,
               lines := [{ actorKey := "A".toList, content := "hi".toList,
                           gotoNode := "P:1".toList }] }] ∧
    addNodeBody (constRand 0) 20 plainHost { m_nodes := [("P".toList, otherNode)] }
        "P".toList [] "A: hi\n\tB: child".toList 0
      = .ok (false,
          { m_nodes := [("P:1".toList,
                          { name := "P:1".toList,
                            lines := [{ actorKey := "B".toList, content := "child".toList }] }),
                        ("P".toList, otherNode)] }) :=
  ⟨by decide, by decide⟩

theorem oneLine_round1 (fuel : Nat) :
    progressDialogue plainHost (fuel + 8) (oneLineState [⟨oneLineNode, 0⟩] true [progressOf "A" "hi"] 1)
      = .ok (true, oneLineState [] false [progressOf "A" "hi", .onEnd] 1) := rfl

theorem oneLine_round2 (fuel : Nat) :
    progressDialogue plainHost (fuel + 8) (oneLineState [] true [progressOf "A" "hi", .onEnd] 1)
      = .ok (false, oneLineState [] false [progressOf "A" "hi", .onEnd, .onEnd] 1) := rfl

/-- C23 fails in the code. The registry holds the node `Start` with the one line `A: hi`.
`start` presents the line. In `skipDialogue`, the first `progressDialogue` pops the last frame:
`exitNode` returns true on the empty stack, `run` ends the dialogue and returns true, and the
loop sets `m_isSkipping` again. The second `progressDialogue` finds the stack empty and `run`
ends the dialogue once more: `onEnd` is called twice. -/
theorem skipDialogue_ends_twice :
    start plainHost 20 (oneLineState [] false [] 0) "Start".toList 0 false
      = .ok (true, oneLineState [⟨oneLineNode, 0⟩] false [progressOf "A" "hi"] 1) ∧
    skipDialogue plainHost 20 (oneLineState [⟨oneLineNode, 0⟩] false [progressOf "A" "hi"] 1)
      = .ok (oneLineState [] false [progressOf "A" "hi", .onEnd, .onEnd] 1) := by
  refine ⟨by decide, ?_⟩
  exact (skipDialogue_eq_loop plainHost (19 + 1) _
      (oneLineState [⟨oneLineNode, 0⟩] true [progressOf "A" "hi"] 1) rfl (by decide) rfl).trans <|
    (skipDialogueLoop_step plainHost 19 _ _
      (oneLineState [] true [progressOf "A" "hi", .onEnd] 1) true (oneLine_round1 11) rfl rfl).trans <|
    (skipDialogueLoop_step plainHost 18 _ _
      (oneLineState [] false [progressOf "A" "hi", .onEnd, .onEnd] 1) false
      (oneLine_round2 10) rfl rfl).trans <|
    skipDialogueLoop_done _ 17 _ rfl

/-- C24 fails in the code. The first line of `Start` is gated by `false`, the second and third
are not. `start` fails to present line 0 and calls `advanceLine`. Its first round finds the
condition false, increments the index and continues; the second round takes line 1 as the line
to leave: it runs the action of line 1 and then presents line 2. Line 1 is never presented: the
one `onProgress` carries `C` and `three`. -/
theorem start_skips_line_after_gate :
    start plainHost 20 { m_nodes := [("Start".toList, gatedNode)] } "Start".toList 0 false
      = .ok (true,
          { m_nodes := [("Start".toList, gatedNode)], m_nodeStack := [⟨gatedNode, 2⟩],
            trace := [.resolveAction "second".toList [], progressOf "C" "three"],
            pushes := 1 }) := by
  decide

/-- C25 fails in the code. The first line of `Start` has the actions `stop` and `give`. `start`
presents it; `progressDialogue` leaves it and runs its actions: the built-in `stop` sets
`m_pendingStop`, the `continue` that follows only goes on to the next action, and `give` is
forwarded to the Resolver. The round then presents the next line, and `run` ends the dialogue. -/
theorem advanceLine_runs_actions_after_stop :
    start plainHost 20 { m_nodes := [("Start".toList, stopGiveNode)] } "Start".toList 0 false
      = .ok (true,
          { m_nodes := [("Start".toList, stopGiveNode)], m_nodeStack := [⟨stopGiveNode, 0⟩],
            trace := [progressOf "A" "hi"], pushes := 1 }) ∧
    progressDialogue plainHost 20
        { m_nodes := [("Start".toList, stopGiveNode)], m_nodeStack := [⟨stopGiveNode, 0⟩],
          trace := [progressOf "A" "hi"], pushes := 1 }
      = .ok (true,
          { m_nodes := [("Start".toList, stopGiveNode)],
            trace := [progressOf "A" "hi", .resolveAction "give".toList ["gold".toList],
                      progressOf "B" "bye", .onEnd],
            pushes := 1 }) :=
  ⟨by decide, by decide⟩


/-! ### C22: conditions without an operator, and empty operands -/

/-- The operator search on a text that holds none of the operators of the table. -/
theorem findOperator_none (text : Str) : ∀ table : List (Str × OperatorType),
    (∀ o ∈ table, ¬ o.1 <:+: text) → findOperator text table = (text, [], .None)
  | [], _ => rfl
  | (opString, op) :: rest, h => by
    have h0 : find text opString 0 = none :=
      (find_eq_none text opString).mpr (h (opString, op) (List.mem_cons_self _ _))
    rw [findOperator]
    simp only [h0]
    exact findOperator_none text rest (fun o ho => h o (List.mem_cons_of_mem _ ho))

/-- The operator search on a text whose first operator, in the order of the table, is
`p :: ps`, first found after the text `l`. -/
theorem findOperator_at (text l r ps : Str) (p : Char) (op : OperatorType)
    (after : List (Str × OperatorType)) (hp : p ∉ l) (ht : text = l ++ (p :: ps) ++ r) :
    ∀ before : List (Str × OperatorType), (∀ o ∈ before, ¬ o.1 <:+: text) →
      findOperator text (before ++ (p :: ps, op) :: after) = (l, r, op)
  | [], _ => by
    have hf : find text (p :: ps) 0 = some l.length := by
      rw [ht]
      exact find_append p ps l r hp
    have h1 : substr text 0 l.length = l := by
      rw [ht]
      simp [substr, List.append_assoc]
    have h2 : substrFrom text (l.length + (p :: ps).length) = r := by
      have e : l.length + (p :: ps).length = (l ++ (p :: ps)).length := by simp
      rw [ht, substrFrom, e, List.drop_left]
    rw [List.nil_append, findOperator]
    simp only [hf, h1, h2]
  | (opString, op') :: rest, h => by
    have h0 : find text opString 0 = none :=
      (find_eq_none text opString).mpr (h (opString, op') (List.mem_cons_self _ _))
    rw [List.cons_append, findOperator]
    simp only [h0]
    exact findOperator_at text l r ps p op after hp ht rest
      (fun o ho => h o (List.mem_cons_of_mem _ ho))

theorem operand_empty (v : Str) (h : trim v = []) : operand v = "false".toList := by
  simp [operand, h]

theorem operand_nonempty (v : Str) (h : trim v ≠ []) : operand v = trim v := by
  simp [operand, h]

/-- A comparison as floats is false when one operand is the text `false`. -/
theorem compareFloats_false (cmp : Int → Int → Bool) (a b : Str)
    (h : a = "false".toList ∨ b = "false".toList) : compareFloats cmp a b = .ok false := by
  have hf : fromStringFloat "false".toList = .fail := by decide
  rcases h with h | h
  · rw [compareFloats, h, hf]
    cases fromStringFloat b <;> rfl
  · rw [compareFloats, h, hf]
    cases fromStringFloat a <;> rfl

/-- Claim C22: let the substitution of the variables return the text `text` on the trimmed
condition. When `text` holds none of the six operators, `resolveCondition` returns true if the
trimmed text is `true` in any letter case, and false if it is `false` in any letter case or
empty. When the first operator of the table that occurs in `text` is found after the text `l`
and followed by `r`, the operands are `l` and `r` trimmed, an operand that is empty after
trimming being the text `false`: `==` and `!=` compare the operands as strings, and the four
comparisons are false when one operand is empty. -/
theorem resolveCondition_literals (fuel : Nat) (resolver : Option IDialogueResolver)
    (s text : Str) (asked : List Str)
    (hsub : substituteVariables fuel resolver (trim s) = .ok (text, asked)) :
    ((∀ o ∈ ops, ¬ o.1 <:+: text) →
      ((trim text).map Char.toLower = "true".toList →
        resolveCondition fuel resolver s = .ok (true, asked)) ∧
      ((trim text).map Char.toLower = "false".toList →
        resolveCondition fuel resolver s = .ok (false, asked)) ∧
      (trim text = [] → resolveCondition fuel resolver s = .ok (false, asked))) ∧
    (∀ (before after : List (Str × OperatorType)) (p : Char) (ps : Str) (op : OperatorType)
        (l r : Str), ops = before ++ (p :: ps, op) :: after →
        (∀ o ∈ before, ¬ o.1 <:+: text) → p ∉ l → text = l ++ (p :: ps) ++ r →
      (op = .Equals →
        resolveCondition fuel resolver s = .ok (decide (operand l = operand r), asked)) ∧
      (op = .NotEquals →
        resolveCondition fuel resolver s = .ok (decide (operand l ≠ operand r), asked)) ∧
      (op ≠ .Equals → op ≠ .NotEquals → trim l = [] ∨ trim r = [] →
        resolveCondition fuel resolver s = .ok (false, asked))) ∧
    (∀ v : Str, trim v = [] → operand v = "false".toList) ∧
    (∀ v : Str, trim v ≠ [] → operand v = trim v) := by
  refine ⟨?_, ?_, operand_empty, operand_nonempty⟩
  · intro hnone
    have hf := findOperator_none text ops hnone
    refine ⟨?_, ?_, ?_⟩
    · intro ht
      have hne : trim text ≠ [] := by
        intro h0
        rw [h0] at ht
        exact absurd ht (by decide)
      rw [resolveCondition, hsub]
      simp only [evalCondition, hf, operand_nonempty text hne, ht, if_true]
    · intro ht
      have hne : trim text ≠ [] := by
        intro h0
        rw [h0] at ht
        exact absurd ht (by decide)
      rw [resolveCondition, hsub]
      simp only [evalCondition, hf, operand_nonempty text hne, ht]
      rfl
    · intro ht
      rw [resolveCondition, hsub]
      simp only [evalCondition, hf, operand_empty text ht]
      rfl
  · intro before after p ps op l r hops hbefore hp ht
    have hf := findOperator_at text l r ps p op after hp ht before hbefore
    rw [← hops] at hf
    have hmem : (p :: ps, op) ∈ ops := by
      rw [hops]
      simp
    refine ⟨?_, ?_, ?_⟩
    · intro hop
      subst hop
      rw [resolveCondition, hsub]
      simp only [evalCondition, hf]
    · intro hop
      subst hop
      rw [resolveCondition, hsub]
      simp only [evalCondition, hf]
    · intro h1 h2 hempty
      have hfalse : operand l = "false".toList ∨ operand r = "false".toList := by
        rcases hempty with h | h
        · exact Or.inl (operand_empty l h)
        · exact Or.inr (operand_empty r h)
      rw [resolveCondition, hsub]
      cases op with
      | Equals => exact absurd rfl h1
      | NotEquals => exact absurd rfl h2
      | None =>
        simp [ops] at hmem
      | GreaterThan =>
        simp only [evalCondition, hf, compareFloats_false _ _ _ hfalse]
      | LessThan =>
        simp only [evalCondition, hf, compareFloats_false _ _ _ hfalse]
      | GreaterThanOrEqualTo =>
        simp only [evalCondition, hf, compareFloats_false _ _ _ hfalse]
      | LessThanOrEqualTo =>
        simp only [evalCondition, hf, compareFloats_false _ _ _ hfalse]

/-- A witness of C22: `TRUE` is true; with the unknown variable `q` resolving to the empty text,
`$(q) == false` is true and `$(q) != false` is false. -/
theorem resolveCondition_literals_witness :
    resolveCondition 3 none "TRUE".toList = .ok (true, []) ∧
    resolveCondition 3 (some abResolver) "$(q) == false".toList = .ok (true, ["q".toList]) ∧
    resolveCondition 3 (some abResolver) "$(q) != false".toList = .ok (false, ["q".toList]) :=
  ⟨((resolveCondition_literals 3 none "TRUE".toList "TRUE".toList [] rfl).1
      (by decide)).1 (by decide),
   ((resolveCondition_literals 3 (some abResolver) "$(q) == false".toList " == false".toList
      ["q".toList] rfl).2.1 [] _ '=' ['='] .Equals " ".toList " false".toList rfl
      (by decide) (by decide) rfl).1 rfl,
   ((resolveCondition_literals 3 (some abResolver) "$(q) != false".toList " != false".toList
      ["q".toList] rfl).2.1 [("==".toList, .Equals)] _ '!' ['='] .NotEquals " ".toList
      " false".toList rfl (by decide) (by decide) rfl).2.1 rfl⟩


/-! ### C30: texts without a placeholder -/

/-- C30 fails in the code. On a text without `$(` the first search returns `npos`, and
`npos + 2` wraps around to 1, which is not `npos`: the loop of `substituteVariables` is entered
as soon as the text holds a `)`. Its first round reads a variable name from index 1 on and calls
`replace` at position `1 - 2`, which throws `std::out_of_range`. Only a text without `)` is
returned as it is, with no call of the Resolver. -/
theorem substituteVariables_without_placeholder (fuel : Nat) (r : IDialogueResolver) (s : Str)
    (h : ¬ k_variableBegin <:+: s) :
    (')' ∈ s → substituteVariables (fuel + 1) (some r) s = .error .outOfRange) ∧
    (')' ∉ s → substituteVariables (fuel + 1) (some r) s = .ok (s, [])) := by
  have hb : findVariableBegin s 0 = 1 := by
    simp [findVariableBegin, (find_eq_none s k_variableBegin).mpr h]
  constructor
  · intro hm
    have hlen : ¬ (1 > s.length) := by
      have := List.length_pos_of_mem hm
      omega
    cases he : find s k_variableEnd 0 with
    | none =>
      have hnot := (find_eq_none s k_variableEnd).mp he
      obtain ⟨a, b, hab⟩ := List.append_of_mem hm
      exact absurd ⟨a, b, by simp [hab, k_variableEnd]⟩ hnot
    | some e =>
      rw [substituteVariables, hb, he, substituteVariablesLoop]
      rw [if_pos (by decide), if_neg hlen, if_pos (by decide)]
  · intro hm
    have he : find s k_variableEnd 0 = none := find_not_mem ')' [] s hm
    rw [substituteVariables, hb, he, substituteVariablesLoop]

/-- A witness of C30: the text `Hello (world)` holds no `$(` and throws. -/
theorem substituteVariables_without_placeholder_witness :
    substituteVariables (0 + 1) (some abResolver) "Hello (world)".toList = .error .outOfRange :=
  (substituteVariables_without_placeholder 0 abResolver "Hello (world)".toList (by decide)).1
    (by decide)


/-! ### C28: a line that is shallower than its scope -/

/-- C28 fails as stated. The child scope `P:1` at level 1 buffers the potential line `B: two`
and then reaches the line `-> opt`, whose level is 0: the line starts with `->` while a
potential line is buffered, so it is consumed before its indentation is looked at, and its
option goes to the buffered line of the child scope. -/
theorem parse_shallower_shortcut_consumed :
    parse (constRand 0) 20 "P".toList [] "A: one\n\t%B: two\n-> opt".toList 0 []
      = .ok [{ name := "P:1".toList,
               lines := [{ actorKey := "B".toList, content := "two".toList,
                           options := [{ content := "opt".toList, isShortcut := true }] }] },
             { name := "P".toList,
               lines := [{ actorKey := "A".toList, content := "one".toList,
                           gotoNode := "P:1".toList }] }] := by
  decide

/-- Claim C28 (amended): in the scope of the node `name` at indentation `level`, let the
indentation of the next line be less than `level`, and let the line not be one that starts with
`->` while potential lines are buffered. Then the scope ends there, whatever the fuel and the
text of the line: it returns the index of the line, and the node set with one node added, the
node of the scope after the flush of its buffer; that node has the lines it had, followed by the
chosen potential line when lines are buffered. -/
theorem shallower_line_ends_scope (rand : Nat → Nat) (tags : Str) (lines : List Str)
    (fuel : Nat) (name : Str) (level : Nat) (sc : Scope) (hi : sc.i < lines.length)
    (hd : calulateIndentLevel (lines.get ⟨sc.i, hi⟩) < level)
    (hns : ¬ (startsWith (trim (lines.get ⟨sc.i, hi⟩)) k_optionShortcut = true ∧
      sc.potentialNode.lines ≠ [])) :
    ∃ node : DialogueNode,
      parseNodesLoop rand tags lines (fuel + 1) name level sc
        = .ok (sc.i, sc.nodeSet ++ [node],
            if sc.potentialNode.lines = [] then sc.k else sc.k + 1) ∧
      (sc.potentialNode.lines = [] → node = sc.node) ∧
      (∀ h : sc.potentialNode.lines ≠ [], node = { sc.node with
        lines := sc.node.lines ++ [sc.potentialNode.lines.get
          ⟨rand sc.k % sc.potentialNode.lines.length, Nat.mod_lt _ (List.length_pos.mpr h)⟩] }) := by
  refine ⟨(flushPotentialLines rand sc.node sc.potentialNode sc.k).1, ?_, ?_, ?_⟩
  · rw [parseNodesLoop_shallow rand tags lines fuel name level sc hi hns hd, finishScope]
    by_cases h : sc.potentialNode.lines = []
    · simp [flushPotentialLines, h]
    · simp [flushPotentialLines, h]
  · intro h
    simp [flushPotentialLines, h]
  · intro h
    simp [flushPotentialLines, h]

/-- A witness of C28: in the lines `A: one`, a deeper `B: two`, `C: three`, the scope of the
child `P:1` ends at `C: three` and returns its index 2. -/
theorem shallower_line_ends_scope_witness :
    ∃ node : DialogueNode,
      parseNodesLoop (fun _ => 0) [] shallowLines (0 + 1) "P:1".toList 1 shallowScope
        = .ok (shallowScope.i, shallowScope.nodeSet ++ [node],
            if shallowScope.potentialNode.lines = [] then shallowScope.k
            else shallowScope.k + 1) ∧
      (shallowScope.potentialNode.lines = [] → node = shallowScope.node) ∧
      (∀ h : shallowScope.potentialNode.lines ≠ [], node = { shallowScope.node with
        lines := shallowScope.node.lines ++ [shallowScope.potentialNode.lines.get
          ⟨(fun _ => 0) shallowScope.k % shallowScope.potentialNode.lines.length,
            Nat.mod_lt _ (List.length_pos.mpr h)⟩] }) :=
  shallower_line_ends_scope (fun _ => 0) [] shallowLines 0 "P:1".toList 1 shallowScope
    (by decide) (by decide) (by decide)


/-! ### Child names -/

theorem digitChar_value : ∀ k : Nat, k < 10 →
    (Nat.digitChar k).toNat - '0'.toNat = k ∧ Nat.digitChar k ≠ ':' := by
  decide

/-- The digits that `toDigitsCore` puts before `ds`, given enough fuel: their value is `n` and
none of them is a colon. -/
theorem toDigitsCore_spec : ∀ (fuel n : Nat) (ds : List Char), n < fuel →
    ∃ D : List Char, Nat.toDigitsCore 10 fuel n ds = D ++ ds ∧ digitsValue D = n ∧ ':' ∉ D
  | 0, n, ds, h => absurd h (Nat.not_lt_zero n)
  | fuel + 1, n, ds, h => by
    have hd := digitChar_value (n % 10) (Nat.mod_lt n (by decide))
    by_cases h0 : n / 10 = 0
    · refine ⟨[Nat.digitChar (n % 10)], ?_, ?_, ?_⟩
      · simp [Nat.toDigitsCore, h0]
      · have hn : n % 10 = n := Nat.mod_eq_of_lt (by omega)
        simp only [digitsValue, List.foldl_cons, List.foldl_nil, Nat.mul_zero, Nat.zero_add]
        rw [hd.1, hn]
      · simp only [List.mem_singleton]
        exact fun e => hd.2 e.symm
    · obtain ⟨D, hD, hv, hc⟩ := toDigitsCore_spec fuel (n / 10) (Nat.digitChar (n % 10) :: ds)
        (by omega)
      refine ⟨D ++ [Nat.digitChar (n % 10)], ?_, ?_, ?_⟩
      · simp [Nat.toDigitsCore, h0, hD]
      · simp only [digitsValue, List.foldl_append, List.foldl_cons, List.foldl_nil] at hv ⊢
        rw [hv, hd.1]
        omega
      · simp only [List.mem_append, List.mem_singleton, not_or]
        exact ⟨hc, fun e => hd.2 e.symm⟩

theorem toDigits_spec (n : Nat) : digitsValue (Nat.toDigits 10 n) = n ∧ ':' ∉ Nat.toDigits 10 n := by
  obtain ⟨D, hD, hv, hc⟩ := toDigitsCore_spec (n + 1) n [] (Nat.lt_succ_self n)
  rw [Nat.toDigits, hD, List.append_nil]
  exact ⟨hv, hc⟩

theorem append_cons_inj_of_not_mem {α : Type} (x : α) : ∀ (a a' b b' : List α),
    x ∉ a → x ∉ a' → a ++ x :: b = a' ++ x :: b' → a = a' ∧ b = b'
  | [], [], b, b', _, _, h => by
    simp only [List.nil_append, List.cons.injEq, true_and] at h
    exact ⟨rfl, h⟩
  | [], y :: a', b, b', _, h', h => by
    simp only [List.nil_append, List.cons_append, List.cons.injEq] at h
    exact absurd (h.1 ▸ List.mem_cons_self _ _) h'
  | y :: a, [], b, b', h', _, h => by
    simp only [List.nil_append, List.cons_append, List.cons.injEq] at h
    exact absurd (h.1 ▸ List.mem_cons_self _ _) h'
  | y :: a, z :: a', b, b', ha, ha', h => by
    simp only [List.cons_append, List.cons.injEq] at h
    obtain ⟨h1, h2⟩ := append_cons_inj_of_not_mem x a a' b b'
      (fun e => ha (List.mem_cons_of_mem _ e)) (fun e => ha' (List.mem_cons_of_mem _ e)) h.2
    exact ⟨by rw [h.1, h1], h2⟩

/-- Two child names that are equal carry the same line index. -/
theorem childName_index (p p' : Str) (j j' : Nat) (h : childName p j = childName p' j') :
    j = j' := by
  have hrev : (Nat.toDigits 10 j).reverse ++ ':' :: p.reverse
      = (Nat.toDigits 10 j').reverse ++ ':' :: p'.reverse := by
    have := congrArg List.reverse h
    simpa [childName] using this
  have h1 := (append_cons_inj_of_not_mem ':' _ _ _ _
    (by simpa using (toDigits_spec j).2) (by simpa using (toDigits_spec j').2) hrev).1
  have h2 : Nat.toDigits 10 j = Nat.toDigits 10 j' := List.reverse_injective h1
  rw [← (toDigits_spec j).1, h2, (toDigits_spec j').1]

theorem childName_length (p : Str) (j : Nat) : p.length < (childName p j).length := by
  simp [childName]

theorem parseLine_name (fuel : Nat) (s : Str) (node : DialogueNode) (r : Bool × DialogueNode)
    (h : parseLine fuel s node = .ok r) : r.2.name = node.name := by
  rw [parseLine] at h
  by_cases h0 : s = []
  · simp only [h0, if_true, Except.ok.injEq] at h
    rw [← h]
  · simp only [h0, if_false] at h
    by_cases hs : startsWith s k_optionShortcut = true
    · simp only [hs, if_true] at h
      cases h1 : parseOutCommon fuel (substrFrom s 2) true with
      | error e => simp [h1] at h
      | ok c =>
        simp only [h1, Except.ok.injEq] at h
        rw [← h]
    · simp only [hs, if_false, Bool.false_eq_true] at h
      cases h1 : parseGroupedLists fuel s k_gotoBegin k_gotoEnd k_separator [] with
      | error e => simp [h1] at h
      | ok v =>
        obtain ⟨s1, groups⟩ := v
        simp only [h1] at h
        cases h2 : parseOutCommon fuel s1 false with
        | error e => simp [h2] at h
        | ok c =>
          simp only [h2, Except.ok.injEq] at h
          rw [← h]

theorem ScopeNames_weaken (lo : Nat) (sc sc' : Scope) (name : Str)
    (out : Nat × List DialogueNode × Nat) (hset : sc'.nodeSet = sc.nodeSet)
    (h : ScopeNames (lo + 1) sc' name out) : ScopeNames (lo + 1) sc name out ∧ ScopeNames lo sc name out := by
  obtain ⟨hle, extra, n, opened, hout, hn, hnames, hb, hnd⟩ := h
  rw [hset] at hout
  refine ⟨⟨hle, extra, n, opened, hout, hn, hnames, hb, hnd⟩,
    ⟨by omega, extra, n, opened, hout, hn, hnames, ?_, hnd⟩⟩
  intro t ht
  obtain ⟨h1, h2, h3⟩ := hb t ht
  exact ⟨by omega, h2, h3⟩

theorem ScopeNames_finish (rand : Nat → Nat) (sc : Scope) :
    ScopeNames sc.i sc sc.node.name (finishScope rand sc) := by
  refine ⟨le_refl _, [], (flushPotentialLines rand sc.node sc.potentialNode sc.k).1, [], ?_,
    flushPotentialLines_name _ _ _ _, rfl, ?_, List.nodup_nil⟩
  · simp [finishScope]
  · intro t ht
    cases ht

/-- The names of the nodes that a scope adds to the node set. When the first line of the scope
is at its level and nothing is buffered, the line is consumed, so that the added child names
carry later line indices. -/
theorem parseNodesLoop_names (rand : Nat → Nat) (tags : Str) (lines : List Str) :
    ∀ (fuel : Nat) (sc : Scope) (name : Str) (level : Nat) (out : Nat × List DialogueNode × Nat),
      parseNodesLoop rand tags lines fuel name level sc = .ok out → sc.node.name = name →
      ScopeNames sc.i sc name out ∧
      (∀ hi : sc.i < lines.length, calulateIndentLevel (lines.get ⟨sc.i, hi⟩) = level →
        sc.potentialNode.lines = [] → ScopeNames (sc.i + 1) sc name out)
  | 0, sc, name, level, out, h, _ => by
    simp [parseNodesLoop] at h
  | fuel + 1, sc, name, level, out, h, hname => by
    by_cases hi : sc.i < lines.length
    · by_cases habs : startsWith (trim (lines.get ⟨sc.i, hi⟩)) k_optionShortcut = true ∧
          sc.potentialNode.lines ≠ []
      · rw [parseNodesLoop_absorb rand tags lines fuel name level sc hi habs] at h
        cases h1 : parseLine fuel (trim (lines.get ⟨sc.i, hi⟩)) sc.potentialNode with
        | error e =>
          rw [h1] at h
          simp at h
        | ok r =>
          obtain ⟨b, pot'⟩ := r
          rw [h1] at h
          simp only at h
          have ih := (parseNodesLoop_names rand tags lines fuel _ name level out h hname).1
          have hw := ScopeNames_weaken sc.i sc _ name out rfl ih
          exact ⟨hw.2, fun _ _ _ => hw.1⟩
      · by_cases hd : level < calulateIndentLevel (lines.get ⟨sc.i, hi⟩)
        · rw [parseNodesLoop_child rand tags lines fuel name level sc hi habs hd] at h
          cases hc : parseNodesLoop rand tags lines fuel (childName name sc.i)
              (calulateIndentLevel (lines.get ⟨sc.i, hi⟩))
              { i := sc.i, node := { name := childName name sc.i, tags := tags },
                potentialNode := {}, nodeSet := sc.nodeSet, k := sc.k } with
          | error e =>
            rw [hc] at h
            simp at h
          | ok oc =>
            obtain ⟨i', nodeSet', k'⟩ := oc
            rw [hc] at h
            simp only at h
            have ihc := (parseNodesLoop_names rand tags lines fuel _ _ _ _ hc rfl).2 hi rfl rfl
            have ih2 := (parseNodesLoop_names rand tags lines fuel _ name level out h
              (by rw [linkPrevious_name]; exact hname)).1
            obtain ⟨hlec, extrac, nc, opc, houtc, hnc, hnamesc, hbc, hndc⟩ := ihc
            obtain ⟨hle2, extra2, n, op2, hout2, hn, hnames2, hb2, hnd2⟩ := ih2
            simp only at hlec houtc hle2 hout2 hb2 hbc
            refine ⟨⟨by omega, extrac ++ [nc] ++ extra2, n, opc ++ [(name, sc.i)] ++ op2, ?_, hn,
              ?_, ?_, ?_⟩, ?_⟩
            · rw [hout2, houtc]
              simp
            · simp [hnamesc, hnames2, hnc]
            · intro t ht
              simp only [List.mem_append, List.mem_singleton] at ht
              rcases ht with (ht | ht) | ht
              · obtain ⟨h1, h2, h3⟩ := hbc t ht
                have := childName_length name sc.i
                exact ⟨by omega, by omega, by omega⟩
              · subst ht
                exact ⟨le_refl _, by simp only; omega, le_refl _⟩
              · obtain ⟨h1, h2, h3⟩ := hb2 t ht
                exact ⟨by omega, h2, h3⟩
            · simp only [List.map_append, List.map_cons, List.map_nil]
              rw [List.nodup_append, List.nodup_append]
              refine ⟨⟨hndc, List.nodup_singleton _, ?_⟩, hnd2, ?_⟩
              · intro a ha hb
                simp only [List.mem_singleton] at hb
                obtain ⟨t, ht, hta⟩ := List.mem_map.mp ha
                have := (hbc t ht).1
                omega
              · intro a ha hb
                obtain ⟨t2, ht2, hta2⟩ := List.mem_map.mp hb
                have h2 := (hb2 t2 ht2).1
                rcases List.mem_append.mp ha with ha | ha
                · obtain ⟨t, ht, hta⟩ := List.mem_map.mp ha
                  have := (hbc t ht).2.1
                  omega
                · simp only [List.mem_singleton] at ha
                  omega
            · intro _ hl _
              omega
        · by_cases hsh : calulateIndentLevel (lines.get ⟨sc.i, hi⟩) < level
          · rw [parseNodesLoop_shallow rand tags lines fuel name level sc hi habs hsh] at h
            simp only [Except.ok.injEq] at h
            subst h
            subst hname
            exact ⟨ScopeNames_finish rand sc, fun _ hl _ => by omega⟩
          · have heq : calulateIndentLevel (lines.get ⟨sc.i, hi⟩) = level := by omega
            cases hp : startsWith (trim (lines.get ⟨sc.i, hi⟩)) k_potentialLine with
            | true =>
              rw [parseNodesLoop_potential rand tags lines fuel name level sc hi habs heq hp] at h
              cases h1 : parseLine fuel
                  (substrFrom (trim (lines.get ⟨sc.i, hi⟩)) k_potentialLine.length)
                  sc.potentialNode with
              | error e =>
                rw [h1] at h
                simp at h
              | ok r =>
                obtain ⟨b, pot'⟩ := r
                rw [h1] at h
                simp only at h
                have ih := (parseNodesLoop_names rand tags lines fuel _ name level out h hname).1
                have hw := ScopeNames_weaken sc.i sc _ name out rfl ih
                exact ⟨hw.2, fun _ _ _ => hw.1⟩
            | false =>
              rw [parseNodesLoop_normal rand tags lines fuel name level sc hi habs heq hp] at h
              cases h1 : parseLine fuel (trim (lines.get ⟨sc.i, hi⟩))
                  (flushPotentialLines rand sc.node sc.potentialNode sc.k).1 with
              | error e =>
                rw [h1] at h
                simp at h
              | ok r =>
                obtain ⟨b, node'⟩ := r
                rw [h1] at h
                simp only at h
                have hn' : node'.name = name := by
                  have := parseLine_name _ _ _ _ h1
                  simp only at this
                  rw [this, flushPotentialLines_name, hname]
                have ih := (parseNodesLoop_names rand tags lines fuel _ name level out h hn').1
                have hw := ScopeNames_weaken sc.i sc _ name out rfl ih
                exact ⟨hw.2, fun _ _ _ => hw.1⟩
    · rw [parseNodesLoop_end rand tags lines fuel name level sc hi] at h
      simp only [Except.ok.injEq] at h
      subst h
      subst hname
      exact ⟨ScopeNames_finish rand sc, fun hi' _ _ => absurd hi' hi⟩


/-! ### C29: the names of the parsed nodes -/

/-- The loop of `addNode` over nodes with distinct names, none of them registered: every node
is added, the last one first in the registry. -/
theorem addNodes_nodup : ∀ (nodes : List DialogueNode) (c : DialogueController),
    (nodes.map (fun n => n.name)).Nodup → (∀ n ∈ nodes, c.m_nodes.lookup n.name = none) →
      addNodes nodes c
        = (true, { c with m_nodes := (nodes.map (fun n => (n.name, n))).reverse ++ c.m_nodes })
  | [], c, _, _ => by simp [addNodes]
  | n :: rest, c, hnd, hfree => by
    have hn : c.m_nodes.lookup n.name = none := hfree n (List.mem_cons_self _ _)
    have hnd' := List.nodup_cons.mp hnd
    have ih := addNodes_nodup rest { c with m_nodes := (n.name, n) :: c.m_nodes } hnd'.2
      (by
        intro m hm
        have hne : m.name ≠ n.name := by
          intro e
          exact hnd'.1 (List.mem_map.mpr ⟨m, hm, e⟩)
        have hb : (m.name == n.name) = false := by simpa using hne
        simp only [List.lookup_cons, hb]
        exact hfree m (List.mem_cons_of_mem _ hm))
    rw [addNodes, addNode, hn]
    simp only [ih]
    simp

/-- Claim C29: when `parse` returns, the nodes it returns have pairwise distinct names, and
`addNode(name, tags, body, seed)` on an empty registry with a Resolver returns true and
registers each of them. -/
theorem parse_names_nodup (crand : Nat → Nat → Nat) (fuel : Nat) (name tags body : Str)
    (seed : Nat) (nodes : List DialogueNode)
    (h : parse crand fuel name tags body seed [] = .ok nodes) :
    (nodes.map (fun n => n.name)).Nodup ∧
    ∀ (delegate : Bool) (r : IDialogueResolver) (c : DialogueController), c.m_nodes = [] →
      addNodeBody crand fuel ⟨delegate, some r⟩ c name tags body seed
        = .ok (true, { c with m_nodes := (nodes.map (fun n => (n.name, n))).reverse }) := by
  have hnd : (nodes.map (fun n => n.name)).Nodup := by
    rw [parse, parseNodes] at h
    cases hp : parseNodesLoop (crand seed) tags
        ((getlines body).map (fun l => replaceEndlineTokens (stripComment l))) fuel name 0
        { i := 0, node := { name := name, tags := tags }, potentialNode := {}, nodeSet := [],
          k := 0 } with
    | error e =>
      rw [hp] at h
      simp at h
    | ok out =>
      obtain ⟨i, nodeSet, k⟩ := out
      rw [hp] at h
      simp only [Except.ok.injEq] at h
      subst h
      obtain ⟨_, extra, n, opened, hout, hn, hnames, hb, hndi⟩ :=
        (parseNodesLoop_names (crand seed) tags _ fuel _ name 0 _ hp rfl).1
      simp only [List.nil_append] at hout
      rw [hout, List.map_append, hnames, List.nodup_append]
      refine ⟨?_, by simp, ?_⟩
      · apply List.Nodup.map_on _ (List.Nodup.of_map _ hndi)
        intro x hx y hy hxy
        exact List.inj_on_of_nodup_map hndi hx hy (childName_index _ _ _ _ hxy)
      · intro a ha hb'
        simp only [List.map_cons, List.map_nil, List.mem_singleton] at hb'
        obtain ⟨t, ht, hta⟩ := List.mem_map.mp ha
        have h1 := (hb t ht).2.2
        have h2 := childName_length t.1 t.2
        rw [hta, hb', hn] at h2
        omega
  refine ⟨hnd, ?_⟩
  intro delegate r c hc
  rw [addNodeBody]
  simp only [h]
  rw [addNodes_nodup nodes c hnd (by simp [hc]), hc, List.append_nil]

/-- A witness of C29: the body `A: hi` with the deeper line `B: child` gives the nodes `P:1`
and `P`, and both are registered. -/
theorem parse_names_nodup_witness :
    (([{ name := "P:1".toList,
         lines := [{ actorKey := "B".toList, content := "child".toList }] },
       { name := "P".toList,
         lines := [{ actorKey := "A".toList, content := "hi".toList,
                     gotoNode := "P:1".toList }] }] : List DialogueNode).map
      (fun n => n.name)).Nodup ∧
    ∀ (delegate : Bool) (r : IDialogueResolver) (c : DialogueController), c.m_nodes = [] →
      addNodeBody (constRand 0) 20 ⟨delegate, some r⟩ c "P".toList [] "A: hi\n\tB: child".toList 0
        = .ok (true, { c with m_nodes :=
            (([{ name := "P:1".toList,
                 lines := [{ actorKey := "B".toList, content := "child".toList }] },
               { name := "P".toList,
                 lines := [{ actorKey := "A".toList, content := "hi".toList,
                             gotoNode := "P:1".toList }] }] : List DialogueNode).map
              (fun n => (n.name, n))).reverse }) :=
  parse_names_nodup (constRand 0) 20 "P".toList [] "A: hi\n\tB: child".toList 0 _ (by decide)

/-! ### The lines of the parsed nodes -/

theorem pushOptionToBack_ne_nil (ls : List DialogueNode.Line) (o : DialogueNode.Option)
    (h : ls ≠ []) : pushOptionToBack ls o ≠ [] := by
  obtain ⟨init, l, rfl⟩ : ∃ init l, ls = init ++ [l] :=
    ⟨ls.dropLast, ls.getLast h, (List.dropLast_append_getLast h).symm⟩
  rw [pushOptionToBack_concat]
  simp

/-- A text that is not empty, parsed into a node, leaves a node with a line. -/
theorem parseLine_lines_ne_nil (fuel : Nat) (s : Str) (node : DialogueNode)
    (r : Bool × DialogueNode) (h : parseLine fuel s node = .ok r)
    (hs : s ≠ [] ∨ node.lines ≠ []) : r.2.lines ≠ [] := by
  rw [parseLine] at h
  by_cases h0 : s = []
  · simp only [h0, if_true, Except.ok.injEq] at h
    rw [← h]
    rcases hs with hs | hs
    · exact absurd h0 hs
    · exact hs
  · simp only [h0, if_false] at h
    by_cases hsc : startsWith s k_optionShortcut = true
    · simp only [hsc, if_true] at h
      cases h1 : parseOutCommon fuel (substrFrom s 2) true with
      | error e => simp [h1] at h
      | ok c =>
        simp only [h1, Except.ok.injEq] at h
        rw [← h]
        apply pushOptionToBack_ne_nil
        split <;> simp [*]
    · simp only [hsc, if_false, Bool.false_eq_true] at h
      cases h1 : parseGroupedLists fuel s k_gotoBegin k_gotoEnd k_separator [] with
      | error e => simp [h1] at h
      | ok v =>
        obtain ⟨s1, groups⟩ := v
        simp only [h1] at h
        cases h2 : parseOutCommon fuel s1 false with
        | error e => simp [h2] at h
        | ok c =>
          simp only [h2, Except.ok.injEq] at h
          rw [← h]
          simp

theorem modifyBack_ne_nil {α : Type} (f : α → α) (v : List α) (h : v ≠ []) :
    modifyBack f v ≠ [] := by
  obtain ⟨init, l, rfl⟩ : ∃ init l, v = init ++ [l] :=
    ⟨v.dropLast, v.getLast h, (List.dropLast_append_getLast h).symm⟩
  rw [modifyBack_concat]
  simp

theorem getD_eq_get (lines : List Str) (i : Nat) (hi : i < lines.length) :
    lines.getD i [] = lines.get ⟨i, hi⟩ := by
  simp [List.getD_eq_getElem?_getD, List.getElem?_eq_getElem hi]

theorem levelAt_eq (lines : List Str) (i : Nat) (hi : i < lines.length) :
    levelAt lines i = calulateIndentLevel (lines.get ⟨i, hi⟩) := by
  rw [levelAt, getD_eq_get lines i hi]

/-- One round of the loop of `advanceLine`, in terms of its two parts. -/
theorem advanceLineLoop_succ (host : Host) (fuel : Nat) (c : DialogueController) :
    advanceLineLoop host (fuel + 1) c =
      if c.m_isPaused = false ∧ c.m_pendingStop = false then
        match c.m_nodeStack with
        | [] => .ok (false, c)
        | top :: _ =>
          match exitCurrentLine host fuel c top with
          | .error e => .error e
          | .ok (.conditionFailed, c) => advanceLineLoop host fuel c
          | .ok (.advanced, c) => .ok (true, c)
          | .ok (.sameFrame, c) =>
            match c.m_nodeStack with
            | [] => .error .staleReference
            | top :: _ =>
              match enterNewLine host fuel c top with
              | .error e => .error e
              | .ok (true, c) => .ok (true, c)
              | .ok (false, c) => advanceLineLoop host fuel c
          | .ok (.poppedFrame, c) =>
            match exitNode host fuel c with
            | .error e => .error e
            | .ok (true, c) => .ok (true, c)
            | .ok (false, c) => advanceLineLoop host fuel c
      else .ok (false, c) := by
  rw [advanceLineLoop]
  rfl

section TraversalInvariant

theorem StackOk_congr (c c' : DialogueController) (hn : c'.m_nodes = c.m_nodes)
    (hs : c'.m_nodeStack = c.m_nodeStack ∨ c'.m_nodeStack = []) (h : StackOk c) : StackOk c' := by
  intro f hf
  rw [hn]
  rcases hs with hs | hs
  · rw [hs] at hf
    exact h f hf
  · rw [hs] at hf
    cases hf

theorem StackOk_incrementBack (c : DialogueController) (h : StackOk c) (ht : TopInRange c) :
    StackOk (incrementBack c) := by
  unfold incrementBack
  cases hs : c.m_nodeStack with
  | nil => exact h
  | cons top below =>
    intro f hf
    simp only [List.mem_cons] at hf
    rcases hf with hf | hf
    · have htop := h top (by rw [hs]; exact List.mem_cons_self _ _)
      rw [hf]
      exact ⟨htop.1, ht top below hs⟩
    · exact h f (by rw [hs]; exact List.mem_cons_of_mem _ hf)

theorem OptionsOk_of_nil (c : DialogueController) (h : c.m_presentedOptions = []) :
    OptionsOk c := fun hne => absurd h hne

theorem StepPost_same (c c' : DialogueController) (b : Bool) (hn : c'.m_nodes = c.m_nodes)
    (hs : c'.m_nodeStack = c.m_nodeStack ∨ c'.m_nodeStack = [])
    (ho : c'.m_presentedOptions = []) (h : StackOk c) : StepPost c (b, c') :=
  ⟨hn, StackOk_congr c c' hn hs h, OptionsOk_of_nil c' ho, fun _ => ho⟩

theorem StepPost_trans (c c1 : DialogueController) (r : Bool × DialogueController)
    (hn : c1.m_nodes = c.m_nodes) (h : StepPost c1 r) : StepPost c r :=
  ⟨h.1.trans hn, h.2.1, h.2.2.1, h.2.2.2⟩

/-- What `stop` leaves of the registry, the stack and the pending options. -/
theorem stop_state (host : Host) (c : DialogueController) :
    (stop host c).2.m_nodes = c.m_nodes ∧
    ((stop host c).2.m_nodeStack = c.m_nodeStack ∨ (stop host c).2.m_nodeStack = []) ∧
    (c.m_presentedOptions = [] → (stop host c).2.m_presentedOptions = []) := by
  unfold stop
  split
  · exact ⟨rfl, Or.inl rfl, fun h => h⟩
  · split
    · cases hd : host.hasDelegate <;> simp [onDialogueEnded, notify, hd]
    · exact ⟨rfl, Or.inl rfl, fun h => h⟩

theorem hostCall_state (host : Host) (c : DialogueController) (call : HostCall) :
    (hostCall host c call).m_nodes = c.m_nodes ∧
    ((hostCall host c call).m_nodeStack = c.m_nodeStack ∨ (hostCall host c call).m_nodeStack = []) ∧
    (c.m_presentedOptions = [] → (hostCall host c call).m_presentedOptions = []) := by
  cases call with
  | nothing => exact ⟨rfl, Or.inl rfl, fun h => h⟩
  | stop => exact stop_state host c
  | pause =>
    simp only [hostCall, pause]
    split
    · exact ⟨rfl, Or.inl rfl, fun h => h⟩
    · cases hd : host.hasDelegate <;> simp [notify, hd]

theorem resolveAction_state (fuel : Nat) (host : Host) (c c' : DialogueController)
    (actionName : Str) (params : List Str)
    (h : resolveAction fuel host c actionName params = .ok c') :
    c'.m_nodes = c.m_nodes ∧ (c'.m_nodeStack = c.m_nodeStack ∨ c'.m_nodeStack = []) ∧
    (c.m_presentedOptions = [] → c'.m_presentedOptions = []) := by
  rw [resolveAction] at h
  split at h
  · simp only [Except.ok.injEq] at h
    rw [← h]
    exact stop_state host c
  · cases hp : substituteParams fuel host.resolver params with
    | error e =>
      rw [hp] at h
      simp at h
    | ok v =>
      obtain ⟨parsed, asked⟩ := v
      rw [hp] at h
      simp only at h
      cases hr : host.resolver with
      | none =>
        rw [hr] at h
        simp only [Except.ok.injEq] at h
        rw [← h]
        exact ⟨rfl, Or.inl rfl, fun h => h⟩
      | some r =>
        rw [hr] at h
        simp only [Except.ok.injEq] at h
        rw [← h]
        exact hostCall_state host _ _

theorem resolveActions_state (fuel : Nat) (host : Host) :
    ∀ (actions : List DialogueNode.Action) (c c' : DialogueController),
      resolveActions fuel host actions c = .ok c' →
      c'.m_nodes = c.m_nodes ∧ (c'.m_nodeStack = c.m_nodeStack ∨ c'.m_nodeStack = []) ∧
      (c.m_presentedOptions = [] → c'.m_presentedOptions = [])
  | [], c, c', h => by
    simp only [resolveActions, Except.ok.injEq] at h
    rw [← h]
    exact ⟨rfl, Or.inl rfl, fun h => h⟩
  | action :: rest, c, c', h => by
    rw [resolveActions] at h
    cases h1 : resolveAction fuel host c action.name action.params with
    | error e =>
      rw [h1] at h
      simp at h
    | ok c1 =>
      rw [h1] at h
      simp only at h
      obtain ⟨a1, a2, a3⟩ := resolveAction_state fuel host c c1 _ _ h1
      obtain ⟨b1, b2, b3⟩ := resolveActions_state fuel host rest c1 c' h
      refine ⟨b1.trans a1, ?_, fun ho => b3 (a3 ho)⟩
      rcases b2 with b2 | b2
      · rcases a2 with a2 | a2
        · exact Or.inl (b2.trans a2)
        · exact Or.inr (b2.trans a2)
      · exact Or.inr b2

end TraversalInvariant

section TraversalSteps

variable (host : Host) (fuel : Nat)

theorem present_safe (ih : StepsSafe host fuel) (c : DialogueController) (node : DialogueNode)
    (index : Nat) (rest : List NodeState) (r : Bool × DialogueController) (hpre : StepPre c)
    (hstack : c.m_nodeStack = ⟨node, index⟩ :: rest)
    (h : present host (fuel + 1) c node index = .ok r) : StepPost c r := by
  rw [present] at h
  by_cases hidx : index < node.lines.length
  · rw [dif_pos hidx] at h
    simp only at h
    cases hc : resolveConditions fuel host.resolver (node.lines.get ⟨index, hidx⟩).conditions with
    | error e =>
      rw [hc] at h
      simp at h
    | ok v =>
      obtain ⟨b, asked⟩ := v
      rw [hc] at h
      cases b with
      | false =>
        simp only [Except.ok.injEq] at h
        rw [← h]
        exact StepPost_same c _ false rfl (Or.inl rfl) hpre.2 hpre.1
      | true =>
        simp only at h
        by_cases hctl : (node.lines.get ⟨index, hidx⟩).actorKey = [] ∧
            (node.lines.get ⟨index, hidx⟩).content = []
        · rw [if_pos hctl] at h
          by_cases hg : (node.lines.get ⟨index, hidx⟩).gotoNode ≠ []
          · rw [if_pos hg] at h
            have hpre' : StepPre (logVariables c asked) :=
              ⟨StackOk_congr c _ rfl (Or.inl rfl) hpre.1, hpre.2⟩
            have htop : TopInRange (logVariables c asked) := by
              intro top below hs
              have : top = ⟨node, index⟩ := by
                have hs' : c.m_nodeStack = top :: below := hs
                rw [hstack] at hs'
                simp only [List.cons.injEq] at hs'
                exact hs'.1.symm
              rw [this]
              exact hidx
            exact StepPost_trans c (logVariables c asked) r rfl
              (ih.2.1 (logVariables c asked) _ 0 r hpre' htop (fun _ _ => Nat.zero_le _) h)
          · rw [if_neg hg] at h
            simp only [Except.ok.injEq] at h
            rw [← h]
            exact StepPost_same c _ false rfl (Or.inl rfl) hpre.2 hpre.1
        · rw [if_neg hctl] at h
          cases hs : substituteVariables fuel host.resolver
              (node.lines.get ⟨index, hidx⟩).content with
          | error e =>
            rw [hs] at h
            simp at h
          | ok v =>
            obtain ⟨speech, askedSpeech⟩ := v
            rw [hs] at h
            simp only at h
            cases ho : presentOptions fuel host.resolver
                (node.lines.get ⟨index, hidx⟩).options with
            | error e =>
              rw [ho] at h
              simp at h
            | ok w =>
              obtain ⟨options, presented, askedOptions⟩ := w
              rw [ho] at h
              simp only [Except.ok.injEq] at h
              rw [← h]
              have hst : (notify host
                  { logVariables (logVariables c asked) (askedSpeech ++ askedOptions) with
                    m_presentedOptions := presented }
                  (.onProgress { actorKey := (node.lines.get ⟨index, hidx⟩).actorKey,
                                 speech := speech, options := options })).m_nodeStack
                  = c.m_nodeStack := by
                cases hd : host.hasDelegate <;> simp [notify, hd, logVariables]
              have hnd : (notify host
                  { logVariables (logVariables c asked) (askedSpeech ++ askedOptions) with
                    m_presentedOptions := presented }
                  (.onProgress { actorKey := (node.lines.get ⟨index, hidx⟩).actorKey,
                                 speech := speech, options := options })).m_nodes
                  = c.m_nodes := by
                cases hd : host.hasDelegate <;> simp [notify, hd, logVariables]
              refine ⟨hnd, StackOk_congr c _ hnd (Or.inl hst) hpre.1, ?_, ?_⟩
              · intro _
                refine ⟨by rw [hst, hstack]; simp, ?_⟩
                intro top below hs'
                rw [hst, hstack] at hs'
                simp only [List.cons.injEq] at hs'
                rw [← hs'.1]
                exact hidx
              · intro hf
                exact absurd hf (by simp)
  · rw [dif_neg hidx] at h
    simp only [Except.ok.injEq] at h
    rw [← h]
    exact StepPost_same c _ false rfl (Or.inl rfl) hpre.2 hpre.1

theorem enterNode_safe (ih : StepsSafe host fuel) (c : DialogueController) (nodeName : Str)
    (lineIndex : Nat) (r : Bool × DialogueController) (hpre : StepPre c) (htop : TopInRange c)
    (hline : ∀ node, getNodeByName c nodeName = some node → lineIndex ≤ node.lines.length)
    (h : enterNode host (fuel + 1) c nodeName lineIndex = .ok r) : StepPost c r := by
  rw [enterNode] at h
  cases hg : getNodeByName c nodeName with
  | none =>
    rw [hg] at h
    simp only [Except.ok.injEq] at h
    rw [← h]
    exact StepPost_same c _ false rfl (Or.inl rfl) hpre.2 hpre.1
  | some node =>
    rw [hg] at h
    simp only at h
    have hinc : StackOk (incrementBack c) := StackOk_incrementBack c hpre.1 htop
    have hincn : (incrementBack c).m_nodes = c.m_nodes := by
      unfold incrementBack
      split <;> rfl
    have hinco : (incrementBack c).m_presentedOptions = [] := by
      have : (incrementBack c).m_presentedOptions = c.m_presentedOptions := by
        unfold incrementBack
        split <;> rfl
      rw [this]
      exact hpre.2
    by_cases hl : node.lines ≠ []
    · rw [if_pos hl] at h
      have hpre3 : StepPre
          { incrementBack c with
            m_nodeStack := { node := node, lineIndex := lineIndex } :: (incrementBack c).m_nodeStack,
            pushes := (incrementBack c).pushes + 1 } := by
        refine ⟨?_, hinco⟩
        intro f hf
        simp only [List.mem_cons] at hf
        rcases hf with hf | hf
        · rw [hf]
          refine ⟨⟨nodeName, ?_⟩, hline node hg⟩
          simp only [hincn]
          exact hg
        · exact hinc f hf
      cases hp : present host fuel
          { incrementBack c with
            m_nodeStack := { node := node, lineIndex := lineIndex } :: (incrementBack c).m_nodeStack,
            pushes := (incrementBack c).pushes + 1 } node lineIndex with
      | error e =>
        rw [hp] at h
        simp at h
      | ok r1 =>
        obtain ⟨b, c4⟩ := r1
        have hpost := ih.1 _ node lineIndex (incrementBack c).m_nodeStack (b, c4) hpre3 rfl hp
        rw [hp] at h
        cases b with
        | true =>
          simp only [Except.ok.injEq] at h
          rw [← h]
          exact ⟨hpost.1.trans hincn, hpost.2.1, hpost.2.2.1, hpost.2.2.2⟩
        | false =>
          simp only at h
          have hpre4 : StepPre c4 := ⟨hpost.2.1, hpost.2.2.2 rfl⟩
          have := ih.2.2.2.1 c4 r hpre4 h
          exact ⟨this.1.trans (hpost.1.trans hincn), this.2.1, this.2.2.1, this.2.2.2⟩
    · rw [if_neg hl] at h
      simp only [Except.ok.injEq] at h
      rw [← h]
      exact ⟨hincn, hinc, OptionsOk_of_nil _ hinco, fun _ => hinco⟩

theorem exitNode_safe (ih : StepsSafe host fuel) (c : DialogueController)
    (r : Bool × DialogueController) (hpre : StepPre c)
    (h : exitNode host (fuel + 1) c = .ok r) : StepPost c r := by
  rw [exitNode] at h
  cases hs : c.m_nodeStack with
  | nil =>
    rw [hs] at h
    simp only [Except.ok.injEq] at h
    rw [← h]
    exact StepPost_same c _ false rfl (Or.inl rfl) hpre.2 hpre.1
  | cons f below =>
    cases below with
    | nil =>
      rw [hs] at h
      simp only [Except.ok.injEq] at h
      rw [← h]
      exact StepPost_same c _ true rfl (Or.inr rfl) hpre.2 hpre.1
    | cons top below =>
      rw [hs] at h
      simp only at h
      have hpre' : StepPre { c with m_nodeStack := top :: below } := by
        refine ⟨?_, hpre.2⟩
        intro g hg
        exact hpre.1 g (by rw [hs]; exact List.mem_cons_of_mem _ hg)
      have := ih.1 _ top.node top.lineIndex below r hpre' rfl h
      exact ⟨this.1, this.2.1, this.2.2.1, this.2.2.2⟩

theorem advanceLine_safe (ih : StepsSafe host fuel) (c : DialogueController)
    (r : Bool × DialogueController) (hpre : StepPre c)
    (h : advanceLine host (fuel + 1) c = .ok r) : StepPost c r := by
  rw [advanceLine] at h
  cases hl : advanceLineLoop host fuel { c with m_isProgressing := true } with
  | error e =>
    rw [hl] at h
    simp at h
  | ok r1 =>
    obtain ⟨b, c1⟩ := r1
    rw [hl] at h
    simp only [Except.ok.injEq] at h
    have hpre' : StepPre { c with m_isProgressing := true } :=
      ⟨StackOk_congr c _ rfl (Or.inl rfl) hpre.1, hpre.2⟩
    have hpost := ih.2.2.2.2 _ (b, c1) hpre' hl
    rw [← h]
    refine ⟨hpost.1, StackOk_congr c1 _ rfl (Or.inl rfl) hpost.2.1, ?_, hpost.2.2.2⟩
    intro hne
    exact hpost.2.2.1 hne

theorem incrementBack_state (c : DialogueController) :
    (incrementBack c).m_nodes = c.m_nodes ∧
    (incrementBack c).m_presentedOptions = c.m_presentedOptions := by
  unfold incrementBack
  split <;> exact ⟨rfl, rfl⟩

/-- The first part of a round of the loop of `advanceLine`: when it has advanced it leaves what
a step leaves, otherwise a state from which the round can go on. -/
theorem exitCurrentLine_safe (ih : StepsSafe host fuel) (c : DialogueController)
    (top : NodeState) (rest : List NodeState) (e : Exiting) (c2 : DialogueController)
    (hpre : StepPre c) (hstack : c.m_nodeStack = top :: rest)
    (h : exitCurrentLine host fuel c top = .ok (e, c2)) :
    (e = .advanced → StepPost c (true, c2)) ∧
    (e ≠ .advanced → c2.m_nodes = c.m_nodes ∧ StepPre c2) := by
  rw [exitCurrentLine] at h
  by_cases hidx : top.lineIndex < top.node.lines.length
  · rw [dif_pos hidx] at h
    simp only at h
    have htop : TopInRange c := by
      intro t below hs
      rw [hstack] at hs
      simp only [List.cons.injEq] at hs
      rw [← hs.1]
      exact hidx
    cases hc : resolveConditions fuel host.resolver
        (top.node.lines.get ⟨top.lineIndex, hidx⟩).conditions with
    | error err =>
      rw [hc] at h
      simp at h
    | ok v =>
      obtain ⟨b, asked⟩ := v
      rw [hc] at h
      have hlogpre : StepPre (logVariables c asked) :=
        ⟨StackOk_congr c _ rfl (Or.inl rfl) hpre.1, hpre.2⟩
      cases b with
      | false =>
        simp only [Except.ok.injEq, Prod.mk.injEq] at h
        rw [← h.1, ← h.2]
        refine ⟨fun he => (nomatch he), fun _ => ⟨(incrementBack_state _).1, ?_, ?_⟩⟩
        · exact StackOk_incrementBack _ hlogpre.1 htop
        · rw [(incrementBack_state _).2]
          exact hpre.2
      | true =>
        simp only at h
        cases ha : resolveActions fuel host (top.node.lines.get ⟨top.lineIndex, hidx⟩).actions
            (logVariables c asked) with
        | error err =>
          rw [ha] at h
          simp at h
        | ok c1 =>
          rw [ha] at h
          simp only at h
          obtain ⟨a1, a2, a3⟩ := resolveActions_state fuel host _ _ c1 ha
          have hpre1 : StepPre c1 := ⟨StackOk_congr _ c1 a1 a2 hlogpre.1, a3 hpre.2⟩
          have hn1 : c1.m_nodes = c.m_nodes := a1
          by_cases hg : (top.node.lines.get ⟨top.lineIndex, hidx⟩).gotoNode ≠ []
          · rw [if_pos hg] at h
            have htop1 : TopInRange c1 := by
              intro t below hs
              rcases a2 with a2 | a2
              · rw [a2] at hs
                exact htop t below hs
              · rw [a2] at hs
                cases hs
            cases hen : enterNode host fuel c1
                (top.node.lines.get ⟨top.lineIndex, hidx⟩).gotoNode 0 with
            | error err =>
              rw [hen] at h
              simp at h
            | ok r1 =>
              obtain ⟨b1, c3⟩ := r1
              have hpost := ih.2.1 c1 _ 0 (b1, c3) hpre1 htop1 (fun _ _ => Nat.zero_le _) hen
              rw [hen] at h
              cases b1 with
              | true =>
                simp only [Except.ok.injEq, Prod.mk.injEq] at h
                rw [← h.1, ← h.2]
                exact ⟨fun _ => StepPost_trans c c1 _ hn1 hpost, fun hne => absurd rfl hne⟩
              | false =>
                simp only at h
                split at h
                · simp at h
                · simp only [Except.ok.injEq, Prod.mk.injEq] at h
                  rw [← h.1, ← h.2]
                  exact ⟨fun he => (nomatch he),
                    fun _ => ⟨hpost.1.trans hn1, hpost.2.1, hpost.2.2.2 rfl⟩⟩
          · rw [if_neg hg] at h
            simp only [Except.ok.injEq, Prod.mk.injEq] at h
            rw [← h.1, ← h.2]
            exact ⟨fun he => (nomatch he), fun _ => ⟨hn1, hpre1⟩⟩
  · rw [dif_neg hidx] at h
    cases hex : exitNode host fuel c with
    | error err =>
      rw [hex] at h
      simp at h
    | ok r1 =>
      obtain ⟨b1, c3⟩ := r1
      have hpost := ih.2.2.1 c (b1, c3) hpre hex
      rw [hex] at h
      cases b1 with
      | true =>
        simp only [Except.ok.injEq, Prod.mk.injEq] at h
        rw [← h.1, ← h.2]
        exact ⟨fun _ => hpost, fun hne => absurd rfl hne⟩
      | false =>
        simp only at h
        split at h
        · simp only [Except.ok.injEq, Prod.mk.injEq] at h
          rw [← h.1, ← h.2]
          exact ⟨fun he => (nomatch he), fun _ => ⟨hpost.1, hpost.2.1, hpost.2.2.2 rfl⟩⟩
        · simp at h

/-- The second part of a round of the loop of `advanceLine`. -/
theorem enterNewLine_safe (ih : StepsSafe host fuel) (c : DialogueController)
    (top : NodeState) (rest : List NodeState) (r : Bool × DialogueController)
    (hpre : StepPre c) (hstack : c.m_nodeStack = top :: rest)
    (h : enterNewLine host fuel c top = .ok r) : StepPost c r := by
  rw [enterNewLine] at h
  by_cases hidx : top.lineIndex + 1 < top.node.lines.length
  · rw [if_pos hidx] at h
    have htop : TopInRange c := by
      intro t below hs
      rw [hstack] at hs
      simp only [List.cons.injEq] at hs
      rw [← hs.1]
      omega
    have hpre' : StepPre (incrementBack c) :=
      ⟨StackOk_incrementBack c hpre.1 htop, by rw [(incrementBack_state c).2]; exact hpre.2⟩
    have hst : (incrementBack c).m_nodeStack = ⟨top.node, top.lineIndex + 1⟩ :: rest := by
      simp [incrementBack, hstack]
    exact StepPost_trans c (incrementBack c) r (incrementBack_state c).1
      (ih.1 (incrementBack c) top.node (top.lineIndex + 1) rest r hpre' hst h)
  · rw [if_neg hidx] at h
    exact ih.2.2.1 c r hpre h

theorem advanceLineLoop_safe (ih : StepsSafe host fuel) (c : DialogueController)
    (r : Bool × DialogueController) (hpre : StepPre c)
    (h : advanceLineLoop host (fuel + 1) c = .ok r) : StepPost c r := by
  rw [advanceLineLoop_succ] at h
  have hsame : StepPost c (false, c) :=
    StepPost_same c c false rfl (Or.inl rfl) hpre.2 hpre.1
  split at h
  · cases hs : c.m_nodeStack with
    | nil =>
      rw [hs] at h
      simp only [Except.ok.injEq] at h
      rw [← h]
      exact hsame
    | cons top rest =>
      rw [hs] at h
      simp only at h
      cases he : exitCurrentLine host fuel c top with
      | error err =>
        rw [he] at h
        simp at h
      | ok v =>
        obtain ⟨e, c2⟩ := v
        have hex := exitCurrentLine_safe host fuel ih c top rest e c2 hpre hs he
        rw [he] at h
        cases e with
        | advanced =>
          simp only [Except.ok.injEq] at h
          rw [← h]
          exact hex.1 rfl
        | conditionFailed =>
          simp only at h
          obtain ⟨hn, hpre2⟩ := hex.2 (by simp)
          exact StepPost_trans c c2 r hn (ih.2.2.2.2 c2 r hpre2 h)
        | sameFrame =>
          simp only at h
          obtain ⟨hn, hpre2⟩ := hex.2 (by simp)
          cases hs2 : c2.m_nodeStack with
          | nil =>
            rw [hs2] at h
            simp at h
          | cons top2 rest2 =>
            rw [hs2] at h
            simp only at h
            cases hen : enterNewLine host fuel c2 top2 with
            | error err =>
              rw [hen] at h
              simp at h
            | ok r1 =>
              obtain ⟨b1, c3⟩ := r1
              have hpost := enterNewLine_safe host fuel ih c2 top2 rest2 (b1, c3) hpre2 hs2 hen
              rw [hen] at h
              cases b1 with
              | true =>
                simp only [Except.ok.injEq] at h
                rw [← h]
                exact StepPost_trans c c2 _ hn hpost
              | false =>
                simp only at h
                have hpre3 : StepPre c3 := ⟨hpost.2.1, hpost.2.2.2 rfl⟩
                exact StepPost_trans c c3 r (hpost.1.trans hn) (ih.2.2.2.2 c3 r hpre3 h)
        | poppedFrame =>
          simp only at h
          obtain ⟨hn, hpre2⟩ := hex.2 (by simp)
          cases hen : exitNode host fuel c2 with
          | error err =>
            rw [hen] at h
            simp at h
          | ok r1 =>
            obtain ⟨b1, c3⟩ := r1
            have hpost := ih.2.2.1 c2 (b1, c3) hpre2 hen
            rw [hen] at h
            cases b1 with
            | true =>
              simp only [Except.ok.injEq] at h
              rw [← h]
              exact StepPost_trans c c2 _ hn hpost
            | false =>
              simp only at h
              have hpre3 : StepPre c3 := ⟨hpost.2.1, hpost.2.2.2 rfl⟩
              exact StepPost_trans c c3 r (hpost.1.trans hn) (ih.2.2.2.2 c3 r hpre3 h)
  · simp only [Except.ok.injEq] at h
    rw [← h]
    exact hsame

end TraversalSteps

/-- The internal steps of the traversal keep the invariant, whatever the fuel. -/
theorem stepsSafe (host : Host) : ∀ fuel : Nat, StepsSafe host fuel
  | 0 => by
    refine ⟨?_, ?_, ?_, ?_, ?_⟩
    · intro c node index rest r _ _ h
      simp [present] at h
    · intro c nodeName lineIndex r _ _ _ h
      simp [enterNode] at h
    · intro c r _ h
      simp [exitNode] at h
    · intro c r _ h
      simp [advanceLine] at h
    · intro c r _ h
      simp [advanceLineLoop] at h
  | fuel + 1 =>
    have ih := stepsSafe host fuel
    ⟨present_safe host fuel ih, enterNode_safe host fuel ih, exitNode_safe host fuel ih,
      advanceLine_safe host fuel ih, advanceLineLoop_safe host fuel ih⟩

section TraversalOperations

variable (host : Host) (fuel : Nat)

theorem TraversalInv_congr (c c' : DialogueController) (hn : c'.m_nodes = c.m_nodes)
    (hs : c'.m_nodeStack = c.m_nodeStack) (ho : c'.m_presentedOptions = c.m_presentedOptions)
    (h : TraversalInv c) : TraversalInv c' := by
  unfold TraversalInv StackOk OptionsOk TopInRange at *
  rw [hn, hs, ho]
  exact h

theorem TraversalInv_of_empty (c : DialogueController) (hs : c.m_nodeStack = [])
    (ho : c.m_presentedOptions = []) : TraversalInv c := by
  refine ⟨?_, OptionsOk_of_nil c ho⟩
  intro f hf
  rw [hs] at hf
  cases hf

theorem TraversalInv_of_post (c : DialogueController) (r : Bool × DialogueController)
    (h : StepPost c r) : TraversalInv r.2 := ⟨h.2.1, h.2.2.1⟩

theorem notify_state (c : DialogueController) (e : Event) :
    (notify host c e).m_nodes = c.m_nodes ∧ (notify host c e).m_nodeStack = c.m_nodeStack ∧
    (notify host c e).m_presentedOptions = c.m_presentedOptions := by
  unfold notify
  split <;> exact ⟨rfl, rfl, rfl⟩

theorem onDialogueEnded_state (c : DialogueController) :
    (onDialogueEnded host c).m_nodes = c.m_nodes ∧ (onDialogueEnded host c).m_nodeStack = [] ∧
    (onDialogueEnded host c).m_presentedOptions = [] := by
  unfold onDialogueEnded
  exact notify_state host _ _

theorem onDialogueEnded_inv (c : DialogueController) : TraversalInv (onDialogueEnded host c) :=
  TraversalInv_of_empty _ (onDialogueEnded_state host c).2.1 (onDialogueEnded_state host c).2.2

theorem endIfStopped_inv (c : DialogueController) (h : TraversalInv c) :
    TraversalInv (endIfStopped host c) := by
  unfold endIfStopped
  split
  · exact onDialogueEnded_inv host _
  · split
    · exact onDialogueEnded_inv host _
    · exact h

theorem stop_inv (c : DialogueController) (h : TraversalInv c) :
    TraversalInv (stop host c).2 := by
  unfold stop
  split
  · exact TraversalInv_congr c _ rfl rfl rfl h
  · split
    · exact onDialogueEnded_inv host c
    · exact h

theorem run_inv (c : DialogueController) (r : Bool × DialogueController)
    (h : TraversalInv c) (hr : run host fuel c = .ok r) : TraversalInv r.2 := by
  rw [run] at hr
  by_cases ho : c.m_presentedOptions = []
  · rw [if_pos ho] at hr
    by_cases hp : c.m_pendingStop = false
    · rw [if_pos hp] at hr
      cases ha : advanceLine host fuel c with
      | error e =>
        rw [ha] at hr
        simp at hr
      | ok v =>
        obtain ⟨b, c1⟩ := v
        rw [ha] at hr
        simp only [Except.ok.injEq] at hr
        rw [← hr]
        exact endIfStopped_inv host c1
          (TraversalInv_of_post c _ ((stepsSafe host fuel).2.2.2.1 c (b, c1) ⟨h.1, ho⟩ ha))
    · rw [if_neg hp] at hr
      simp only [Except.ok.injEq] at hr
      rw [← hr]
      exact endIfStopped_inv host c h
  · rw [if_neg ho] at hr
    simp only [Except.ok.injEq] at hr
    rw [← hr]
    exact h

theorem progressDialogue_inv (c : DialogueController) (r : Bool × DialogueController)
    (h : TraversalInv c) (hr : progressDialogue host fuel c = .ok r) : TraversalInv r.2 := by
  rw [progressDialogue] at hr
  split at hr
  · simp only [Except.ok.injEq] at hr
    rw [← hr]
    exact h
  · exact run_inv host fuel c r h hr

theorem enterNode_inv (c : DialogueController) (nodeName : Str) (lineIndex : Nat)
    (r : Bool × DialogueController) (hs : StackOk c) (ho : c.m_presentedOptions = [])
    (ht : TopInRange c)
    (hl : ∀ node, getNodeByName c nodeName = some node → lineIndex ≤ node.lines.length)
    (hr : enterNode host fuel c nodeName lineIndex = .ok r) : TraversalInv r.2 :=
  TraversalInv_of_post c r ((stepsSafe host fuel).2.1 c nodeName lineIndex r ⟨hs, ho⟩ ht hl hr)

theorem start_inv (c : DialogueController) (startNode : Str) (lineIndex : Nat) (forceStart : Bool)
    (r : Bool × DialogueController) (h : TraversalInv c)
    (hl : ∀ node, getNodeByName c (startNodeName startNode) = some node →
      lineIndex ≤ node.lines.length)
    (hr : start host fuel c startNode lineIndex forceStart = .ok r) : TraversalInv r.2 := by
  rw [start] at hr
  by_cases hs : c.m_nodeStack ≠ []
  · rw [if_pos hs] at hr
    cases forceStart with
    | false =>
      simp only [Bool.false_eq_true, if_false, Except.ok.injEq] at hr
      rw [← hr]
      exact h
    | true =>
      simp only [if_true] at hr
      obtain ⟨e1, e2, e3⟩ := onDialogueEnded_state host c
      refine enterNode_inv host fuel (onDialogueEnded host c) _ lineIndex r
        (onDialogueEnded_inv host c).1 e3 ?_ ?_ hr
      · intro t below hst
        rw [e2] at hst
        cases hst
      · intro node hn
        apply hl node
        rw [getNodeByName] at hn ⊢
        rw [← e1]
        exact hn
  · rw [if_neg hs] at hr
    have hs' : c.m_nodeStack = [] := not_not.mp hs
    have ho : c.m_presentedOptions = [] := by
      by_contra hne
      exact (h.2 hne).1 hs'
    refine enterNode_inv host fuel c _ lineIndex r h.1 ho ?_ hl hr
    intro t below hst
    rw [hs'] at hst
    cases hst

theorem selectOption_inv (c : DialogueController) (index : Nat) (r : Bool × DialogueController)
    (h : TraversalInv c) (hr : selectOption host fuel c index = .ok r) : TraversalInv r.2 := by
  rw [selectOption] at hr
  split at hr
  · simp only [Except.ok.injEq] at hr
    rw [← hr]
    exact h
  · by_cases ho : c.m_presentedOptions ≠ []
    · rw [if_pos ho] at hr
      by_cases hi : index < c.m_presentedOptions.length
      · rw [dif_pos hi] at hr
        cases ha : resolveActions fuel host (c.m_presentedOptions.get ⟨index, hi⟩).resolveActions
            { c with m_presentedOptions := [] } with
        | error e =>
          rw [ha] at hr
          simp at hr
        | ok c1 =>
          rw [ha] at hr
          simp only at hr
          obtain ⟨a1, a2, a3⟩ := resolveActions_state fuel host _ _ c1 ha
          have hs1 : StackOk c1 := StackOk_congr _ c1 a1 a2 h.1
          have ho1 : c1.m_presentedOptions = [] := a3 rfl
          split at hr
          · refine enterNode_inv host fuel c1 _ 0 r hs1 ho1 ?_ (fun _ _ => Nat.zero_le _) hr
            intro t below hst
            rcases a2 with a2 | a2
            · rw [a2] at hst
              exact (h.2 ho).2 t below hst
            · rw [a2] at hst
              cases hst
          · exact run_inv host fuel c1 r ⟨hs1, OptionsOk_of_nil c1 ho1⟩ hr
      · rw [dif_neg hi] at hr
        simp only [Except.ok.injEq] at hr
        rw [← hr]
        exact h
    · rw [if_neg ho] at hr
      simp only [Except.ok.injEq] at hr
      rw [← hr]
      exact h

theorem skipDialogueLoop_inv : ∀ (fuel : Nat) (c c' : DialogueController),
    TraversalInv c → skipDialogueLoop host fuel c = .ok c' → TraversalInv c'
  | 0, c, c', _, hr => by simp [skipDialogueLoop] at hr
  | fuel + 1, c, c', h, hr => by
    rw [skipDialogueLoop] at hr
    split at hr
    · cases hp : progressDialogue host fuel c with
      | error e =>
        rw [hp] at hr
        simp at hr
      | ok v =>
        obtain ⟨b, c1⟩ := v
        rw [hp] at hr
        simp only at hr
        have hinv : TraversalInv { c1 with m_isSkipping := b } :=
          TraversalInv_congr c1 _ rfl rfl rfl (progressDialogue_inv host fuel c (b, c1) h hp)
        exact skipDialogueLoop_inv fuel _ c' hinv hr
    · simp only [Except.ok.injEq] at hr
      rw [← hr]
      exact h

theorem skipDialogue_inv (c c' : DialogueController) (h : TraversalInv c)
    (hr : skipDialogue host fuel c = .ok c') : TraversalInv c' := by
  rw [skipDialogue] at hr
  split at hr
  · simp only [Except.ok.injEq] at hr
    rw [← hr]
    exact h
  · split at hr
    · have hinv : TraversalInv { c with m_isSkipping := true } :=
        TraversalInv_congr c _ rfl rfl rfl h
      exact skipDialogueLoop_inv host fuel _ c' hinv hr
    · simp only [Except.ok.injEq] at hr
      rw [← hr]
      exact h

theorem setIsPaused_inv (c c' : DialogueController) (isPaused : Bool) (h : TraversalInv c)
    (hr : setIsPaused host fuel c isPaused = .ok c') : TraversalInv c' := by
  rw [setIsPaused] at hr
  split at hr
  · split at hr
    · simp only [Except.ok.injEq] at hr
      rw [← hr]
      obtain ⟨e1, e2, e3⟩ := notify_state host { c with m_isPaused := true } .onPaused
      exact TraversalInv_congr c _ e1 e2 e3 h
    · cases hp : progressDialogue host fuel { c with m_isPaused := false } with
      | error e =>
        rw [hp] at hr
        simp at hr
      | ok v =>
        obtain ⟨b, c1⟩ := v
        rw [hp] at hr
        simp only [Except.ok.injEq] at hr
        rw [← hr]
        have hinv : TraversalInv { c with m_isPaused := false } :=
          TraversalInv_congr c _ rfl rfl rfl h
        exact progressDialogue_inv host fuel _ (b, c1) hinv hp
  · simp only [Except.ok.injEq] at hr
    rw [← hr]
    exact h

end TraversalOperations

/-- C27 fails in the code. `enterNode` pushes the frame with the line index it is given, without
a check, and while the controller is paused the loop of `advanceLine` does not run: on a paused
controller whose registry holds the one-line node `Start`, `start("Start", 5)` returns with a
frame whose `lineIndex` is 5, more than the number of lines of its node. -/
theorem start_leaves_index_past_end :
    setIsPaused plainHost 20 { m_nodes := [("Start".toList, oneLineNode)] } true = .ok pausedIdle ∧
    start plainHost 20 pausedIdle "Start".toList 5 false
      = .ok (false, { pausedIdle with m_nodeStack := [⟨oneLineNode, 5⟩], pushes := 1 }) ∧
    oneLineNode.lines.length < 5 := by
  decide

/-- The frames of the node stack on the runs in which `advanceLine` reads no frame through a
reference taken before a push or a pop (the other runs end in `Err.staleReference` here): the
invariant "every frame of the node stack refers to a registered node and has a `lineIndex` of at
most the number of lines of its node, and while options are pending the frame at the back has a
`lineIndex` below that number" holds in every state with an empty stack and no pending options,
and on those runs the public traversal operations keep it: `start` by node name with a
`lineIndex` of at most the number of lines of the node it names, `stop`, `setIsPaused`,
`selectOption`, `progressDialogue` and `skipDialogue`. -/
theorem traversal_invariant (host : Host) (fuel : Nat) (c : DialogueController)
    (h : TraversalInv c) :
    StackOk c ∧
    (∀ c0 : DialogueController, c0.m_nodeStack = [] → c0.m_presentedOptions = [] →
      TraversalInv c0) ∧
    (∀ (startNode : Str) (lineIndex : Nat) (forceStart : Bool) (r : Bool × DialogueController),
      (∀ node, getNodeByName c (startNodeName startNode) = some node →
        lineIndex ≤ node.lines.length) →
      start host fuel c startNode lineIndex forceStart = .ok r → TraversalInv r.2) ∧
    TraversalInv (stop host c).2 ∧
    (∀ (isPaused : Bool) (c' : DialogueController),
      setIsPaused host fuel c isPaused = .ok c' → TraversalInv c') ∧
    (∀ (index : Nat) (r : Bool × DialogueController),
      selectOption host fuel c index = .ok r → TraversalInv r.2) ∧
    (∀ r : Bool × DialogueController, progressDialogue host fuel c = .ok r → TraversalInv r.2) ∧
    (∀ c' : DialogueController, skipDialogue host fuel c = .ok c' → TraversalInv c') :=
  ⟨h.1, fun c0 hs ho => TraversalInv_of_empty c0 hs ho,
    fun startNode lineIndex forceStart r hl hr =>
      start_inv host fuel c startNode lineIndex forceStart r h hl hr,
    stop_inv host c h,
    fun isPaused c' hr => setIsPaused_inv host fuel c c' isPaused h hr,
    fun index r hr => selectOption_inv host fuel c index r h hr,
    fun r hr => progressDialogue_inv host fuel c r h hr,
    fun c' hr => skipDialogue_inv host fuel c c' h hr⟩

theorem oneLineRunning_inv : TraversalInv oneLineRunning := by
  refine ⟨?_, OptionsOk_of_nil _ rfl⟩
  intro f hf
  simp only [oneLineRunning, oneLineState, List.mem_singleton] at hf
  rw [hf]
  exact ⟨⟨"Start".toList, rfl⟩, by decide⟩

/-- An instance of the invariant: the state after `start("Start", 0)` on the one-line node
satisfies it; `progressDialogue` returns from it, with the dialogue ended, and the invariant
holds in the state it leaves. -/
theorem traversal_invariant_witness :
    TraversalInv oneLineRunning ∧
    progressDialogue plainHost 20 oneLineRunning
      = .ok (true, oneLineState [] false [progressOf "A" "hi", .onEnd] 1) ∧
    TraversalInv (oneLineState [] false [progressOf "A" "hi", .onEnd] 1) :=
  ⟨oneLineRunning_inv, rfl,
    (traversal_invariant plainHost 20 oneLineRunning oneLineRunning_inv).2.2.2.2.2.2.1 _ rfl⟩

/-! ### C7: the link of the previous line in the node that the scope returns -/

/-- What `parseLine` does to the node: nothing for the empty text, one more option on the last
line for a text that starts with `->`, one more line for any other text. -/
theorem parseLine_cases (fuel : Nat) (s : Str) (node : DialogueNode) (r : Bool × DialogueNode)
    (h : parseLine fuel s node = .ok r) :
    (s = [] ∧ r.2 = node) ∨
    (s ≠ [] ∧ startsWith s k_optionShortcut = true ∧ ∃ o, r.2 = { node with
        lines := pushOptionToBack (if node.lines = [] then [{}] else node.lines) o }) ∨
    (s ≠ [] ∧ startsWith s k_optionShortcut = false ∧
      ∃ line, r.2 = { node with lines := node.lines ++ [line] }) := by
  rw [parseLine] at h
  by_cases h0 : s = []
  · simp only [h0, if_true, Except.ok.injEq] at h
    exact Or.inl ⟨h0, by rw [← h]⟩
  · simp only [h0, if_false] at h
    by_cases hsc : startsWith s k_optionShortcut = true
    · simp only [hsc, if_true] at h
      cases h1 : parseOutCommon fuel (substrFrom s 2) true with
      | error e => simp [h1] at h
      | ok c =>
        simp only [h1, Except.ok.injEq] at h
        exact Or.inr (Or.inl ⟨h0, hsc, _, by rw [← h]⟩)
    · simp only [hsc, if_false, Bool.false_eq_true] at h
      cases h1 : parseGroupedLists fuel s k_gotoBegin k_gotoEnd k_separator [] with
      | error e => simp [h1] at h
      | ok v =>
        obtain ⟨s1, groups⟩ := v
        simp only [h1] at h
        cases h2 : parseOutCommon fuel s1 false with
        | error e => simp [h2] at h
        | ok c =>
          simp only [h2, Except.ok.injEq] at h
          exact Or.inr (Or.inr ⟨h0, by simpa using hsc, _, by rw [← h]⟩)

theorem pushOptionToBack_slot (ls rest : List DialogueNode.Line) (x : DialogueNode.Line)
    (o : DialogueNode.Option) (h : rest ≠ []) :
    pushOptionToBack (ls ++ x :: rest) o = ls ++ x :: pushOptionToBack rest o ∧
      pushOptionToBack rest o ≠ [] := by
  obtain ⟨init, l, rfl⟩ : ∃ init l, rest = init ++ [l] :=
    ⟨rest.dropLast, rest.getLast h, (List.dropLast_append_getLast h).symm⟩
  have : ls ++ x :: (init ++ [l]) = (ls ++ x :: init) ++ [l] := by simp
  rw [this, pushOptionToBack_concat, pushOptionToBack_concat]
  simp

theorem pushOptionToBack_last (ls : List DialogueNode.Line) (x : DialogueNode.Line)
    (o : DialogueNode.Option) :
    pushOptionToBack (ls ++ [x]) o = ls ++ [withMoreOptions x [o]] := by
  rw [pushOptionToBack_concat]
  rfl

theorem modifyBack_slot {α : Type} (f : α → α) (ls rest : List α) (x : α) (h : rest ≠ []) :
    modifyBack f (ls ++ x :: rest) = ls ++ x :: modifyBack f rest ∧ modifyBack f rest ≠ [] := by
  obtain ⟨init, l, rfl⟩ : ∃ init l, rest = init ++ [l] :=
    ⟨rest.dropLast, rest.getLast h, (List.dropLast_append_getLast h).symm⟩
  have : ls ++ x :: (init ++ [l]) = (ls ++ x :: init) ++ [l] := by simp
  rw [this, modifyBack_concat, modifyBack_concat]
  simp

/-- What the flush leaves: the node with its lines and at most one more, one more when
potential lines are buffered, and an empty buffer. -/
theorem flushPotentialLines_lines (rand : Nat → Nat) (node pot : DialogueNode) (k : Nat) :
    (∃ tail, (flushPotentialLines rand node pot k).1.lines = node.lines ++ tail ∧
      (pot.lines ≠ [] → tail ≠ [])) ∧
    (flushPotentialLines rand node pot k).2.1.lines = [] := by
  by_cases hp : pot.lines = []
  · rw [flushPotentialLines_empty rand node pot k hp]
    exact ⟨⟨[], (List.append_nil _).symm, fun h => absurd hp h⟩, hp⟩
  · unfold flushPotentialLines
    rw [dif_pos hp]
    exact ⟨⟨_, rfl, fun _ => List.cons_ne_nil _ _⟩, rfl⟩

theorem drop_eq_cons (lines : List Str) (i : Nat) (hi : i < lines.length) :
    lines.drop i = lines.get ⟨i, hi⟩ :: lines.drop (i + 1) :=
  List.drop_eq_getElem_cons hi
/-- A line of the node of a scope stays where it is, with a property `Q` that further options
keep, until the scope returns its node, when the line is no longer the last line of the node,
or potential lines are buffered, or the line has a property `Qs` that linking keeps, or the
scope keeps the link of the line. -/
theorem parseNodesLoop_slot (rand : Nat → Nat) (tags : Str) (lines : List Str)
    (ls : List DialogueNode.Line) (Q Qs : DialogueNode.Line → Prop)
    (hup : ∀ x o, Q x → Qs (withMoreOptions x [o]))
    (hlink : ∀ x child, Qs x → Qs (linkLine x child))
    (hsub : ∀ x, Qs x → Q x) :
    ∀ (fuel : Nat) (sc : Scope) (name : Str) (level : Nat) (out : Nat × List DialogueNode × Nat),
      parseNodesLoop rand tags lines fuel name level sc = .ok out →
      ∀ (x : DialogueNode.Line) (rest : List DialogueNode.Line),
        sc.node.lines = ls ++ x :: rest → Q x →
        (rest ≠ [] ∨ sc.potentialNode.lines ≠ [] ∨ Qs x ∨
          linkKept level .lastLine (lines.drop sc.i) = true) →
        ∃ node' x' rest',
          out.2.1.getLast? = some node' ∧ node'.lines = ls ++ x' :: rest' ∧ Q x'
  | 0, sc, name, level, out, h, _, _, _, _, _ => by
    simp [parseNodesLoop] at h
  | fuel + 1, sc, name, level, out, h, x, rest, hlines, hq, hstate => by
    have hfinish : ∃ node' x' rest', (finishScope rand sc).2.1.getLast? = some node' ∧
        node'.lines = ls ++ x' :: rest' ∧ Q x' := by
      obtain ⟨⟨tail, ht, _⟩, _⟩ := flushPotentialLines_lines rand sc.node sc.potentialNode sc.k
      exact ⟨(flushPotentialLines rand sc.node sc.potentialNode sc.k).1, x, rest ++ tail,
        by simp [finishScope], by rw [ht, hlines]; simp, hq⟩
    by_cases hi : sc.i < lines.length
    · have hdrop := drop_eq_cons lines sc.i hi
      by_cases habs : startsWith (trim (lines.get ⟨sc.i, hi⟩)) k_optionShortcut = true ∧
          sc.potentialNode.lines ≠ []
      · rw [parseNodesLoop_absorb rand tags lines fuel name level sc hi habs] at h
        cases h1 : parseLine fuel (trim (lines.get ⟨sc.i, hi⟩)) sc.potentialNode with
        | error e =>
          rw [h1] at h
          simp at h
        | ok r =>
          obtain ⟨b, pot'⟩ := r
          rw [h1] at h
          simp only at h
          have hp' := parseLine_lines_ne_nil _ _ _ _ h1 (Or.inr habs.2)
          exact parseNodesLoop_slot rand tags lines ls Q Qs hup hlink hsub fuel _ name level out
            h x rest hlines hq (Or.inr (Or.inl hp'))
      · by_cases hd : level < calulateIndentLevel (lines.get ⟨sc.i, hi⟩)
        · rw [parseNodesLoop_child rand tags lines fuel name level sc hi habs hd] at h
          cases hc : parseNodesLoop rand tags lines fuel (childName name sc.i)
              (calulateIndentLevel (lines.get ⟨sc.i, hi⟩))
              { i := sc.i, node := { name := childName name sc.i, tags := tags },
                potentialNode := {}, nodeSet := sc.nodeSet, k := sc.k } with
          | error e =>
            rw [hc] at h
            simp at h
          | ok oc =>
            obtain ⟨i', nodeSet', k'⟩ := oc
            rw [hc] at h
            simp only at h
            by_cases hp : sc.potentialNode.lines = []
            · have hn : sc.node.lines ≠ [] := by rw [hlines]; simp
              have hnode : (linkPrevious sc.node sc.potentialNode (backName nodeSet')).1.lines
                  = modifyBack (linkLine · (backName nodeSet')) sc.node.lines := by
                simp [linkPrevious, hp, hn]
              by_cases hr : rest = []
              · have hqs : Qs x := by
                  rcases hstate with h1 | h1 | h1 | h1
                  · exact absurd hr h1
                  · exact absurd hp h1
                  · exact h1
                  · rw [hdrop, linkKept, if_pos hd] at h1
                    exact absurd h1 (by decide)
                subst hr
                exact parseNodesLoop_slot rand tags lines ls Q Qs hup hlink hsub fuel _ name level
                  out h (linkLine x (backName nodeSet')) []
                  (by simp only; rw [hnode, hlines, modifyBack_concat])
                  (hsub _ (hlink _ _ hqs)) (Or.inr (Or.inr (Or.inl (hlink _ _ hqs))))
              · obtain ⟨hm1, hm2⟩ := modifyBack_slot (linkLine · (backName nodeSet')) ls rest x hr
                exact parseNodesLoop_slot rand tags lines ls Q Qs hup hlink hsub fuel _ name level
                  out h x _ (by simp only; rw [hnode, hlines, hm1]) hq (Or.inl hm2)
            · have hlp : linkPrevious sc.node sc.potentialNode (backName nodeSet')
                  = (sc.node, { sc.potentialNode with
                      lines := modifyBack (linkLine · (backName nodeSet'))
                        sc.potentialNode.lines }) := by
                simp [linkPrevious, hp]
              rw [hlp] at h
              exact parseNodesLoop_slot rand tags lines ls Q Qs hup hlink hsub fuel _ name level
                out h x rest hlines hq (Or.inr (Or.inl (modifyBack_ne_nil _ _ hp)))
        · by_cases hsh : calulateIndentLevel (lines.get ⟨sc.i, hi⟩) < level
          · rw [parseNodesLoop_shallow rand tags lines fuel name level sc hi habs hsh] at h
            simp only [Except.ok.injEq] at h
            rw [← h]
            exact hfinish
          · have heq : calulateIndentLevel (lines.get ⟨sc.i, hi⟩) = level := by omega
            cases hpot : startsWith (trim (lines.get ⟨sc.i, hi⟩)) k_potentialLine with
            | true =>
              rw [parseNodesLoop_potential rand tags lines fuel name level sc hi habs heq hpot]
                at h
              cases h1 : parseLine fuel
                  (substrFrom (trim (lines.get ⟨sc.i, hi⟩)) k_potentialLine.length)
                  sc.potentialNode with
              | error e =>
                rw [h1] at h
                simp at h
              | ok r =>
                obtain ⟨b, pot'⟩ := r
                rw [h1] at h
                simp only at h
                apply parseNodesLoop_slot rand tags lines ls Q Qs hup hlink hsub fuel _ name level
                  out h x rest hlines hq
                rcases hstate with hs | hs | hs | hs
                · exact Or.inl hs
                · exact Or.inr (Or.inl (parseLine_lines_ne_nil _ _ _ _ h1 (Or.inr hs)))
                · exact Or.inr (Or.inr (Or.inl hs))
                · by_cases hsub0 :
                      substrFrom (trim (lines.get ⟨sc.i, hi⟩)) k_potentialLine.length = []
                  · rw [hdrop, linkKept, if_neg hd, if_neg hsh, if_pos hpot, if_pos hsub0] at hs
                    rw [hsub0, parseLine] at h1
                    simp only [if_true, Except.ok.injEq, Prod.mk.injEq] at h1
                    by_cases hp : sc.potentialNode.lines = []
                    · exact Or.inr (Or.inr (Or.inr hs))
                    · exact Or.inr (Or.inl (by rw [← h1.2]; exact hp))
                  · exact Or.inr (Or.inl (parseLine_lines_ne_nil _ _ _ _ h1 (Or.inl hsub0)))
            | false =>
              rw [parseNodesLoop_normal rand tags lines fuel name level sc hi habs heq hpot] at h
              cases h1 : parseLine fuel (trim (lines.get ⟨sc.i, hi⟩))
                  (flushPotentialLines rand sc.node sc.potentialNode sc.k).1 with
              | error e =>
                rw [h1] at h
                simp at h
              | ok r =>
                obtain ⟨b, node'⟩ := r
                rw [h1] at h
                simp only at h
                obtain ⟨⟨tail, ht, htail⟩, hbuf⟩ :=
                  flushPotentialLines_lines rand sc.node sc.potentialNode sc.k
                have hfl : (flushPotentialLines rand sc.node sc.potentialNode sc.k).1.lines
                    = ls ++ x :: (rest ++ tail) := by rw [ht, hlines]; simp
                have hpot' : ¬ startsWith (trim (lines.get ⟨sc.i, hi⟩)) k_potentialLine = true := by
                  rw [hpot]
                  exact Bool.false_ne_true
                rcases parseLine_cases _ _ _ _ h1 with ⟨h0, hr⟩ | ⟨h0, hsc, o, hr⟩ |
                    ⟨h0, hsc, line, hr⟩
                · simp only at hr
                  apply parseNodesLoop_slot rand tags lines ls Q Qs hup hlink hsub fuel _ name
                    level out h x (rest ++ tail) (by simp only; rw [hr, hfl]) hq
                  rcases hstate with hs | hs | hs | hs
                  · exact Or.inl (by simp [hs])
                  · exact Or.inl (by simp [htail hs])
                  · exact Or.inr (Or.inr (Or.inl hs))
                  · rw [hdrop, linkKept, if_neg hd, if_neg hsh, if_neg hpot', if_pos h0] at hs
                    exact Or.inr (Or.inr (Or.inr hs))
                · simp only at hr
                  have hne : (flushPotentialLines rand sc.node sc.potentialNode sc.k).1.lines
                      ≠ [] := by rw [hfl]; simp
                  rw [if_neg hne, hfl] at hr
                  by_cases hrt : rest ++ tail = []
                  · rw [hrt, pushOptionToBack_last] at hr
                    exact parseNodesLoop_slot rand tags lines ls Q Qs hup hlink hsub fuel _ name
                      level out h (withMoreOptions x [o]) [] (by simp only; rw [hr])
                      (hsub _ (hup x o hq)) (Or.inr (Or.inr (Or.inl (hup x o hq))))
                  · obtain ⟨hm1, hm2⟩ := pushOptionToBack_slot ls (rest ++ tail) x o hrt
                    rw [hm1] at hr
                    exact parseNodesLoop_slot rand tags lines ls Q Qs hup hlink hsub fuel _ name
                      level out h x _ (by simp only; rw [hr]) hq (Or.inl hm2)
                · simp only at hr
                  rw [hfl] at hr
                  exact parseNodesLoop_slot rand tags lines ls Q Qs hup hlink hsub fuel _ name
                    level out h x (rest ++ tail ++ [line]) (by simp only; rw [hr]; simp) hq
                    (Or.inl (by simp))
    · rw [parseNodesLoop_end rand tags lines fuel name level sc hi] at h
      simp only [Except.ok.injEq] at h
      rw [← h]
      exact hfinish
/-- The lines that a scope takes, itself or in the scopes of its children, start with `->` or
are at least as deep as the scope. -/
theorem parseNodesLoop_consumed (rand : Nat → Nat) (tags : Str) (lines : List Str) :
    ∀ (fuel : Nat) (sc : Scope) (name : Str) (level : Nat) (out : Nat × List DialogueNode × Nat),
      parseNodesLoop rand tags lines fuel name level sc = .ok out →
      sc.i ≤ out.1 ∧ ∀ j, sc.i ≤ j → j < out.1 →
        startsWith (trim (lines.getD j [])) k_optionShortcut = true ∨ level ≤ levelAt lines j
  | 0, sc, name, level, out, h => by
    simp [parseNodesLoop] at h
  | fuel + 1, sc, name, level, out, h => by
    have hfinish : sc.i ≤ (finishScope rand sc).1 ∧ ∀ j, sc.i ≤ j → j < (finishScope rand sc).1 →
        startsWith (trim (lines.getD j [])) k_optionShortcut = true ∨ level ≤ levelAt lines j :=
      ⟨le_refl _, fun j h1 h2 => by simp only [finishScope] at h2; omega⟩
    by_cases hi : sc.i < lines.length
    · have hget := getD_eq_get lines sc.i hi
      have hlev := levelAt_eq lines sc.i hi
      have hstep : ∀ (sc' : Scope), sc'.i = sc.i + 1 →
          (startsWith (trim (lines.get ⟨sc.i, hi⟩)) k_optionShortcut = true ∨
            level ≤ calulateIndentLevel (lines.get ⟨sc.i, hi⟩)) →
          parseNodesLoop rand tags lines fuel name level sc' = .ok out →
          sc.i ≤ out.1 ∧ ∀ j, sc.i ≤ j → j < out.1 →
            startsWith (trim (lines.getD j [])) k_optionShortcut = true ∨
              level ≤ levelAt lines j := by
        intro sc' hsc' hline h'
        obtain ⟨o1, o2⟩ := parseNodesLoop_consumed rand tags lines fuel sc' name level out h'
        refine ⟨by omega, fun j hj1 hj2 => ?_⟩
        by_cases hji : j = sc.i
        · subst hji
          rw [hget, hlev]
          exact hline
        · exact o2 j (by omega) hj2
      by_cases habs : startsWith (trim (lines.get ⟨sc.i, hi⟩)) k_optionShortcut = true ∧
          sc.potentialNode.lines ≠ []
      · rw [parseNodesLoop_absorb rand tags lines fuel name level sc hi habs] at h
        cases h1 : parseLine fuel (trim (lines.get ⟨sc.i, hi⟩)) sc.potentialNode with
        | error e =>
          rw [h1] at h
          simp at h
        | ok r =>
          obtain ⟨b, pot'⟩ := r
          rw [h1] at h
          exact hstep _ rfl (Or.inl habs.1) h
      · by_cases hd : level < calulateIndentLevel (lines.get ⟨sc.i, hi⟩)
        · rw [parseNodesLoop_child rand tags lines fuel name level sc hi habs hd] at h
          cases hc : parseNodesLoop rand tags lines fuel (childName name sc.i)
              (calulateIndentLevel (lines.get ⟨sc.i, hi⟩))
              { i := sc.i, node := { name := childName name sc.i, tags := tags },
                potentialNode := {}, nodeSet := sc.nodeSet, k := sc.k } with
          | error e =>
            rw [hc] at h
            simp at h
          | ok oc =>
            obtain ⟨i', nodeSet', k'⟩ := oc
            rw [hc] at h
            simp only at h
            obtain ⟨c1, c2⟩ := parseNodesLoop_consumed rand tags lines fuel _ _ _ _ hc
            obtain ⟨o1, o2⟩ := parseNodesLoop_consumed rand tags lines fuel _ _ _ _ h
            simp only at c1 c2 o1 o2
            refine ⟨by omega, fun j hj1 hj2 => ?_⟩
            by_cases hji : j < i'
            · rcases c2 j hj1 hji with hc2 | hc2
              · exact Or.inl hc2
              · exact Or.inr (by omega)
            · exact o2 j (by omega) hj2
        · by_cases hsh : calulateIndentLevel (lines.get ⟨sc.i, hi⟩) < level
          · rw [parseNodesLoop_shallow rand tags lines fuel name level sc hi habs hsh] at h
            simp only [Except.ok.injEq] at h
            rw [← h]
            exact hfinish
          · have heq : calulateIndentLevel (lines.get ⟨sc.i, hi⟩) = level := by omega
            cases hpot : startsWith (trim (lines.get ⟨sc.i, hi⟩)) k_potentialLine with
            | true =>
              rw [parseNodesLoop_potential rand tags lines fuel name level sc hi habs heq hpot]
                at h
              cases h1 : parseLine fuel
                  (substrFrom (trim (lines.get ⟨sc.i, hi⟩)) k_potentialLine.length)
                  sc.potentialNode with
              | error e =>
                rw [h1] at h
                simp at h
              | ok r =>
                obtain ⟨b, pot'⟩ := r
                rw [h1] at h
                exact hstep _ rfl (Or.inr (by omega)) h
            | false =>
              rw [parseNodesLoop_normal rand tags lines fuel name level sc hi habs heq hpot] at h
              cases h1 : parseLine fuel (trim (lines.get ⟨sc.i, hi⟩))
                  (flushPotentialLines rand sc.node sc.potentialNode sc.k).1 with
              | error e =>
                rw [h1] at h
                simp at h
              | ok r =>
                obtain ⟨b, node'⟩ := r
                rw [h1] at h
                exact hstep _ rfl (Or.inr (by omega)) h
    · rw [parseNodesLoop_end rand tags lines fuel name level sc hi] at h
      simp only [Except.ok.injEq] at h
      rw [← h]
      exact hfinish

/-- While the linked line is buffered with a later line after it, the lines that start with
`->` and the deeper lines do not matter. -/
theorem linkKept_buffered_skip (level : Nat) (lines : List Str) :
    ∀ (d i : Nat), linkKept level .buffered (lines.drop i) = true →
      (∀ j, i ≤ j → j < i + d →
        startsWith (trim (lines.getD j [])) k_optionShortcut = true ∨ level < levelAt lines j) →
      linkKept level .buffered (lines.drop (i + d)) = true
  | 0, i, h, _ => h
  | d + 1, i, h, hskip => by
    have hrest : linkKept level .buffered (lines.drop (i + 1)) = true := by
      by_cases hi : i < lines.length
      · rw [drop_eq_cons lines i hi, linkKept] at h
        have hs := hskip i (le_refl _) (by omega)
        rw [getD_eq_get lines i hi, levelAt_eq lines i hi] at hs
        by_cases h1 : startsWith (trim (lines.get ⟨i, hi⟩)) k_optionShortcut = true
        · rw [if_pos h1] at h
          exact h
        · rw [if_neg h1] at h
          rcases hs with hs | hs
          · exact absurd hs h1
          · rw [if_pos hs] at h
            exact h
      · rw [List.drop_eq_nil_of_le (by omega)]
        rfl
    have := linkKept_buffered_skip level lines d (i + 1) hrest
      (fun j hj1 hj2 => hskip j (by omega) (by omega))
    rw [show i + (d + 1) = i + 1 + d by omega]
    exact this

theorem sameText_refl (c : DialogueNode.Line) : sameText c c := rfl

theorem sameText_withMoreOptions (c x : DialogueNode.Line) (more : List DialogueNode.Option)
    (h : sameText c x) : sameText c (withMoreOptions x more) := by
  obtain ⟨a1, a2, a3, a4, a5, a6⟩ := x
  obtain ⟨b1, b2, b3, b4, b5, b6⟩ := c
  simp only [sameText, withMoreOptions, DialogueNode.Line.mk.injEq] at h ⊢
  simp [h]

theorem sameText_linkLine (c x : DialogueNode.Line) (child : Str) (h : sameText c x) :
    sameText c (linkLine x child) := by
  unfold linkLine
  obtain ⟨a1, a2, a3, a4, a5, a6⟩ := x
  obtain ⟨b1, b2, b3, b4, b5, b6⟩ := c
  simp only [sameText, DialogueNode.Line.mk.injEq] at h
  split
  · split
    · simp [sameText, h]
    · simp [sameText, h]
  · simp [sameText, h]

theorem withMoreOptions_withMoreOptions (p : DialogueNode.Line)
    (more more' : List DialogueNode.Option) :
    withMoreOptions (withMoreOptions p more) more' = withMoreOptions p (more ++ more') := by
  simp [withMoreOptions]

theorem withMoreOptions_nil (p : DialogueNode.Line) : withMoreOptions p [] = p := by
  simp [withMoreOptions]

/-- Linking a line that has gained an option leaves the line as it was before it gained one,
with other options added. -/
theorem linkLine_withMoreOptions (p : DialogueNode.Line) (more : List DialogueNode.Option)
    (child : Str) (h : more ≠ []) :
    ∃ more', more' ≠ [] ∧ linkLine (withMoreOptions p more) child = withMoreOptions p more' := by
  obtain ⟨init, o, rfl⟩ : ∃ init o, more = init ++ [o] :=
    ⟨more.dropLast, more.getLast h, (List.dropLast_append_getLast h).symm⟩
  rw [linkLine_last_option (withMoreOptions p (init ++ [o])) child (p.options ++ init) o
    (by simp [withMoreOptions])]
  by_cases ho : o.isShortcut = true
  · rw [if_pos ho]
    exact ⟨init ++ [{ o with gotoNode := child }], by simp, by simp [withMoreOptions]⟩
  · rw [if_neg ho]
    exact ⟨init ++ [o], by simp, rfl⟩

/-- What the flush does when potential lines are buffered: the node gains the buffered line at
index `rand() % size`. -/
theorem flushPotentialLines_pick (rand : Nat → Nat) (node pot : DialogueNode) (k : Nat)
    (h : pot.lines ≠ []) :
    ∃ c, pot.lines[rand k % pot.lines.length]? = some c ∧
      (flushPotentialLines rand node pot k).1 = { node with lines := node.lines ++ [c] } ∧
      (flushPotentialLines rand node pot k).2.1.lines = [] := by
  unfold flushPotentialLines
  rw [dif_pos h]
  refine ⟨pot.lines.get ⟨rand k % pot.lines.length, Nat.mod_lt _ (List.length_pos.mpr h)⟩,
    ?_, rfl, rfl⟩
  simp [List.getElem?_eq_getElem (Nat.mod_lt _ (List.length_pos.mpr h))]
/-- A buffered potential line that has been linked stays in the buffer, with further options at
most, until the flush, which picks one buffered line; the node that the scope returns has the
line picked after the lines its node had, and when the line picked is the linked one it is
there as it was linked, with further options at most. -/
theorem parseNodesLoop_buffered (rand : Nat → Nat) (tags : Str) (lines : List Str)
    (ps : List DialogueNode.Line) (p : DialogueNode.Line) :
    ∀ (fuel : Nat) (sc : Scope) (name : Str) (level : Nat) (out : Nat × List DialogueNode × Nat),
      parseNodesLoop rand tags lines fuel name level sc = .ok out →
      ∀ (more : List DialogueNode.Option) (later : List DialogueNode.Line),
        sc.potentialNode.lines = ps ++ withMoreOptions p more :: later →
        ((later = [] ∧ more = [] ∧ linkKept level .lastBuffered (lines.drop sc.i) = true) ∨
          more ≠ [] ∨ (later ≠ [] ∧ linkKept level .buffered (lines.drop sc.i) = true)) →
        ∃ node' cands kf c c' rest,
          out.2.1.getLast? = some node' ∧ node'.lines = sc.node.lines ++ c' :: rest ∧
          (∃ more' later', cands = ps ++ withMoreOptions p more' :: later') ∧
          cands[rand kf % cands.length]? = some c ∧ sameText c c' ∧
          (rand kf % cands.length = ps.length → ∃ more', c' = withMoreOptions p more')
  | 0, sc, name, level, out, h, _, _, _, _ => by
    simp [parseNodesLoop] at h
  | fuel + 1, sc, name, level, out, h, more, later, hbuf, hstate => by
    have hne : sc.potentialNode.lines ≠ [] := by rw [hbuf]; simp
    have hat : (ps ++ withMoreOptions p more :: later)[ps.length]?
        = some (withMoreOptions p more) := by
      rw [List.getElem?_append_right (le_refl _)]
      simp
    have hfinish : ∃ node' cands kf c c' rest,
        (finishScope rand sc).2.1.getLast? = some node' ∧
        node'.lines = sc.node.lines ++ c' :: rest ∧
        (∃ more' later', cands = ps ++ withMoreOptions p more' :: later') ∧
        cands[rand kf % cands.length]? = some c ∧ sameText c c' ∧
        (rand kf % cands.length = ps.length → ∃ more', c' = withMoreOptions p more') := by
      obtain ⟨c, hc1, hc2, _⟩ := flushPotentialLines_pick rand sc.node sc.potentialNode sc.k hne
      refine ⟨(flushPotentialLines rand sc.node sc.potentialNode sc.k).1, sc.potentialNode.lines,
        sc.k, c, c, [], by simp [finishScope], by rw [hc2], ⟨more, later, hbuf⟩, hc1,
        sameText_refl c, fun hk => ⟨more, ?_⟩⟩
      rw [hk, hbuf, hat] at hc1
      exact (Option.some.inj hc1).symm
    by_cases hi : sc.i < lines.length
    · have hdrop := drop_eq_cons lines sc.i hi
      have hrec : ∀ (sc' : Scope), parseNodesLoop rand tags lines fuel name level sc' = .ok out →
          sc'.node = sc.node →
          ∀ (more : List DialogueNode.Option) (later : List DialogueNode.Line),
          sc'.potentialNode.lines = ps ++ withMoreOptions p more :: later →
          ((later = [] ∧ more = [] ∧ linkKept level .lastBuffered (lines.drop sc'.i) = true) ∨
            more ≠ [] ∨ (later ≠ [] ∧ linkKept level .buffered (lines.drop sc'.i) = true)) →
          ∃ node' cands kf c c' rest,
            out.2.1.getLast? = some node' ∧ node'.lines = sc.node.lines ++ c' :: rest ∧
            (∃ more' later', cands = ps ++ withMoreOptions p more' :: later') ∧
            cands[rand kf % cands.length]? = some c ∧ sameText c c' ∧
            (rand kf % cands.length = ps.length → ∃ more', c' = withMoreOptions p more') := by
        intro sc' h' hnode' more' later' hb' hs'
        rw [← hnode']
        exact parseNodesLoop_buffered rand tags lines ps p fuel sc' name level out h' more' later'
          hb' hs'
      -- an option pushed to the back of the buffer
      have hpush : ∀ (o : DialogueNode.Option) (sc' : Scope),
          parseNodesLoop rand tags lines fuel name level sc' = .ok out →
          sc'.i = sc.i + 1 → sc'.node = sc.node →
          sc'.potentialNode.lines = pushOptionToBack sc.potentialNode.lines o →
          (later ≠ [] → more = [] →
            linkKept level .buffered (lines.drop sc.i) = true →
            linkKept level .buffered (lines.drop (sc.i + 1)) = true) →
          ∃ node' cands kf c c' rest,
            out.2.1.getLast? = some node' ∧ node'.lines = sc.node.lines ++ c' :: rest ∧
            (∃ more' later', cands = ps ++ withMoreOptions p more' :: later') ∧
            cands[rand kf % cands.length]? = some c ∧ sameText c c' ∧
            (rand kf % cands.length = ps.length → ∃ more', c' = withMoreOptions p more') := by
        intro o sc' h' hi' hnode' hpot' hkeep
        by_cases hl : later = []
        · subst hl
          rw [hbuf, pushOptionToBack_last, withMoreOptions_withMoreOptions] at hpot'
          exact hrec sc' h' hnode' (more ++ [o]) [] hpot' (Or.inr (Or.inl (by simp)))
        · obtain ⟨hm1, hm2⟩ := pushOptionToBack_slot ps later (withMoreOptions p more) o hl
          rw [hbuf, hm1] at hpot'
          refine hrec sc' h' hnode' more _ hpot' ?_
          by_cases hmore : more = []
          · rcases hstate with hs | hs | hs
            · exact absurd hs.1 hl
            · exact absurd hmore hs
            · exact Or.inr (Or.inr ⟨hm2, by rw [hi']; exact hkeep hl hmore hs.2⟩)
          · exact Or.inr (Or.inl hmore)
      by_cases habs : startsWith (trim (lines.get ⟨sc.i, hi⟩)) k_optionShortcut = true ∧
          sc.potentialNode.lines ≠ []
      · rw [parseNodesLoop_absorb rand tags lines fuel name level sc hi habs] at h
        cases h1 : parseLine fuel (trim (lines.get ⟨sc.i, hi⟩)) sc.potentialNode with
        | error e =>
          rw [h1] at h
          simp at h
        | ok r =>
          obtain ⟨b, pot'⟩ := r
          rw [h1] at h
          simp only at h
          rcases parseLine_cases _ _ _ _ h1 with ⟨h0, _⟩ | ⟨h0, hsc, o, hr⟩ | ⟨h0, hsc, _⟩
          · rw [h0] at habs
            exact absurd habs.1 (by decide)
          · simp only at hr
            rw [if_neg hne] at hr
            exact hpush o { sc with i := sc.i + 1, potentialNode := pot' } h rfl rfl
              (by simp only; rw [hr])
              (fun _ _ hk => by
                rw [hdrop, linkKept, if_pos habs.1] at hk
                exact hk)
          · rw [habs.1] at hsc
            exact absurd hsc (by decide)
      · have hnsc : ¬ startsWith (trim (lines.get ⟨sc.i, hi⟩)) k_optionShortcut = true :=
          fun hc => habs ⟨hc, hne⟩
        by_cases hd : level < calulateIndentLevel (lines.get ⟨sc.i, hi⟩)
        · rw [parseNodesLoop_child rand tags lines fuel name level sc hi habs hd] at h
          cases hc : parseNodesLoop rand tags lines fuel (childName name sc.i)
              (calulateIndentLevel (lines.get ⟨sc.i, hi⟩))
              { i := sc.i, node := { name := childName name sc.i, tags := tags },
                potentialNode := {}, nodeSet := sc.nodeSet, k := sc.k } with
          | error e =>
            rw [hc] at h
            simp at h
          | ok oc =>
            obtain ⟨i', nodeSet', k'⟩ := oc
            rw [hc] at h
            simp only at h
            have hlp : linkPrevious sc.node sc.potentialNode (backName nodeSet')
                = (sc.node, { sc.potentialNode with
                    lines := modifyBack (linkLine · (backName nodeSet'))
                      sc.potentialNode.lines }) := by
              simp [linkPrevious, hne]
            rw [hlp] at h
            simp only at h
            by_cases hl : later = []
            · subst hl
              have hmore : more ≠ [] := by
                rcases hstate with hs | hs | hs
                · rw [hdrop, linkKept, if_neg hnsc, if_pos hd] at hs
                  exact absurd hs.2.2 (by decide)
                · exact hs
                · exact absurd rfl hs.1
              obtain ⟨more', hm1, hm2⟩ :=
                linkLine_withMoreOptions p more (backName nodeSet') hmore
              exact hrec _ h rfl more' []
                (by simp only; rw [hbuf, modifyBack_concat, hm2]) (Or.inr (Or.inl hm1))
            · obtain ⟨hm1, hm2⟩ := modifyBack_slot (linkLine · (backName nodeSet')) ps later
                (withMoreOptions p more) hl
              refine hrec _ h rfl more _ (by simp only; rw [hbuf, hm1]) ?_
              by_cases hmore : more = []
              · rcases hstate with hs | hs | hs
                · exact absurd hs.1 hl
                · exact absurd hmore hs
                · obtain ⟨c1, c2⟩ := parseNodesLoop_consumed rand tags lines fuel _ _ _ _ hc
                  simp only at c1 c2
                  have hlev := levelAt_eq lines sc.i hi
                  have := linkKept_buffered_skip level lines (i' - sc.i) sc.i hs.2
                    (fun j hj1 hj2 => by
                      rcases c2 j hj1 (by omega) with hc2 | hc2
                      · exact Or.inl hc2
                      · exact Or.inr (by omega))
                  rw [show sc.i + (i' - sc.i) = i' by omega] at this
                  exact Or.inr (Or.inr ⟨hm2, this⟩)
              · exact Or.inr (Or.inl hmore)
        · by_cases hsh : calulateIndentLevel (lines.get ⟨sc.i, hi⟩) < level
          · rw [parseNodesLoop_shallow rand tags lines fuel name level sc hi habs hsh] at h
            simp only [Except.ok.injEq] at h
            rw [← h]
            exact hfinish
          · have heq : calulateIndentLevel (lines.get ⟨sc.i, hi⟩) = level := by omega
            cases hpot : startsWith (trim (lines.get ⟨sc.i, hi⟩)) k_potentialLine with
            | true =>
              rw [parseNodesLoop_potential rand tags lines fuel name level sc hi habs heq hpot]
                at h
              cases h1 : parseLine fuel
                  (substrFrom (trim (lines.get ⟨sc.i, hi⟩)) k_potentialLine.length)
                  sc.potentialNode with
              | error e =>
                rw [h1] at h
                simp at h
              | ok r =>
                obtain ⟨b, pot'⟩ := r
                rw [h1] at h
                simp only at h
                rcases parseLine_cases _ _ _ _ h1 with ⟨h0, hr⟩ | ⟨h0, hsc, o, hr⟩ |
                    ⟨h0, hsc, line, hr⟩
                · simp only at hr
                  refine hrec { sc with i := sc.i + 1, potentialNode := pot' } h rfl
                    more later (by simp only; rw [hr, hbuf]) ?_
                  rcases hstate with hs | hs | hs
                  · rw [hdrop, linkKept, if_neg hnsc, if_neg hd, if_neg hsh, if_pos hpot,
                      if_pos h0] at hs
                    exact Or.inl hs
                  · exact Or.inr (Or.inl hs)
                  · rw [hdrop, linkKept, if_neg hnsc, if_neg hd, if_neg hsh, if_pos hpot] at hs
                    exact Or.inr (Or.inr hs)
                · simp only at hr
                  rw [if_neg hne] at hr
                  exact hpush o { sc with i := sc.i + 1, potentialNode := pot' } h rfl rfl
                    (by simp only; rw [hr])
                    (fun _ _ hk => by
                      rw [hdrop, linkKept, if_neg hnsc, if_neg hd, if_neg hsh, if_pos hpot] at hk
                      exact hk)
                · simp only at hr
                  have hsc' : ¬ startsWith
                      (substrFrom (trim (lines.get ⟨sc.i, hi⟩)) k_potentialLine.length)
                      k_optionShortcut = true := by
                    rw [hsc]
                    exact Bool.false_ne_true
                  refine hrec { sc with i := sc.i + 1, potentialNode := pot' } h rfl
                    more (later ++ [line]) (by simp only; rw [hr, hbuf]; simp) ?_
                  rcases hstate with hs | hs | hs
                  · rw [hdrop, linkKept, if_neg hnsc, if_neg hd, if_neg hsh, if_pos hpot,
                      if_neg h0, if_neg hsc'] at hs
                    exact Or.inr (Or.inr ⟨by simp, hs.2.2⟩)
                  · exact Or.inr (Or.inl hs)
                  · rw [hdrop, linkKept, if_neg hnsc, if_neg hd, if_neg hsh, if_pos hpot] at hs
                    exact Or.inr (Or.inr ⟨by simp, hs.2⟩)
            | false =>
              rw [parseNodesLoop_normal rand tags lines fuel name level sc hi habs heq hpot] at h
              have hpot' : ¬ startsWith (trim (lines.get ⟨sc.i, hi⟩)) k_potentialLine = true := by
                rw [hpot]
                exact Bool.false_ne_true
              cases h1 : parseLine fuel (trim (lines.get ⟨sc.i, hi⟩))
                  (flushPotentialLines rand sc.node sc.potentialNode sc.k).1 with
              | error e =>
                rw [h1] at h
                simp at h
              | ok r =>
                obtain ⟨b, node'⟩ := r
                rw [h1] at h
                simp only at h
                obtain ⟨c, hc1, hc2, hc3⟩ :=
                  flushPotentialLines_pick rand sc.node sc.potentialNode sc.k hne
                have hpicked : rand sc.k % sc.potentialNode.lines.length = ps.length →
                    c = withMoreOptions p more := by
                  intro hk
                  rw [hk, hbuf, hat] at hc1
                  exact (Option.some.inj hc1).symm
                -- the line picked, in the node that the scope returns
                have hslot : ∀ (sc' : Scope) (rest : List DialogueNode.Line),
                    parseNodesLoop rand tags lines fuel name level sc' = .ok out →
                    sc'.i = sc.i + 1 → sc'.node.lines = sc.node.lines ++ c :: rest →
                    (rest = [] → trim (lines.get ⟨sc.i, hi⟩) = []) →
                    ∃ node' x' rest', out.2.1.getLast? = some node' ∧
                      node'.lines = sc.node.lines ++ x' :: rest' ∧ sameText c x' ∧
                      (rand sc.k % sc.potentialNode.lines.length = ps.length →
                        ∃ more', x' = withMoreOptions p more') := by
                  intro sc' rest h' hi' hn' hrest
                  refine parseNodesLoop_slot rand tags lines sc.node.lines
                    (fun x => sameText c x ∧
                      (rand sc.k % sc.potentialNode.lines.length = ps.length →
                        ∃ more', x = withMoreOptions p more'))
                    (fun x => sameText c x ∧
                      (rand sc.k % sc.potentialNode.lines.length = ps.length →
                        ∃ more', more' ≠ [] ∧ x = withMoreOptions p more'))
                    ?_ ?_ ?_ fuel sc' name level out h' c rest hn'
                    ⟨sameText_refl c, fun hk => ⟨more, hpicked hk⟩⟩ ?_
                  · intro x o hx
                    refine ⟨sameText_withMoreOptions c x [o] hx.1, fun hk => ?_⟩
                    obtain ⟨m, hm⟩ := hx.2 hk
                    exact ⟨m ++ [o], by simp, by rw [hm, withMoreOptions_withMoreOptions]⟩
                  · intro x child hx
                    refine ⟨sameText_linkLine c x child hx.1, fun hk => ?_⟩
                    obtain ⟨m, hm1, hm2⟩ := hx.2 hk
                    rw [hm2]
                    exact linkLine_withMoreOptions p m child hm1
                  · intro x hx
                    exact ⟨hx.1, fun hk => by
                      obtain ⟨m, _, hm2⟩ := hx.2 hk
                      exact ⟨m, hm2⟩⟩
                  · by_cases hr : rest = []
                    · have h0 := hrest hr
                      by_cases hk : rand sc.k % sc.potentialNode.lines.length = ps.length
                      · by_cases hmore : more = []
                        · refine Or.inr (Or.inr (Or.inr ?_))
                          rw [hi']
                          rcases hstate with hs | hs | hs
                          · rw [hdrop, linkKept, if_neg hnsc, if_neg hd, if_neg hsh,
                              if_neg hpot', if_pos h0] at hs
                            exact hs.2.2
                          · exact absurd hmore hs
                          · rw [hdrop, linkKept, if_neg hnsc, if_neg hd, if_neg hsh,
                              if_neg hpot', if_pos h0] at hs
                            exact hs.2
                        · exact Or.inr (Or.inr (Or.inl ⟨sameText_refl c,
                            fun _ => ⟨more, hmore, hpicked hk⟩⟩))
                      · exact Or.inr (Or.inr (Or.inl ⟨sameText_refl c, fun hk' => absurd hk' hk⟩))
                    · exact Or.inl hr
                have hdone : ∀ (sc' : Scope) (rest : List DialogueNode.Line),
                    parseNodesLoop rand tags lines fuel name level sc' = .ok out →
                    sc'.i = sc.i + 1 → sc'.node.lines = sc.node.lines ++ c :: rest →
                    (rest = [] → trim (lines.get ⟨sc.i, hi⟩) = []) →
                    ∃ node' cands kf c c' rest,
                      out.2.1.getLast? = some node' ∧
                      node'.lines = sc.node.lines ++ c' :: rest ∧
                      (∃ more' later', cands = ps ++ withMoreOptions p more' :: later') ∧
                      cands[rand kf % cands.length]? = some c ∧ sameText c c' ∧
                      (rand kf % cands.length = ps.length →
                        ∃ more', c' = withMoreOptions p more') := by
                  intro sc' rest h' hi' hn' hrest
                  obtain ⟨node', x', rest', e1, e2, e3, e4⟩ := hslot sc' rest h' hi' hn' hrest
                  exact ⟨node', sc.potentialNode.lines, sc.k, c, x', rest', e1, e2,
                    ⟨more, later, hbuf⟩, hc1, e3, e4⟩
                rcases parseLine_cases _ _ _ _ h1 with ⟨h0, hr⟩ | ⟨h0, hsc, o, hr⟩ |
                    ⟨h0, hsc, line, hr⟩
                · simp only at hr
                  exact hdone _ [] h rfl (by simp only; rw [hr, hc2]) (fun _ => h0)
                · exact absurd hsc hnsc
                · simp only at hr
                  exact hdone _ [line] h rfl (by simp only; rw [hr, hc2]; simp)
                    (fun hc => absurd hc (by simp))
    · rw [parseNodesLoop_end rand tags lines fuel name level sc hi] at h
      simp only [Except.ok.injEq] at h
      rw [← h]
      exact hfinish

/-- Claim C7 (amended): in the scope of the node `name` at indentation `level`, let line `i` be
deeper than the scope and not be taken as a `->` option of buffered potential lines, and let
every line parse. Then the recursive call for the child returns, past line `i`, a node set
whose last node is named `name:i`; the scope returns; a node named `name:i` is in the node set
that the scope returns, and the last node of that set is the node of the scope. The previous
line is the last buffered potential line if there is one, else the last line of the node if
there is one, and it is linked to `name:i`: linking sets the goto of the line when it has no
option, sets the goto of its last option when that one is a shortcut option (whatever the goto
was), and changes nothing when its last option is an inline option. The link is in the node that
the scope returns when the scope, going on after the child, does not meet another deeper line
while the linked line is the previous line and has gained no option (`linkKept`): the node
returned has the linked last line of the node where it was, with further options at most; and
for a linked potential line, the node returned has, after the lines the node had, the buffered
line that the flush picks, with the text it had in the buffer, and when the index picked is that
of the linked line, it is that line as it was linked, with further options at most. -/
theorem parseNodes_child_linked (rand : Nat → Nat) (tags : Str) (lines : List Str) (f0 : Nat)
    (sc : Scope) (name : Str) (level fuel : Nat)
    (hl : linesParse f0 lines = true) (hi : sc.i < lines.length)
    (hns : ¬ (startsWith (trim (lines.get ⟨sc.i, hi⟩)) k_optionShortcut = true ∧
      sc.potentialNode.lines ≠ []))
    (hd : level < calulateIndentLevel (lines.get ⟨sc.i, hi⟩))
    (hf : f0 + 2 * (lines.length - sc.i) + 1 ≤ fuel) :
    (∃ i' nodeSet' k' out node',
      parseNodesLoop rand tags lines fuel (childName name sc.i)
          (calulateIndentLevel (lines.get ⟨sc.i, hi⟩))
          { i := sc.i, node := { name := childName name sc.i, tags := tags },
            potentialNode := {}, nodeSet := sc.nodeSet, k := sc.k } = .ok (i', nodeSet', k') ∧
      sc.i < i' ∧ backName nodeSet' = childName name sc.i ∧
      parseNodesLoop rand tags lines (fuel + 1) name level sc = .ok out ∧
      (∃ n ∈ out.2.1, n.name = childName name sc.i) ∧
      out.2.1.getLast? = some node' ∧ node'.name = sc.node.name ∧
      (∀ (ls : List DialogueNode.Line) (l : DialogueNode.Line),
        sc.potentialNode.lines = [] → sc.node.lines = ls ++ [l] →
        linkKept level .lastLine (lines.drop i') = true →
        ∃ more rest, node'.lines =
          ls ++ withMoreOptions (linkLine l (childName name sc.i)) more :: rest) ∧
      (∀ (ps : List DialogueNode.Line) (p : DialogueNode.Line),
        sc.potentialNode.lines = ps ++ [p] →
        linkKept level .lastBuffered (lines.drop i') = true →
        ∃ cands kf c c' rest,
          node'.lines = sc.node.lines ++ c' :: rest ∧
          (∃ more later,
            cands = ps ++ withMoreOptions (linkLine p (childName name sc.i)) more :: later) ∧
          cands[rand kf % cands.length]? = some c ∧ sameText c c' ∧
          (rand kf % cands.length = ps.length →
            ∃ more, c' = withMoreOptions (linkLine p (childName name sc.i)) more))) ∧
    (∀ (l : DialogueNode.Line) (child : Str), l.options = [] →
      linkLine l child = { l with gotoNode := child }) ∧
    (∀ (l : DialogueNode.Line) (child : Str) (options : List DialogueNode.Option)
        (o : DialogueNode.Option), l.options = options ++ [o] → o.isShortcut = true →
      linkLine l child = { l with options := options ++ [{ o with gotoNode := child }] }) ∧
    (∀ (l : DialogueNode.Line) (child : Str) (options : List DialogueNode.Option)
        (o : DialogueNode.Option), l.options = options ++ [o] → o.isShortcut = false →
      linkLine l child = l) := by
  refine ⟨?_, ?_, ?_, ?_⟩
  · obtain ⟨m, hm⟩ : ∃ m, lines.length - sc.i = m + 1 := ⟨lines.length - sc.i - 1, by omega⟩
    have ih := parseNodesLoop_returns rand tags lines f0 hl m
    obtain ⟨outc, hoc, ⟨_, extrac, nc, hsetc, hnc⟩, hlt⟩ :=
      parseNodesLoop_consume rand tags lines f0 hl m ih
        { i := sc.i, node := { name := childName name sc.i, tags := tags },
          potentialNode := {}, nodeSet := sc.nodeSet, k := sc.k }
        (childName name sc.i) (calulateIndentLevel (lines.get ⟨sc.i, hi⟩)) fuel hi
        (by simp) rfl (by simp only; omega) (by omega)
    obtain ⟨i', nodeSet', k'⟩ := outc
    simp only at hsetc hnc hlt
    have hback : backName nodeSet' = childName name sc.i := by
      rw [hsetc, backName_concat, hnc]
    obtain ⟨out, ho, hle, extra, n, hset, hn⟩ :=
      ih { i := i', node := (linkPrevious sc.node sc.potentialNode (childName name sc.i)).1,
           potentialNode := (linkPrevious sc.node sc.potentialNode (childName name sc.i)).2,
           nodeSet := nodeSet', k := k' } name level fuel (by simp only; omega) (by omega)
    simp only at hset hn
    have hlast : out.2.1.getLast? = some n := by rw [hset]; simp
    refine ⟨i', nodeSet', k', out, n, hoc, hlt, hback, ?_, ⟨nc, ?_, hnc⟩, hlast, ?_, ?_, ?_⟩
    · rw [parseNodesLoop_child rand tags lines fuel name level sc hi hns hd, hoc]
      simp only [hback]
      exact ho
    · rw [hset, hsetc]
      simp
    · rw [hn, linkPrevious_name]
    · intro ls l hp hnl hkept
      obtain ⟨node', x', rest', e1, e2, more, e3⟩ := parseNodesLoop_slot rand tags lines ls
        (fun x => ∃ more, x = withMoreOptions (linkLine l (childName name sc.i)) more)
        (fun x => ∃ more, more ≠ [] ∧ x = withMoreOptions (linkLine l (childName name sc.i)) more)
        (fun x o hx => by
          obtain ⟨m, hm⟩ := hx
          exact ⟨m ++ [o], by simp, by rw [hm, withMoreOptions_withMoreOptions]⟩)
        (fun x child hx => by
          obtain ⟨m, hm1, hm2⟩ := hx
          rw [hm2]
          exact linkLine_withMoreOptions _ m child hm1)
        (fun x hx => by
          obtain ⟨m, _, hm2⟩ := hx
          exact ⟨m, hm2⟩)
        fuel _ name level out ho (linkLine l (childName name sc.i)) []
        (by simp [linkPrevious, hp, hnl, modifyBack_concat])
        ⟨[], (withMoreOptions_nil _).symm⟩ (Or.inr (Or.inr (Or.inr hkept)))
      rw [hlast] at e1
      rw [Option.some.inj e1, e2, e3]
      exact ⟨more, rest', rfl⟩
    · intro ps p hp hkept
      have hne : sc.potentialNode.lines ≠ [] := by rw [hp]; simp
      obtain ⟨node', cands, kf, c, c', rest, e1, e2, e3, e4, e5, e6⟩ :=
        parseNodesLoop_buffered rand tags lines ps (linkLine p (childName name sc.i)) fuel
          { i := i', node := (linkPrevious sc.node sc.potentialNode (childName name sc.i)).1,
            potentialNode := (linkPrevious sc.node sc.potentialNode (childName name sc.i)).2,
            nodeSet := nodeSet', k := k' } name level out ho [] []
          (by simp [linkPrevious, hp, modifyBack_concat, withMoreOptions_nil])
          (Or.inl ⟨rfl, rfl, hkept⟩)
      rw [hlast] at e1
      rw [Option.some.inj e1]
      have hnode : (linkPrevious sc.node sc.potentialNode (childName name sc.i)).1 = sc.node := by
        simp [linkPrevious, hne]
      simp only [hnode] at e2
      exact ⟨cands, kf, c, c', rest, e2, e3, e4, e5, e6⟩
  · intro l child h
    exact linkLine_no_option l child h
  · intro l child options o h ho
    rw [linkLine_last_option l child options o h, if_pos ho]
  · intro l child options o h ho
    rw [linkLine_last_option l child options o h, if_neg (by simp [ho])]

/-- A witness of C7. In the lines `A: hi`, a deeper `B: child`, `C: next`, the scope of `P`
after its first line returns the node `P` whose first line is `A: hi` with the goto `P:1`. In
the lines `%A: one`, a deeper `B: child`, `%C: two`, `D: end`, with a generator that returns 0,
the flush picks the first buffered line, and the scope of `P` returns the node `P` whose first
line is `A: one` with the goto `P:1`. -/
theorem parseNodes_child_linked_witness :
    (∃ out node',
      parseNodesLoop (fun _ => 0) [] linkedLines 9 "P".toList 0 linkedScope = .ok out ∧
      out.2.1.getLast? = some node' ∧
      ∃ more rest, node'.lines =
        withMoreOptions { actorKey := "A".toList, content := "hi".toList,
                          gotoNode := "P:1".toList } more :: rest) ∧
    (∃ out node',
      parseNodesLoop (fun _ => 0) [] bufferedLines 11 "P".toList 0 bufferedScope = .ok out ∧
      out.2.1.getLast? = some node' ∧
      ∃ more rest, node'.lines =
        withMoreOptions { actorKey := "A".toList, content := "one".toList,
                          gotoNode := "P:1".toList } more :: rest) ∧
    parseNodesLoop (fun _ => 0) [] linkedLines 9 "P".toList 0 linkedScope
      = .ok (3, [{ name := "P:1".toList,
                   lines := [{ actorKey := "B".toList, content := "child".toList }] },
                 { name := "P".toList,
                   lines := [{ actorKey := "A".toList, content := "hi".toList,
                               gotoNode := "P:1".toList },
                             { actorKey := "C".toList, content := "next".toList }] }], 0) ∧
    parseNodesLoop (fun _ => 0) [] bufferedLines 11 "P".toList 0 bufferedScope
      = .ok (4, [{ name := "P:1".toList,
                   lines := [{ actorKey := "B".toList, content := "child".toList }] },
                 { name := "P".toList,
                   lines := [{ actorKey := "A".toList, content := "one".toList,
                               gotoNode := "P:1".toList },
                             { actorKey := "D".toList, content := "end".toList }] }], 1) := by
  refine ⟨?_, ?_, by decide, by decide⟩
  · obtain ⟨⟨i', ns, k', out, node', hoc, _, _, ho, _, hlast, _, hA, _⟩, _⟩ :=
      parseNodes_child_linked (fun _ => 0) [] linkedLines 3 linkedScope "P".toList 0 8
        (by decide) (by decide) (by decide) (by decide) (by decide)
    have hoc' : parseNodesLoop (fun _ => 0) [] linkedLines 8 "P:1".toList 1
        { i := 1, node := { name := "P:1".toList, tags := [] }, potentialNode := {},
          nodeSet := [], k := 0 } = .ok (i', ns, k') := hoc
    rw [show parseNodesLoop (fun _ => 0) [] linkedLines 8 "P:1".toList 1
        { i := 1, node := { name := "P:1".toList, tags := [] }, potentialNode := {},
          nodeSet := [], k := 0 }
        = .ok (2, [{ name := "P:1".toList,
                     lines := [{ actorKey := "B".toList, content := "child".toList }] }], 0)
        from by decide] at hoc'
    simp only [Except.ok.injEq, Prod.mk.injEq] at hoc'
    obtain ⟨hi2, _, _⟩ := hoc'
    obtain ⟨more, rest, hlines⟩ :=
      hA [] { actorKey := "A".toList, content := "hi".toList } rfl rfl
        (by rw [← hi2]; decide)
    exact ⟨out, node', ho, hlast, more, rest, hlines⟩
  · obtain ⟨⟨i', ns, k', out, node', hoc, _, _, ho, _, hlast, _, _, hB⟩, _⟩ :=
      parseNodes_child_linked (fun _ => 0) [] bufferedLines 3 bufferedScope "P".toList 0 10
        (by decide) (by decide) (by decide) (by decide) (by decide)
    have hoc' : parseNodesLoop (fun _ => 0) [] bufferedLines 10 "P:1".toList 1
        { i := 1, node := { name := "P:1".toList, tags := [] }, potentialNode := {},
          nodeSet := [], k := 0 } = .ok (i', ns, k') := hoc
    rw [show parseNodesLoop (fun _ => 0) [] bufferedLines 10 "P:1".toList 1
        { i := 1, node := { name := "P:1".toList, tags := [] }, potentialNode := {},
          nodeSet := [], k := 0 }
        = .ok (2, [{ name := "P:1".toList,
                     lines := [{ actorKey := "B".toList, content := "child".toList }] }], 0)
        from by decide] at hoc'
    simp only [Except.ok.injEq, Prod.mk.injEq] at hoc'
    obtain ⟨hi2, _, _⟩ := hoc'
    obtain ⟨cands, kf, c, c', rest, hlines, _, _, _, hpick⟩ :=
      hB [] { actorKey := "A".toList, content := "one".toList } rfl
        (by rw [← hi2]; decide)
    obtain ⟨more, hc'⟩ := hpick (Nat.zero_mod _)
    exact ⟨out, node', ho, hlast, more, rest, by rw [hlines, hc']; rfl⟩

end YarnKnitter
